import Mathlib

/-!
# NOVA résumé parser: a shallow embedding of `src/js/_parser.js`

The embedding also covers the parts of `src/js/_validator.js` (field and record validators,
`sanitizeInput`, `validatePassword`) and of `src/lib/puter-service.js` (`saveAnalysis` over
an explicit key-value store) that the statements below are about.

A JavaScript string is modelled by the list of its characters (`Str`).  File contents
reach the parser through a UTF-8 decoder, so every text is a well-formed sequence of
code points.  `toLowerCase` follows the case tables of Unicode 14.0: the lower-case mapping
of every character, the two-character image of U+0130 and the final-sigma rule.  The `i`
flag of a pattern folds ASCII letters only, as the source's patterns (no `u` flag) do for
the ASCII literals they are made of.

A string length that the source compares with a bound is counted in UTF-16 code units
(`utf16Length`) in the validator; in the parser the only length test is on ASCII text.

Regular expressions are embedded as terms of `Re` and run by a backtracking matcher
with the priorities of the ECMAScript one (ordered alternatives, greedy repetition);
`Re.Sem` is the declarative reading of a pattern.  Every repetition in the source is
over a single character class, which is what `Re.star` provides.
-/

namespace Nova

/-- A string: the list of its characters. -/
abbrev Str := List Char

/-! ## Character classes -/

/-- The class `\s` (ECMAScript WhiteSpace and LineTerminator), also what `trim` strips. -/
def isSpace (c : Char) : Bool :=
  c.toNat == 0x09 || c.toNat == 0x0A || c.toNat == 0x0B || c.toNat == 0x0C ||
  c.toNat == 0x0D || c.toNat == 0x20 || c.toNat == 0xA0 || c.toNat == 0x1680 ||
  (0x2000 ≤ c.toNat && c.toNat ≤ 0x200A) || c.toNat == 0x2028 || c.toNat == 0x2029 ||
  c.toNat == 0x202F || c.toNat == 0x205F || c.toNat == 0x3000 || c.toNat == 0xFEFF

/-- The class `\d`, that is `[0-9]`. -/
def isDigit (c : Char) : Bool := 0x30 ≤ c.toNat && c.toNat ≤ 0x39

/-- The class `[A-Z]`. -/
def isUpper (c : Char) : Bool := 0x41 ≤ c.toNat && c.toNat ≤ 0x5A

/-- The class `[a-z]`. -/
def isLower (c : Char) : Bool := 0x61 ≤ c.toNat && c.toNat ≤ 0x7A

/-- The class `[A-Za-z]`. -/
def isLetter (c : Char) : Bool := isUpper c || isLower c

/-- The class `\w`, that is `[A-Za-z0-9_]`. -/
def isWord (c : Char) : Bool := isLetter c || isDigit c || c == '_'

/-- Whether the character next to a position (if any) is a word character. -/
def isWordAt (c : Option Char) : Bool :=
  match c with
  | some x => isWord x
  | none => false

/-! ## String primitives -/

/-- The method `String.prototype.trim`. -/
def trim (s : Str) : Str := (s.dropWhile isSpace).rdropWhile isSpace

/-- The code points with the Unicode property `Cased` (Unicode 14.0), as inclusive ranges. -/
def casedRanges : List (Nat × Nat) :=
  [(0x41, 0x5A), (0x61, 0x7A), (0xAA, 0xAA), (0xB5, 0xB5), (0xBA, 0xBA), (0xC0, 0xD6), (0xD8, 0xF6), (0xF8, 0x1BA),
   (0x1BC, 0x1BF), (0x1C4, 0x293), (0x295, 0x2B8), (0x2C0, 0x2C1), (0x2E0, 0x2E4), (0x345, 0x345), (0x370, 0x373), (0x376, 0x377),
   (0x37A, 0x37D), (0x37F, 0x37F), (0x386, 0x386), (0x388, 0x38A), (0x38C, 0x38C), (0x38E, 0x3A1), (0x3A3, 0x3F5), (0x3F7, 0x481),
   (0x48A, 0x52F), (0x531, 0x556), (0x560, 0x588), (0x10A0, 0x10C5), (0x10C7, 0x10C7), (0x10CD, 0x10CD), (0x10D0, 0x10FA), (0x10FD, 0x10FF),
   (0x13A0, 0x13F5), (0x13F8, 0x13FD), (0x1C80, 0x1C88), (0x1C90, 0x1CBA), (0x1CBD, 0x1CBF), (0x1D00, 0x1DBF), (0x1E00, 0x1F15), (0x1F18, 0x1F1D),
   (0x1F20, 0x1F45), (0x1F48, 0x1F4D), (0x1F50, 0x1F57), (0x1F59, 0x1F59), (0x1F5B, 0x1F5B), (0x1F5D, 0x1F5D), (0x1F5F, 0x1F7D), (0x1F80, 0x1FB4),
   (0x1FB6, 0x1FBC), (0x1FBE, 0x1FBE), (0x1FC2, 0x1FC4), (0x1FC6, 0x1FCC), (0x1FD0, 0x1FD3), (0x1FD6, 0x1FDB), (0x1FE0, 0x1FEC), (0x1FF2, 0x1FF4),
   (0x1FF6, 0x1FFC), (0x2071, 0x2071), (0x207F, 0x207F), (0x2090, 0x209C), (0x2102, 0x2102), (0x2107, 0x2107), (0x210A, 0x2113), (0x2115, 0x2115),
   (0x2119, 0x211D), (0x2124, 0x2124), (0x2126, 0x2126), (0x2128, 0x2128), (0x212A, 0x212D), (0x212F, 0x2134), (0x2139, 0x2139), (0x213C, 0x213F),
   (0x2145, 0x2149), (0x214E, 0x214E), (0x2160, 0x217F), (0x2183, 0x2184), (0x24B6, 0x24E9), (0x2C00, 0x2CE4), (0x2CEB, 0x2CEE), (0x2CF2, 0x2CF3),
   (0x2D00, 0x2D25), (0x2D27, 0x2D27), (0x2D2D, 0x2D2D), (0xA640, 0xA66D), (0xA680, 0xA69D), (0xA722, 0xA787), (0xA78B, 0xA78E), (0xA790, 0xA7CA),
   (0xA7D0, 0xA7D1), (0xA7D3, 0xA7D3), (0xA7D5, 0xA7D9), (0xA7F5, 0xA7F6), (0xA7F8, 0xA7FA), (0xAB30, 0xAB5A), (0xAB5C, 0xAB68), (0xAB70, 0xABBF),
   (0xFB00, 0xFB06), (0xFB13, 0xFB17), (0xFF21, 0xFF3A), (0xFF41, 0xFF5A), (0x10400, 0x1044F), (0x104B0, 0x104D3), (0x104D8, 0x104FB), (0x10570, 0x1057A),
   (0x1057C, 0x1058A), (0x1058C, 0x10592), (0x10594, 0x10595), (0x10597, 0x105A1), (0x105A3, 0x105B1), (0x105B3, 0x105B9), (0x105BB, 0x105BC), (0x10780, 0x10780),
   (0x10783, 0x10785), (0x10787, 0x107B0), (0x107B2, 0x107BA), (0x10C80, 0x10CB2), (0x10CC0, 0x10CF2), (0x118A0, 0x118DF), (0x16E40, 0x16E7F), (0x1D400, 0x1D454),
   (0x1D456, 0x1D49C), (0x1D49E, 0x1D49F), (0x1D4A2, 0x1D4A2), (0x1D4A5, 0x1D4A6), (0x1D4A9, 0x1D4AC), (0x1D4AE, 0x1D4B9), (0x1D4BB, 0x1D4BB), (0x1D4BD, 0x1D4C3),
   (0x1D4C5, 0x1D505), (0x1D507, 0x1D50A), (0x1D50D, 0x1D514), (0x1D516, 0x1D51C), (0x1D51E, 0x1D539), (0x1D53B, 0x1D53E), (0x1D540, 0x1D544), (0x1D546, 0x1D546),
   (0x1D54A, 0x1D550), (0x1D552, 0x1D6A5), (0x1D6A8, 0x1D6C0), (0x1D6C2, 0x1D6DA), (0x1D6DC, 0x1D6FA), (0x1D6FC, 0x1D714), (0x1D716, 0x1D734), (0x1D736, 0x1D74E),
   (0x1D750, 0x1D76E), (0x1D770, 0x1D788), (0x1D78A, 0x1D7A8), (0x1D7AA, 0x1D7C2), (0x1D7C4, 0x1D7CB), (0x1DF00, 0x1DF09), (0x1DF0B, 0x1DF1E), (0x1E900, 0x1E943),
   (0x1F130, 0x1F149), (0x1F150, 0x1F169), (0x1F170, 0x1F189)]

/-- The code points with the Unicode property `Case_Ignorable` (Unicode 14.0), as inclusive
ranges. -/
def caseIgnorableRanges : List (Nat × Nat) :=
  [(0x27, 0x27), (0x2E, 0x2E), (0x3A, 0x3A), (0x5E, 0x5E), (0x60, 0x60), (0xA8, 0xA8), (0xAD, 0xAD), (0xAF, 0xAF),
   (0xB4, 0xB4), (0xB7, 0xB8), (0x2B0, 0x36F), (0x374, 0x375), (0x37A, 0x37A), (0x384, 0x385), (0x387, 0x387), (0x483, 0x489),
   (0x559, 0x559), (0x55F, 0x55F), (0x591, 0x5BD), (0x5BF, 0x5BF), (0x5C1, 0x5C2), (0x5C4, 0x5C5), (0x5C7, 0x5C7), (0x5F4, 0x5F4),
   (0x600, 0x605), (0x610, 0x61A), (0x61C, 0x61C), (0x640, 0x640), (0x64B, 0x65F), (0x670, 0x670), (0x6D6, 0x6DD), (0x6DF, 0x6E8),
   (0x6EA, 0x6ED), (0x70F, 0x70F), (0x711, 0x711), (0x730, 0x74A), (0x7A6, 0x7B0), (0x7EB, 0x7F5), (0x7FA, 0x7FA), (0x7FD, 0x7FD),
   (0x816, 0x82D), (0x859, 0x85B), (0x888, 0x888), (0x890, 0x891), (0x898, 0x89F), (0x8C9, 0x902), (0x93A, 0x93A), (0x93C, 0x93C),
   (0x941, 0x948), (0x94D, 0x94D), (0x951, 0x957), (0x962, 0x963), (0x971, 0x971), (0x981, 0x981), (0x9BC, 0x9BC), (0x9C1, 0x9C4),
   (0x9CD, 0x9CD), (0x9E2, 0x9E3), (0x9FE, 0x9FE), (0xA01, 0xA02), (0xA3C, 0xA3C), (0xA41, 0xA42), (0xA47, 0xA48), (0xA4B, 0xA4D),
   (0xA51, 0xA51), (0xA70, 0xA71), (0xA75, 0xA75), (0xA81, 0xA82), (0xABC, 0xABC), (0xAC1, 0xAC5), (0xAC7, 0xAC8), (0xACD, 0xACD),
   (0xAE2, 0xAE3), (0xAFA, 0xAFF), (0xB01, 0xB01), (0xB3C, 0xB3C), (0xB3F, 0xB3F), (0xB41, 0xB44), (0xB4D, 0xB4D), (0xB55, 0xB56),
   (0xB62, 0xB63), (0xB82, 0xB82), (0xBC0, 0xBC0), (0xBCD, 0xBCD), (0xC00, 0xC00), (0xC04, 0xC04), (0xC3C, 0xC3C), (0xC3E, 0xC40),
   (0xC46, 0xC48), (0xC4A, 0xC4D), (0xC55, 0xC56), (0xC62, 0xC63), (0xC81, 0xC81), (0xCBC, 0xCBC), (0xCBF, 0xCBF), (0xCC6, 0xCC6),
   (0xCCC, 0xCCD), (0xCE2, 0xCE3), (0xD00, 0xD01), (0xD3B, 0xD3C), (0xD41, 0xD44), (0xD4D, 0xD4D), (0xD62, 0xD63), (0xD81, 0xD81),
   (0xDCA, 0xDCA), (0xDD2, 0xDD4), (0xDD6, 0xDD6), (0xE31, 0xE31), (0xE34, 0xE3A), (0xE46, 0xE4E), (0xEB1, 0xEB1), (0xEB4, 0xEBC),
   (0xEC6, 0xEC6), (0xEC8, 0xECD), (0xF18, 0xF19), (0xF35, 0xF35), (0xF37, 0xF37), (0xF39, 0xF39), (0xF71, 0xF7E), (0xF80, 0xF84),
   (0xF86, 0xF87), (0xF8D, 0xF97), (0xF99, 0xFBC), (0xFC6, 0xFC6), (0x102D, 0x1030), (0x1032, 0x1037), (0x1039, 0x103A), (0x103D, 0x103E),
   (0x1058, 0x1059), (0x105E, 0x1060), (0x1071, 0x1074), (0x1082, 0x1082), (0x1085, 0x1086), (0x108D, 0x108D), (0x109D, 0x109D), (0x10FC, 0x10FC),
   (0x135D, 0x135F), (0x1712, 0x1714), (0x1732, 0x1733), (0x1752, 0x1753), (0x1772, 0x1773), (0x17B4, 0x17B5), (0x17B7, 0x17BD), (0x17C6, 0x17C6),
   (0x17C9, 0x17D3), (0x17D7, 0x17D7), (0x17DD, 0x17DD), (0x180B, 0x180F), (0x1843, 0x1843), (0x1885, 0x1886), (0x18A9, 0x18A9), (0x1920, 0x1922),
   (0x1927, 0x1928), (0x1932, 0x1932), (0x1939, 0x193B), (0x1A17, 0x1A18), (0x1A1B, 0x1A1B), (0x1A56, 0x1A56), (0x1A58, 0x1A5E), (0x1A60, 0x1A60),
   (0x1A62, 0x1A62), (0x1A65, 0x1A6C), (0x1A73, 0x1A7C), (0x1A7F, 0x1A7F), (0x1AA7, 0x1AA7), (0x1AB0, 0x1ACE), (0x1B00, 0x1B03), (0x1B34, 0x1B34),
   (0x1B36, 0x1B3A), (0x1B3C, 0x1B3C), (0x1B42, 0x1B42), (0x1B6B, 0x1B73), (0x1B80, 0x1B81), (0x1BA2, 0x1BA5), (0x1BA8, 0x1BA9), (0x1BAB, 0x1BAD),
   (0x1BE6, 0x1BE6), (0x1BE8, 0x1BE9), (0x1BED, 0x1BED), (0x1BEF, 0x1BF1), (0x1C2C, 0x1C33), (0x1C36, 0x1C37), (0x1C78, 0x1C7D), (0x1CD0, 0x1CD2),
   (0x1CD4, 0x1CE0), (0x1CE2, 0x1CE8), (0x1CED, 0x1CED), (0x1CF4, 0x1CF4), (0x1CF8, 0x1CF9), (0x1D2C, 0x1D6A), (0x1D78, 0x1D78), (0x1D9B, 0x1DFF),
   (0x1FBD, 0x1FBD), (0x1FBF, 0x1FC1), (0x1FCD, 0x1FCF), (0x1FDD, 0x1FDF), (0x1FED, 0x1FEF), (0x1FFD, 0x1FFE), (0x200B, 0x200F), (0x2018, 0x2019),
   (0x2024, 0x2024), (0x2027, 0x2027), (0x202A, 0x202E), (0x2060, 0x2064), (0x2066, 0x206F), (0x2071, 0x2071), (0x207F, 0x207F), (0x2090, 0x209C),
   (0x20D0, 0x20F0), (0x2C7C, 0x2C7D), (0x2CEF, 0x2CF1), (0x2D6F, 0x2D6F), (0x2D7F, 0x2D7F), (0x2DE0, 0x2DFF), (0x2E2F, 0x2E2F), (0x3005, 0x3005),
   (0x302A, 0x302D), (0x3031, 0x3035), (0x303B, 0x303B), (0x3099, 0x309E), (0x30FC, 0x30FE), (0xA015, 0xA015), (0xA4F8, 0xA4FD), (0xA60C, 0xA60C),
   (0xA66F, 0xA672), (0xA674, 0xA67D), (0xA67F, 0xA67F), (0xA69C, 0xA69F), (0xA6F0, 0xA6F1), (0xA700, 0xA721), (0xA770, 0xA770), (0xA788, 0xA78A),
   (0xA7F2, 0xA7F4), (0xA7F8, 0xA7F9), (0xA802, 0xA802), (0xA806, 0xA806), (0xA80B, 0xA80B), (0xA825, 0xA826), (0xA82C, 0xA82C), (0xA8C4, 0xA8C5),
   (0xA8E0, 0xA8F1), (0xA8FF, 0xA8FF), (0xA926, 0xA92D), (0xA947, 0xA951), (0xA980, 0xA982), (0xA9B3, 0xA9B3), (0xA9B6, 0xA9B9), (0xA9BC, 0xA9BD),
   (0xA9CF, 0xA9CF), (0xA9E5, 0xA9E6), (0xAA29, 0xAA2E), (0xAA31, 0xAA32), (0xAA35, 0xAA36), (0xAA43, 0xAA43), (0xAA4C, 0xAA4C), (0xAA70, 0xAA70),
   (0xAA7C, 0xAA7C), (0xAAB0, 0xAAB0), (0xAAB2, 0xAAB4), (0xAAB7, 0xAAB8), (0xAABE, 0xAABF), (0xAAC1, 0xAAC1), (0xAADD, 0xAADD), (0xAAEC, 0xAAED),
   (0xAAF3, 0xAAF4), (0xAAF6, 0xAAF6), (0xAB5B, 0xAB5F), (0xAB69, 0xAB6B), (0xABE5, 0xABE5), (0xABE8, 0xABE8), (0xABED, 0xABED), (0xFB1E, 0xFB1E),
   (0xFBB2, 0xFBC2), (0xFE00, 0xFE0F), (0xFE13, 0xFE13), (0xFE20, 0xFE2F), (0xFE52, 0xFE52), (0xFE55, 0xFE55), (0xFEFF, 0xFEFF), (0xFF07, 0xFF07),
   (0xFF0E, 0xFF0E), (0xFF1A, 0xFF1A), (0xFF3E, 0xFF3E), (0xFF40, 0xFF40), (0xFF70, 0xFF70), (0xFF9E, 0xFF9F), (0xFFE3, 0xFFE3), (0xFFF9, 0xFFFB),
   (0x101FD, 0x101FD), (0x102E0, 0x102E0), (0x10376, 0x1037A), (0x10780, 0x10785), (0x10787, 0x107B0), (0x107B2, 0x107BA), (0x10A01, 0x10A03), (0x10A05, 0x10A06),
   (0x10A0C, 0x10A0F), (0x10A38, 0x10A3A), (0x10A3F, 0x10A3F), (0x10AE5, 0x10AE6), (0x10D24, 0x10D27), (0x10EAB, 0x10EAC), (0x10F46, 0x10F50), (0x10F82, 0x10F85),
   (0x11001, 0x11001), (0x11038, 0x11046), (0x11070, 0x11070), (0x11073, 0x11074), (0x1107F, 0x11081), (0x110B3, 0x110B6), (0x110B9, 0x110BA), (0x110BD, 0x110BD),
   (0x110C2, 0x110C2), (0x110CD, 0x110CD), (0x11100, 0x11102), (0x11127, 0x1112B), (0x1112D, 0x11134), (0x11173, 0x11173), (0x11180, 0x11181), (0x111B6, 0x111BE),
   (0x111C9, 0x111CC), (0x111CF, 0x111CF), (0x1122F, 0x11231), (0x11234, 0x11234), (0x11236, 0x11237), (0x1123E, 0x1123E), (0x112DF, 0x112DF), (0x112E3, 0x112EA),
   (0x11300, 0x11301), (0x1133B, 0x1133C), (0x11340, 0x11340), (0x11366, 0x1136C), (0x11370, 0x11374), (0x11438, 0x1143F), (0x11442, 0x11444), (0x11446, 0x11446),
   (0x1145E, 0x1145E), (0x114B3, 0x114B8), (0x114BA, 0x114BA), (0x114BF, 0x114C0), (0x114C2, 0x114C3), (0x115B2, 0x115B5), (0x115BC, 0x115BD), (0x115BF, 0x115C0),
   (0x115DC, 0x115DD), (0x11633, 0x1163A), (0x1163D, 0x1163D), (0x1163F, 0x11640), (0x116AB, 0x116AB), (0x116AD, 0x116AD), (0x116B0, 0x116B5), (0x116B7, 0x116B7),
   (0x1171D, 0x1171F), (0x11722, 0x11725), (0x11727, 0x1172B), (0x1182F, 0x11837), (0x11839, 0x1183A), (0x1193B, 0x1193C), (0x1193E, 0x1193E), (0x11943, 0x11943),
   (0x119D4, 0x119D7), (0x119DA, 0x119DB), (0x119E0, 0x119E0), (0x11A01, 0x11A0A), (0x11A33, 0x11A38), (0x11A3B, 0x11A3E), (0x11A47, 0x11A47), (0x11A51, 0x11A56),
   (0x11A59, 0x11A5B), (0x11A8A, 0x11A96), (0x11A98, 0x11A99), (0x11C30, 0x11C36), (0x11C38, 0x11C3D), (0x11C3F, 0x11C3F), (0x11C92, 0x11CA7), (0x11CAA, 0x11CB0),
   (0x11CB2, 0x11CB3), (0x11CB5, 0x11CB6), (0x11D31, 0x11D36), (0x11D3A, 0x11D3A), (0x11D3C, 0x11D3D), (0x11D3F, 0x11D45), (0x11D47, 0x11D47), (0x11D90, 0x11D91),
   (0x11D95, 0x11D95), (0x11D97, 0x11D97), (0x11EF3, 0x11EF4), (0x13430, 0x13438), (0x16AF0, 0x16AF4), (0x16B30, 0x16B36), (0x16B40, 0x16B43), (0x16F4F, 0x16F4F),
   (0x16F8F, 0x16F9F), (0x16FE0, 0x16FE1), (0x16FE3, 0x16FE4), (0x1AFF0, 0x1AFF3), (0x1AFF5, 0x1AFFB), (0x1AFFD, 0x1AFFE), (0x1BC9D, 0x1BC9E), (0x1BCA0, 0x1BCA3),
   (0x1CF00, 0x1CF2D), (0x1CF30, 0x1CF46), (0x1D167, 0x1D169), (0x1D173, 0x1D182), (0x1D185, 0x1D18B), (0x1D1AA, 0x1D1AD), (0x1D242, 0x1D244), (0x1DA00, 0x1DA36),
   (0x1DA3B, 0x1DA6C), (0x1DA75, 0x1DA75), (0x1DA84, 0x1DA84), (0x1DA9B, 0x1DA9F), (0x1DAA1, 0x1DAAF), (0x1E000, 0x1E006), (0x1E008, 0x1E018), (0x1E01B, 0x1E021),
   (0x1E023, 0x1E024), (0x1E026, 0x1E02A), (0x1E130, 0x1E13D), (0x1E2AE, 0x1E2AE), (0x1E2EC, 0x1E2EF), (0x1E8D0, 0x1E8D6), (0x1E944, 0x1E94B), (0x1F3FB, 0x1F3FF),
   (0xE0001, 0xE0001), (0xE0020, 0xE007F), (0xE0100, 0xE01EF)]

/-- The lower-case mapping of the Unicode Character Database (Unicode 14.0) outside ASCII,
as runs `(first, last, step, image of first)`: every `step`-th code point from `first` to
`last` is mapped to the code point at the same distance from the image of `first`. -/
def lowerRuns : List (Nat × Nat × Nat × Nat) :=
  [(0xC0, 0xD6, 1, 0xE0), (0xD8, 0xDE, 1, 0xF8), (0x100, 0x12E, 2, 0x101), (0x132, 0x136, 2, 0x133),
   (0x139, 0x147, 2, 0x13A), (0x14A, 0x176, 2, 0x14B), (0x178, 0x178, 1, 0xFF), (0x179, 0x17D, 2, 0x17A),
   (0x181, 0x181, 1, 0x253), (0x182, 0x184, 2, 0x183), (0x186, 0x186, 1, 0x254), (0x187, 0x187, 1, 0x188),
   (0x189, 0x18A, 1, 0x256), (0x18B, 0x18B, 1, 0x18C), (0x18E, 0x18E, 1, 0x1DD), (0x18F, 0x18F, 1, 0x259),
   (0x190, 0x190, 1, 0x25B), (0x191, 0x191, 1, 0x192), (0x193, 0x193, 1, 0x260), (0x194, 0x194, 1, 0x263),
   (0x196, 0x196, 1, 0x269), (0x197, 0x197, 1, 0x268), (0x198, 0x198, 1, 0x199), (0x19C, 0x19C, 1, 0x26F),
   (0x19D, 0x19D, 1, 0x272), (0x19F, 0x19F, 1, 0x275), (0x1A0, 0x1A4, 2, 0x1A1), (0x1A6, 0x1A6, 1, 0x280),
   (0x1A7, 0x1A7, 1, 0x1A8), (0x1A9, 0x1A9, 1, 0x283), (0x1AC, 0x1AC, 1, 0x1AD), (0x1AE, 0x1AE, 1, 0x288),
   (0x1AF, 0x1AF, 1, 0x1B0), (0x1B1, 0x1B2, 1, 0x28A), (0x1B3, 0x1B5, 2, 0x1B4), (0x1B7, 0x1B7, 1, 0x292),
   (0x1B8, 0x1B8, 1, 0x1B9), (0x1BC, 0x1BC, 1, 0x1BD), (0x1C4, 0x1C4, 1, 0x1C6), (0x1C5, 0x1C5, 1, 0x1C6),
   (0x1C7, 0x1C7, 1, 0x1C9), (0x1C8, 0x1C8, 1, 0x1C9), (0x1CA, 0x1CA, 1, 0x1CC), (0x1CB, 0x1DB, 2, 0x1CC),
   (0x1DE, 0x1EE, 2, 0x1DF), (0x1F1, 0x1F1, 1, 0x1F3), (0x1F2, 0x1F4, 2, 0x1F3), (0x1F6, 0x1F6, 1, 0x195),
   (0x1F7, 0x1F7, 1, 0x1BF), (0x1F8, 0x21E, 2, 0x1F9), (0x220, 0x220, 1, 0x19E), (0x222, 0x232, 2, 0x223),
   (0x23A, 0x23A, 1, 0x2C65), (0x23B, 0x23B, 1, 0x23C), (0x23D, 0x23D, 1, 0x19A), (0x23E, 0x23E, 1, 0x2C66),
   (0x241, 0x241, 1, 0x242), (0x243, 0x243, 1, 0x180), (0x244, 0x244, 1, 0x289), (0x245, 0x245, 1, 0x28C),
   (0x246, 0x24E, 2, 0x247), (0x370, 0x372, 2, 0x371), (0x376, 0x376, 1, 0x377), (0x37F, 0x37F, 1, 0x3F3),
   (0x386, 0x386, 1, 0x3AC), (0x388, 0x38A, 1, 0x3AD), (0x38C, 0x38C, 1, 0x3CC), (0x38E, 0x38F, 1, 0x3CD),
   (0x391, 0x3A1, 1, 0x3B1), (0x3A3, 0x3AB, 1, 0x3C3), (0x3CF, 0x3CF, 1, 0x3D7), (0x3D8, 0x3EE, 2, 0x3D9),
   (0x3F4, 0x3F4, 1, 0x3B8), (0x3F7, 0x3F7, 1, 0x3F8), (0x3F9, 0x3F9, 1, 0x3F2), (0x3FA, 0x3FA, 1, 0x3FB),
   (0x3FD, 0x3FF, 1, 0x37B), (0x400, 0x40F, 1, 0x450), (0x410, 0x42F, 1, 0x430), (0x460, 0x480, 2, 0x461),
   (0x48A, 0x4BE, 2, 0x48B), (0x4C0, 0x4C0, 1, 0x4CF), (0x4C1, 0x4CD, 2, 0x4C2), (0x4D0, 0x52E, 2, 0x4D1),
   (0x531, 0x556, 1, 0x561), (0x10A0, 0x10C5, 1, 0x2D00), (0x10C7, 0x10C7, 1, 0x2D27), (0x10CD, 0x10CD, 1, 0x2D2D),
   (0x13A0, 0x13EF, 1, 0xAB70), (0x13F0, 0x13F5, 1, 0x13F8), (0x1C90, 0x1CBA, 1, 0x10D0), (0x1CBD, 0x1CBF, 1, 0x10FD),
   (0x1E00, 0x1E94, 2, 0x1E01), (0x1E9E, 0x1E9E, 1, 0xDF), (0x1EA0, 0x1EFE, 2, 0x1EA1), (0x1F08, 0x1F0F, 1, 0x1F00),
   (0x1F18, 0x1F1D, 1, 0x1F10), (0x1F28, 0x1F2F, 1, 0x1F20), (0x1F38, 0x1F3F, 1, 0x1F30), (0x1F48, 0x1F4D, 1, 0x1F40),
   (0x1F59, 0x1F5F, 2, 0x1F51), (0x1F68, 0x1F6F, 1, 0x1F60), (0x1F88, 0x1F8F, 1, 0x1F80), (0x1F98, 0x1F9F, 1, 0x1F90),
   (0x1FA8, 0x1FAF, 1, 0x1FA0), (0x1FB8, 0x1FB9, 1, 0x1FB0), (0x1FBA, 0x1FBB, 1, 0x1F70), (0x1FBC, 0x1FBC, 1, 0x1FB3),
   (0x1FC8, 0x1FCB, 1, 0x1F72), (0x1FCC, 0x1FCC, 1, 0x1FC3), (0x1FD8, 0x1FD9, 1, 0x1FD0), (0x1FDA, 0x1FDB, 1, 0x1F76),
   (0x1FE8, 0x1FE9, 1, 0x1FE0), (0x1FEA, 0x1FEB, 1, 0x1F7A), (0x1FEC, 0x1FEC, 1, 0x1FE5), (0x1FF8, 0x1FF9, 1, 0x1F78),
   (0x1FFA, 0x1FFB, 1, 0x1F7C), (0x1FFC, 0x1FFC, 1, 0x1FF3), (0x2126, 0x2126, 1, 0x3C9), (0x212A, 0x212A, 1, 0x6B),
   (0x212B, 0x212B, 1, 0xE5), (0x2132, 0x2132, 1, 0x214E), (0x2160, 0x216F, 1, 0x2170), (0x2183, 0x2183, 1, 0x2184),
   (0x24B6, 0x24CF, 1, 0x24D0), (0x2C00, 0x2C2F, 1, 0x2C30), (0x2C60, 0x2C60, 1, 0x2C61), (0x2C62, 0x2C62, 1, 0x26B),
   (0x2C63, 0x2C63, 1, 0x1D7D), (0x2C64, 0x2C64, 1, 0x27D), (0x2C67, 0x2C6B, 2, 0x2C68), (0x2C6D, 0x2C6D, 1, 0x251),
   (0x2C6E, 0x2C6E, 1, 0x271), (0x2C6F, 0x2C6F, 1, 0x250), (0x2C70, 0x2C70, 1, 0x252), (0x2C72, 0x2C72, 1, 0x2C73),
   (0x2C75, 0x2C75, 1, 0x2C76), (0x2C7E, 0x2C7F, 1, 0x23F), (0x2C80, 0x2CE2, 2, 0x2C81), (0x2CEB, 0x2CED, 2, 0x2CEC),
   (0x2CF2, 0x2CF2, 1, 0x2CF3), (0xA640, 0xA66C, 2, 0xA641), (0xA680, 0xA69A, 2, 0xA681), (0xA722, 0xA72E, 2, 0xA723),
   (0xA732, 0xA76E, 2, 0xA733), (0xA779, 0xA77B, 2, 0xA77A), (0xA77D, 0xA77D, 1, 0x1D79), (0xA77E, 0xA786, 2, 0xA77F),
   (0xA78B, 0xA78B, 1, 0xA78C), (0xA78D, 0xA78D, 1, 0x265), (0xA790, 0xA792, 2, 0xA791), (0xA796, 0xA7A8, 2, 0xA797),
   (0xA7AA, 0xA7AA, 1, 0x266), (0xA7AB, 0xA7AB, 1, 0x25C), (0xA7AC, 0xA7AC, 1, 0x261), (0xA7AD, 0xA7AD, 1, 0x26C),
   (0xA7AE, 0xA7AE, 1, 0x26A), (0xA7B0, 0xA7B0, 1, 0x29E), (0xA7B1, 0xA7B1, 1, 0x287), (0xA7B2, 0xA7B2, 1, 0x29D),
   (0xA7B3, 0xA7B3, 1, 0xAB53), (0xA7B4, 0xA7C2, 2, 0xA7B5), (0xA7C4, 0xA7C4, 1, 0xA794), (0xA7C5, 0xA7C5, 1, 0x282),
   (0xA7C6, 0xA7C6, 1, 0x1D8E), (0xA7C7, 0xA7C9, 2, 0xA7C8), (0xA7D0, 0xA7D0, 1, 0xA7D1), (0xA7D6, 0xA7D8, 2, 0xA7D7),
   (0xA7F5, 0xA7F5, 1, 0xA7F6), (0xFF21, 0xFF3A, 1, 0xFF41), (0x10400, 0x10427, 1, 0x10428), (0x104B0, 0x104D3, 1, 0x104D8),
   (0x10570, 0x1057A, 1, 0x10597), (0x1057C, 0x1058A, 1, 0x105A3), (0x1058C, 0x10592, 1, 0x105B3), (0x10594, 0x10595, 1, 0x105BB),
   (0x10C80, 0x10CB2, 1, 0x10CC0), (0x118A0, 0x118BF, 1, 0x118C0), (0x16E40, 0x16E5F, 1, 0x16E60), (0x1E900, 0x1E921, 1, 0x1E922)]

/-- Whether a code point lies in one of the ranges. -/
def inRanges (rs : List (Nat × Nat)) (n : Nat) : Bool := rs.any (fun r => r.1 ≤ n && n ≤ r.2)

/-- The Unicode property `Cased`. -/
def isCased (c : Char) : Bool := inRanges casedRanges c.toNat

/-- The Unicode property `Case_Ignorable`. -/
def isCaseIgnorable (c : Char) : Bool := inRanges caseIgnorableRanges c.toNat

/-- The lower-case mapping of a code point outside ASCII that maps to one code point. -/
def lowerCode (n : Nat) : Nat :=
  match lowerRuns.find? (fun r => r.1 ≤ n && n ≤ r.2.1 && (n - r.1) % r.2.2.1 == 0) with
  | some r => r.2.2.2 + (n - r.1)
  | none => n

/-- The lower-case mapping of one character, context apart: ASCII letters, the one
character with a longer image (U+0130, to `i` and U+0307), and the table. -/
def lowerChar (c : Char) : Str :=
  if c.toNat < 0x80 then [c.toLower]
  else if c.toNat = 0x130 then ['i', Char.ofNat 0x307]
  else [Char.ofNat (lowerCode c.toNat)]

/-- The context test of the rule `Final_Sigma`, in one direction: after the case-ignorable
characters comes a cased letter. -/
def casedNext : Str → Bool
  | [] => false
  | c :: cs => if isCaseIgnorable c then casedNext cs else isCased c

/-- The lower-case form of the character `c` between the characters `before` (the nearest
first) and `after`: the capital sigma becomes the final sigma when a cased letter stands
before it and none after it. -/
def lowerAt (before after : Str) (c : Char) : Str :=
  if c.toNat = 0x3A3 then
    (if casedNext before && !casedNext after then [Char.ofNat 0x3C2] else [Char.ofNat 0x3C3])
  else lowerChar c

/-- Lower-casing from a position on; `before` holds the characters passed, the nearest
first. -/
def lowerFrom : Str → Str → Str
  | _, [] => []
  | before, c :: cs => lowerAt before cs c ++ lowerFrom (c :: before) cs

/-- The method `String.prototype.toLowerCase`: the lower-case mapping of the Unicode
Character Database with the special casing that does not depend on the language. -/
def toLowerCase (s : Str) : Str := lowerFrom [] s

/-- The method `String.prototype.split` with a one-character separator. -/
def split (sep : Char) : Str → List Str
  | [] => [[]]
  | c :: cs =>
    if c = sep then [] :: split sep cs
    else
      match split sep cs with
      | l :: ls => (c :: l) :: ls
      | [] => [[c]]

/-- The method `Array.prototype.join` with a one-character separator. -/
def join (sep : Char) (xs : List Str) : Str := [sep].intercalate xs

/-- The method `String.prototype.includes`. -/
def includes (s sub : Str) : Bool := s.tails.any (fun t => sub.isPrefixOf t)

/-- The method `Array.prototype.slice` with two in-range indices. -/
def slice (xs : List α) (a b : Nat) : List α := (xs.take b).drop a

/-! ## Regular expressions -/

/-- The fragment of ECMAScript patterns used by the parser. -/
inductive Re where
  /-- The empty pattern. -/
  | eps : Re
  /-- One character of a class. -/
  | cls : (Char → Bool) → Re
  /-- Concatenation. -/
  | seq : Re → Re → Re
  /-- Ordered alternative: the left branch is tried first. -/
  | alt : Re → Re → Re
  /-- Greedy repetition of a character class, zero or more times. -/
  | star : (Char → Bool) → Re
  /-- The assertion written backslash-b: a word boundary. -/
  | wordB : Re
  /-- The assertion `^` (no multiline flag). -/
  | bos : Re
  /-- The assertion `$` (no multiline flag). -/
  | eos : Re

namespace Re

/-- The pattern `x?` (greedy). -/
def opt (r : Re) : Re := alt r eps

/-- The pattern `[c]+` (greedy). -/
def plus (p : Char → Bool) : Re := seq (cls p) (star p)

/-- A single literal character. -/
def chr (c : Char) : Re := cls (fun x => x == c)

/-- A literal string under the `i` flag (ASCII case folding). -/
def litI (s : Str) : Re := s.foldr (fun c r => seq (cls (fun x => x.toLower == c.toLower)) r) eps

/-- Concatenation of a list of patterns. -/
def cat (rs : List Re) : Re := rs.foldr seq eps

/-- Greedy repetition with backtracking: the longest run is tried first. -/
def starRun {σ : Type} (p : Char → Bool) (k : Option Char → Str → Option σ) :
    Option Char → Str → Option σ
  | prev, [] => k prev []
  | prev, c :: cs =>
    if p c then (starRun p k (some c) cs).orElse (fun _ => k prev (c :: cs))
    else k prev (c :: cs)

/-- The backtracking matcher: `prev` is the character before the current position, `s` the
rest of the input, `k` what remains to be matched after this pattern. -/
def run {σ : Type} : Re → Option Char → Str → (Option Char → Str → Option σ) → Option σ
  | eps, prev, s, k => k prev s
  | cls p, _, s, k =>
    match s with
    | c :: cs => if p c then k (some c) cs else none
    | [] => none
  | seq a b, prev, s, k => run a prev s (fun prev1 s1 => run b prev1 s1 k)
  | alt a b, prev, s, k => (run a prev s k).orElse (fun _ => run b prev s k)
  | star p, prev, s, k => starRun p k prev s
  | wordB, prev, s, k => if isWordAt prev != isWordAt s.head? then k prev s else none
  | bos, prev, s, k => if prev.isNone then k prev s else none
  | eos, prev, s, k => if s.isEmpty then k prev s else none

/-- One match attempt at a position: the input left after the match, if there is one. -/
def matchAt (r : Re) (prev : Option Char) (s : Str) : Option Str :=
  run r prev s (fun _ rest => some rest)

/-- The declarative reading of a pattern: from the position with `prev` before it and `s`
after it the pattern can reach the position with `prev1` before it and `s1` after it. -/
inductive Sem : Re → Option Char → Str → Option Char → Str → Prop
  | eps (prev s) : Sem eps prev s prev s
  | cls (p prev c s) : p c = true → Sem (cls p) prev (c :: s) (some c) s
  | seq (a b prev s prev1 s1 prev2 s2) :
      Sem a prev s prev1 s1 → Sem b prev1 s1 prev2 s2 → Sem (seq a b) prev s prev2 s2
  | altL (a b prev s prev1 s1) : Sem a prev s prev1 s1 → Sem (alt a b) prev s prev1 s1
  | altR (a b prev s prev1 s1) : Sem b prev s prev1 s1 → Sem (alt a b) prev s prev1 s1
  | starNil (p prev s) : Sem (star p) prev s prev s
  | starCons (p prev c s prev1 s1) :
      p c = true → Sem (star p) (some c) s prev1 s1 → Sem (star p) prev (c :: s) prev1 s1
  | wordB (prev s) : isWordAt prev ≠ isWordAt s.head? → Sem wordB prev s prev s
  | bos (s) : Sem bos none s none s
  | eos (prev) : Sem eos prev [] prev []

end Re

/-- Scan of a global (`g`) pattern over a text, left to right; `skip` counts the characters
of the last match that are still to be stepped over. Yields the matched substrings. -/
def matchAllAux (re : Re) : Nat → Option Char → Str → List Str
  | 0, prev, [] =>
    match re.matchAt prev [] with
    | some _ => [[]]
    | none => []
  | _ + 1, _, [] => []
  | skip + 1, _, c :: cs => matchAllAux re skip (some c) cs
  | 0, prev, c :: cs =>
    match re.matchAt prev (c :: cs) with
    | some rest =>
      ((c :: cs).take ((c :: cs).length - rest.length)) ::
        matchAllAux re ((c :: cs).length - rest.length - 1) (some c) cs
    | none => matchAllAux re 0 (some c) cs

/-- The call `text.match(re) || []` for a global pattern. -/
def matchAll (re : Re) (text : Str) : List Str := matchAllAux re 0 none text

/-- The expression `(text.match(re) || [])[0] || ''`. -/
def firstMatch (re : Re) (text : Str) : Str := (matchAll re text).headD []

/-- The call `re.test(text)` for a pattern without the `g` flag. -/
def test (re : Re) (text : Str) : Bool := !(matchAll re text).isEmpty

/-- Scan of `text.replace(re, rep)` for a global pattern and a literal replacement. -/
def replaceAllAux (re : Re) (rep : Str) : Nat → Option Char → Str → Str
  | 0, prev, [] =>
    match re.matchAt prev [] with
    | some _ => rep
    | none => []
  | _ + 1, _, [] => []
  | skip + 1, _, c :: cs => replaceAllAux re rep skip (some c) cs
  | 0, prev, c :: cs =>
    match re.matchAt prev (c :: cs) with
    | some rest =>
      if (c :: cs).length - rest.length = 0 then rep ++ c :: replaceAllAux re rep 0 (some c) cs
      else rep ++ replaceAllAux re rep ((c :: cs).length - rest.length - 1) (some c) cs
    | none => c :: replaceAllAux re rep 0 (some c) cs

/-- The call `text.replace(re, rep)` for a global pattern and a literal replacement. -/
def replaceAll (re : Re) (rep : Str) (text : Str) : Str := replaceAllAux re rep 0 none text

/-! ## The parser (`src/js/_parser.js`) -/

/-- An uploaded file, as far as the parser looks at it: its declared name and size, whether
the browser's reader can read it, its bytes decoded as UTF-8, and what the PDF library
extracts from them (for each page the strings of its text items, or a failure message). -/
structure File where
  name : Str
  size : Nat
  readable : Bool
  text : Str
  pdf : Except Str (List (List Str))

/-- The errors the parser raises. -/
inductive ParseError where
  /-- The message `No file provided`. -/
  | noFileProvided
  /-- The message `File size exceeds <limit>MB limit`. -/
  | fileSizeExceeds (limitMB : Nat)
  /-- The message `Unsupported file format: <format>. Supported formats: <list>`. -/
  | unsupportedFormat (format : Str) (supported : List Str)
  /-- The message `Unsupported file format: <format>` of the dispatch in `parseFile`. -/
  | unsupportedDispatch (format : Str)
  /-- The message `PDF.js library not loaded`. -/
  | pdfLibraryNotLoaded
  /-- The message `PDF parsing failed: <cause>`. -/
  | pdfParsingFailed (cause : Str)
  /-- The message `Word document parsing failed: <cause>`. -/
  | wordParsingFailed (cause : Str)
  /-- The message `Text parsing failed: <cause>`. -/
  | textParsingFailed (cause : Str)
  /-- The messages `Failed to read PDF file`, `Failed to read Word document` and
  `Failed to read text file`, by the format that was being read. -/
  | readFailed (format : Str)
  deriving DecidableEq

/-- The field `supportedFormats` set by the constructor. -/
def supportedFormats : List Str := ["pdf".toList, "doc".toList, "docx".toList, "txt".toList]

/-- The field `maxFileSize` set by the constructor. -/
def maxFileSize : Nat := 10 * 1024 * 1024

/-- The method `getFileFormat`: `file.name.split('.').pop().toLowerCase()`. -/
def getFileFormat (file : File) : Str := toLowerCase ((split '.' file.name).getLastD [])

/-- The method `validateFile`; `none` is the null file. -/
def validateFile (file : Option File) : Except ParseError Unit :=
  match file with
  | none => .error .noFileProvided
  | some f =>
    if f.size > maxFileSize then .error (.fileSizeExceeds (maxFileSize / (1024 * 1024)))
    else if !supportedFormats.contains (getFileFormat f) then
      .error (.unsupportedFormat (getFileFormat f) supportedFormats)
    else .ok ()

/-- Personal contact fields. -/
structure PersonalInfo where
  name : Str
  email : Str
  phone : Str
  location : Str
  linkedin : Str
  deriving DecidableEq

/-- One entry of the list returned by `identifySections`. -/
structure SectionRecord where
  name : Str
  present : Bool
  keywords : List Str
  deriving DecidableEq

/-- The `metadata` object; a field that was not set is `none`. -/
structure Metadata where
  format : Option Str
  pageCount : Option Nat
  fileSize : Option Nat
  deriving DecidableEq

/-- The record returned by `extractResumeData`. -/
structure ResumeData where
  rawText : Str
  personalInfo : PersonalInfo
  experience : Str
  education : Str
  skills : Str
  sections : List SectionRecord
  summary : Str
  metadata : Metadata
  deriving DecidableEq

/-- The pattern `/\r\n/g`. -/
def crlfRegex : Re := .seq (.chr '\r') (.chr '\n')

/-- The pattern `/\r/g`. -/
def crRegex : Re := .chr '\r'

/-- The pattern `/\n{3,}/g`. -/
def newlinesRegex : Re :=
  .seq (.chr '\n') (.seq (.chr '\n') (.seq (.chr '\n') (.star (fun x => x == '\n'))))

/-- The pattern `/\s+/g`. -/
def spacesRegex : Re := .plus isSpace

/-- The pattern `/\d+/g`. -/
def digitsRegex : Re := .plus isDigit

/-- The pattern `/[^\w\s\-']/g`. -/
def nonNameRegex : Re :=
  .cls (fun c => !(isWord c || isSpace c || c == '-' || c.toNat == 0x27))

/-- The pattern `/[^\x20-\x7E\n\r\t]/g`. -/
def nonPrintableRegex : Re :=
  .cls (fun c => !((0x20 ≤ c.toNat && c.toNat ≤ 0x7E) || c == '\n' || c == '\r' || c == '\t'))

/-- The pattern `/^\d[\d\-\s]*\d$/`. -/
def phoneLikeRegex : Re :=
  .cat [.bos, .cls isDigit, .star (fun c => isDigit c || c == '-' || isSpace c), .cls isDigit,
    .eos]

/-- The class `[A-Za-z0-9._%+-]` of the e-mail pattern. -/
def isEmailLocal (c : Char) : Bool :=
  isLetter c || isDigit c || c == '.' || c == '_' || c == '%' || c == '+' || c == '-'

/-- The class `[A-Za-z0-9.-]` of the e-mail pattern. -/
def isEmailDomain (c : Char) : Bool := isLetter c || isDigit c || c == '.' || c == '-'

/-- The class `[A-Z|a-z]` of the e-mail pattern (the bar is a member of the class). -/
def isEmailTld (c : Char) : Bool := isUpper c || c == '|' || isLower c

/-- The pattern `/\b[A-Za-z0-9._%+-]+@[A-Za-z0-9.-]+\.[A-Z|a-z]{2,}\b/g`. -/
def emailRegex : Re :=
  .cat [.wordB, .plus isEmailLocal, .chr '@', .plus isEmailDomain, .chr '.',
    .cls isEmailTld, .cls isEmailTld, .star isEmailTld, .wordB]

/-- The class `[-.\s]` of the phone pattern. -/
def isPhoneSep (c : Char) : Bool := c == '-' || c == '.' || isSpace c

/-- The pattern
`/\b(?:\+?1[-.\s]?)?\(?([0-9]{3})\)?[-.\s]?([0-9]{3})[-.\s]?([0-9]{4})\b/g`. -/
def phoneRegex : Re :=
  .cat [.wordB,
    .opt (.cat [.opt (.chr '+'), .chr '1', .opt (.cls isPhoneSep)]),
    .opt (.chr '('),
    .cls isDigit, .cls isDigit, .cls isDigit,
    .opt (.chr ')'),
    .opt (.cls isPhoneSep),
    .cls isDigit, .cls isDigit, .cls isDigit,
    .opt (.cls isPhoneSep),
    .cls isDigit, .cls isDigit, .cls isDigit, .cls isDigit,
    .wordB]

/-- The pattern `/(?:linkedin\.com\/in\/|linkedin\.com\/)([a-zA-Z0-9\-]+)/gi`. -/
def linkedinRegex : Re :=
  .seq (.alt (.litI "linkedin.com/in/".toList) (.litI "linkedin.com/".toList))
    (.plus (fun c => isLetter c || isDigit c || c == '-'))

/-- The pattern built by `new RegExp('\\b' + keyword + '\\b', 'i')`, for a keyword of ASCII
letters, digits and spaces, which the pattern syntax reads as a literal (the keyword lists
of the parser hold lower-case letters and spaces only). A keyword with a pattern
metacharacter is outside the embedding: the source reads `.` as a wildcard and raises on
`c++`; statements on arbitrary keyword lists carry the hypothesis `literalKeyword`. -/
def keywordRegex (keyword : Str) : Re := .cat [.wordB, .litI keyword, .wordB]

/-- The normalisation at the head of `extractResumeData` (the value of `cleanText`). -/
def normalize (text : Str) : Str :=
  trim (replaceAll newlinesRegex "\n\n".toList
    (replaceAll crRegex "\n".toList (replaceAll crlfRegex "\n".toList text)))

/-- The name clean-up of `extractPersonalInfo`, applied to the first non-blank line. -/
def cleanName (line : Str) : Str :=
  let name := trim line
  let name := replaceAll digitsRegex [] name
  let name := replaceAll nonNameRegex " ".toList name
  let name := trim (replaceAll spacesRegex " ".toList name)
  if includes name "@".toList || test phoneLikeRegex name then [] else name

/-- The list `states` of `extractLocation`. -/
def states : List Str :=
  ["AL", "AK", "AZ", "AR", "CA", "CO", "CT", "DE", "FL", "GA", "HI", "ID", "IL", "IN", "IA",
   "KS", "KY", "LA", "ME", "MD", "MA", "MI", "MN", "MS", "MO", "MT", "NE", "NV", "NH", "NJ",
   "NM", "NY", "NC", "ND", "OH", "OK", "OR", "PA", "RI", "SC", "SD", "TN", "TX", "UT", "VT",
   "VA", "WA", "WV", "WI", "WY"].map String.toList

/-- The list `cities` of `extractLocation`. -/
def cities : List Str :=
  ["New York", "Los Angeles", "Chicago", "Houston", "Phoenix", "Philadelphia", "San Antonio",
   "San Diego", "Dallas", "San Jose"].map String.toList

/-- The loop of `extractLocation` over the lines. -/
def extractLocationLines : List Str → Str
  | [] => []
  | line :: rest =>
    if states.any (fun state => includes (trim line) state) then trim line
    else if cities.any (fun city => includes (trim line) city) then trim line
    else extractLocationLines rest

/-- The method `extractLocation`. -/
def extractLocation (text : Str) : Str := extractLocationLines (split '\n' text)

/-- The method `extractPersonalInfo`. -/
def extractPersonalInfo (text : Str) : PersonalInfo :=
  let lines := (split '\n' text).filter (fun line => !(trim line).isEmpty)
  { name :=
      match lines with
      | first :: _ => cleanName first
      | [] => []
    email := firstMatch emailRegex text
    phone := firstMatch phoneRegex text
    location := extractLocation text
    linkedin := firstMatch linkedinRegex text }

/-- The test inside the first loop of `extractSection`: the line (already lower-cased and
trimmed) equals a keyword, includes it, or matches it between word boundaries. -/
def keywordMatch (keywords : List Str) (line : Str) : Bool :=
  keywords.any (fun keyword =>
    line == keyword || includes line keyword || test (keywordRegex keyword) line)

/-- The list `majorSections` of `extractSection`. -/
def majorSections : List Str :=
  ["experience", "work", "employment", "education", "academic", "skills", "technical",
   "competencies", "summary", "objective", "profile", "projects", "certifications", "awards",
   "interests", "references", "activities", "leadership", "volunteer"].map String.toList

/-- The test inside the second loop of `extractSection`, on a lower-cased and trimmed line. -/
def isNextSection (keywords : List Str) (line : Str) : Bool :=
  majorSections.any (fun major =>
    if keywords.any (fun k => includes line k) then false
    else line == major || includes line major)

/-- A `for` loop that stops at the first line satisfying `p`: its index, counted from `i`. -/
def findLine (p : Str → Bool) : List Str → Nat → Option Nat
  | [], _ => none
  | line :: rest, i => if p line then some i else findLine p rest (i + 1)

/-- The first loop of `extractSection`: the index `sectionStart`, `none` for `-1`. -/
def findSectionStart (keywords : List Str) (lines : List Str) : Option Nat :=
  findLine (fun l => keywordMatch keywords (trim (toLowerCase l))) lines 0

/-- The second loop of `extractSection`: the index `sectionEnd`, `none` for `-1`. -/
def findSectionEnd (keywords : List Str) (lines : List Str) (sectionStart : Nat) : Option Nat :=
  findLine (fun l => isNextSection keywords (trim (toLowerCase l)))
    (lines.drop (sectionStart + 1)) (sectionStart + 1)

/-- The value of `sectionLines` in `extractSection`. -/
def sectionLinesOf (keywords : List Str) (lines : List Str) (sectionStart : Nat) : List Str :=
  slice lines sectionStart
    (match findSectionEnd keywords lines sectionStart with
     | none => lines.length
     | some sectionEnd => sectionEnd)

/-- The end of `extractSection`: the section text, without its first line when that line
includes a keyword. The only step that can raise is reading `sectionLines[0]` when the
slice is empty. -/
def sectionTextOf (keywords : List Str) (sectionLines : List Str) : Except Str Str :=
  match sectionLines with
  | [] => .error "TypeError: sectionLines[0] is undefined".toList
  | first :: _ =>
    if keywords.any (fun k => includes (toLowerCase (trim first)) k) then
      .ok (trim (join '\n' (sectionLines.drop 1)))
    else .ok (trim (join '\n' sectionLines))

/-- The method `extractSection`. -/
def extractSection (text : Str) (keywords : List Str) : Except Str Str :=
  match findSectionStart keywords (split '\n' text) with
  | none => .ok []
  | some sectionStart =>
    sectionTextOf keywords (sectionLinesOf keywords (split '\n' text) sectionStart)

/-- The keyword list of `extractExperience`. -/
def experienceKeywords : List Str :=
  ["experience", "work", "employment", "career", "professional experience", "work experience",
   "work history", "professional background"].map String.toList

/-- The keyword list of `extractEducation`. -/
def educationKeywords : List Str :=
  ["education", "academic", "university", "college", "school", "academic background",
   "educational background", "qualifications"].map String.toList

/-- The keyword list of `extractSkills`. -/
def skillsKeywords : List Str :=
  ["skills", "technical", "competencies", "abilities", "expertise", "technical skills",
   "core competencies", "key skills", "skill set"].map String.toList

/-- The keyword list of `extractSummary`. -/
def summaryKeywords : List Str :=
  ["summary", "objective", "profile", "overview", "professional summary", "career summary",
   "executive summary", "career objective", "professional profile"].map String.toList

/-- The method `extractExperience` (`x || ''` is `x` on strings). -/
def extractExperience (text : Str) : Except Str Str := extractSection text experienceKeywords

/-- The method `extractEducation`. -/
def extractEducation (text : Str) : Except Str Str := extractSection text educationKeywords

/-- The method `extractSkills`. -/
def extractSkills (text : Str) : Except Str Str := extractSection text skillsKeywords

/-- The method `extractSummary`. -/
def extractSummary (text : Str) : Except Str Str := extractSection text summaryKeywords

/-- The table `sectionKeywords` of `identifySections`. -/
def sectionKeywords : List (Str × List Str) :=
  [("Summary", ["summary", "objective", "profile", "overview"]),
   ("Experience", ["experience", "work", "employment", "career"]),
   ("Education", ["education", "academic", "university", "college"]),
   ("Skills", ["skills", "technical", "competencies", "abilities"]),
   ("Projects", ["projects", "portfolio", "work samples"]),
   ("Certifications", ["certifications", "certificates", "licenses"]),
   ("Awards", ["awards", "honors", "recognition"]),
   ("Leadership", ["leadership", "activities", "volunteer"]),
   ("References", ["references", "referees"])].map
    (fun e => (e.1.toList, e.2.map String.toList))

/-- The method `identifySections`. -/
def identifySections (text : Str) : List SectionRecord :=
  sectionKeywords.filterMap (fun e =>
    if (split '\n' text).any (fun line =>
        e.2.any (fun keyword =>
          trim (toLowerCase line) == keyword || includes (trim (toLowerCase line)) keyword))
    then some { name := e.1, present := true, keywords := e.2 }
    else none)

/-- The method `extractResumeData`; the fields are computed in the order of the object
literal, and `metadata` starts empty. -/
def extractResumeData (text : Str) : Except Str ResumeData :=
  let cleanText := normalize text
  match extractExperience cleanText with
  | .error e => .error e
  | .ok experience =>
    match extractEducation cleanText with
    | .error e => .error e
    | .ok education =>
      match extractSkills cleanText with
      | .error e => .error e
      | .ok skills =>
        match extractSummary cleanText with
        | .error e => .error e
        | .ok summary =>
          .ok { rawText := cleanText
                personalInfo := extractPersonalInfo cleanText
                experience := experience
                education := education
                skills := skills
                sections := identifySections cleanText
                summary := summary
                metadata := { format := none, pageCount := none, fileSize := none } }

/-- The placeholder of `extractTextFromWordBuffer`. -/
def wordPlaceholder : Str :=
  ("Resume content - Word document parsing requires additional libraries for full text " ++
   "extraction. Please upload a PDF or TXT file for best results.").toList

/-- The clean-up of `extractTextFromWordBuffer` before the length test. -/
def cleanWordText (decoded : Str) : Str :=
  trim (replaceAll spacesRegex " ".toList (replaceAll nonPrintableRegex " ".toList decoded))

/-- The method `extractTextFromWordBuffer`, on the text the UTF-8 decoder returns. -/
def extractTextFromWordBuffer (decoded : Str) : Str :=
  if (cleanWordText decoded).length < 50 then wordPlaceholder else cleanWordText decoded

/-- The text of one PDF page: the item strings joined by a space, whitespace collapsed,
trimmed. -/
def pageText (items : List Str) : Str :=
  trim (replaceAll spacesRegex " ".toList (join ' ' items))

/-- The page loop of `parsePDF`: the pair of `fullText` and `pageCount`. -/
def pdfLoop (pages : List (List Str)) : Str × Nat :=
  pages.foldl (fun acc items => (acc.1 ++ (pageText items ++ "\n".toList), acc.2 + 1)) ([], 0)

/-- The method `parsePDF`; `pdfjsLib` says whether the PDF library is loaded. -/
def parsePDF (pdfjsLib : Bool) (file : File) : Except ParseError ResumeData :=
  if !file.readable then .error (.readFailed "pdf".toList)
  else if pdfjsLib then
    match file.pdf with
    | .error cause => .error (.pdfParsingFailed cause)
    | .ok pages =>
      match extractResumeData (pdfLoop pages).1 with
      | .error cause => .error (.pdfParsingFailed cause)
      | .ok resumeData =>
        .ok { resumeData with
              metadata := { format := some "pdf".toList
                            pageCount := some (pdfLoop pages).2
                            fileSize := some file.size } }
  else .error .pdfLibraryNotLoaded

/-- The method `parseWord`. -/
def parseWord (file : File) : Except ParseError ResumeData :=
  if !file.readable then .error (.readFailed "word".toList)
  else
    match extractResumeData (extractTextFromWordBuffer file.text) with
    | .error cause => .error (.wordParsingFailed cause)
    | .ok resumeData =>
      .ok { resumeData with
            metadata := { format := some (getFileFormat file)
                          pageCount := none
                          fileSize := some file.size } }

/-- The method `parseText`. -/
def parseText (file : File) : Except ParseError ResumeData :=
  if !file.readable then .error (.readFailed "txt".toList)
  else
    match extractResumeData file.text with
    | .error cause => .error (.textParsingFailed cause)
    | .ok resumeData =>
      .ok { resumeData with
            metadata := { format := some "txt".toList
                          pageCount := none
                          fileSize := some file.size } }

/-- The method `parseFile`: validation, then dispatch on the format. -/
def parseFile (pdfjsLib : Bool) (file : Option File) : Except ParseError ResumeData :=
  match validateFile file, file with
  | .error e, _ => .error e
  | .ok _, none => .error .noFileProvided -- not reached: `validateFile` rejects the null file
  | .ok _, some f =>
    if getFileFormat f = "pdf".toList then parsePDF pdfjsLib f
    else if getFileFormat f = "doc".toList ∨ getFileFormat f = "docx".toList then parseWord f
    else if getFileFormat f = "txt".toList then parseText f
    else .error (.unsupportedDispatch (getFileFormat f))

/-! ## Vocabulary of the statements -/

/-- The code points of the class `\s`. -/
def spaceCodes : List Nat :=
  [0x09, 0x0A, 0x0B, 0x0C, 0x0D, 0x20, 0xA0, 0x1680, 0x2000, 0x2001, 0x2002, 0x2003, 0x2004,
   0x2005, 0x2006, 0x2007, 0x2008, 0x2009, 0x200A, 0x2028, 0x2029, 0x202F, 0x205F, 0x3000,
   0xFEFF]

/-- The character before a position that lies `m` after a position preceded by `prev`. -/
def lastOr (prev : Option Char) (m : Str) : Option Char :=
  match m.getLast? with
  | some c => some c
  | none => prev

/-- The pattern `[c]{n,}`: `n` characters of a class, then a greedy repetition. -/
def Re.many (n : Nat) (p : Char → Bool) : Re :=
  match n with
  | 0 => .star p
  | n + 1 => .seq (.cls p) (Re.many n p)

/-- No leading and no trailing whitespace. -/
def Trimmed (t : Str) : Prop :=
  (∀ c, t.head? = some c → isSpace c = false) ∧ (∀ c, t.getLast? = some c → isSpace c = false)

/-- The number of line feeds a text starts with. -/
def leadingLF (s : Str) : Nat := (s.takeWhile (fun x => x == '\n')).length

/-- No three line feeds in a row anywhere in the text. -/
def NoTripleLF (s : Str) : Prop := ¬ (['\n', '\n', '\n'] <:+: s)

/-- A blank line: empty, or whitespace only. -/
def isBlankLine (l : Str) : Bool := (trim l).isEmpty

/-- The substring `m` of a text, between `pre` and `post`, is a match of the pattern `re`. -/
def MatchIn (re : Re) (pre m post : Str) : Prop :=
  ∃ prev1, Re.Sem re (lastOr none pre) (m ++ post) prev1 post

/-- The line contains one of the state abbreviations of `extractLocation`. -/
def mentionsState (line : Str) : Bool := states.any (fun state => includes line state)

/-- The line contains one of the city names of `extractLocation`. -/
def mentionsCity (line : Str) : Bool := cities.any (fun city => includes line city)

/-- A keyword that the pattern syntax reads as a literal: ASCII letters, digits and spaces
only. -/
def literalKeyword (k : Str) : Bool := k.all (fun c => isLetter c || isDigit c || c == ' ')

/-- A keyword of lower-case ASCII letters, digits and spaces only. -/
def plainKeyword (k : Str) : Bool := k.all (fun c => isLower c || isDigit c || c == ' ')

/-- No upper-case ASCII letter occurs in the text. -/
def noUpper (s : Str) : Bool := s.all (fun c => !isUpper c)

/-- The line ends a section with the given keywords: its lower-cased trimmed form contains
a keyword of the master list and no keyword of the section. -/
def endsSection (keywords : List Str) (l : Str) : Bool :=
  !(keywords.any (fun k => includes (trim (toLowerCase l)) k)) &&
    majorSections.any (fun m => includes (trim (toLowerCase l)) m)

/-- The nine section names in the order of the table of `identifySections`. -/
def canonicalSections : List Str :=
  ["Summary", "Experience", "Education", "Skills", "Projects", "Certifications", "Awards",
   "Leadership", "References"].map String.toList

/-- The test of `identifySections` for one entry of its table: some line, lower-cased and
trimmed, equals or includes one of the entry's keywords. -/
def sectionFound (text : Str) (e : Str × List Str) : Bool :=
  (split '\n' text).any (fun line =>
    e.2.any (fun keyword =>
      trim (toLowerCase line) == keyword || includes (trim (toLowerCase line)) keyword))

/-- The pattern `/(\d+)\s*(?:years?|yrs?)\s*(?:of\s*)?(?:experience|exp)/gi`. -/
def yearRegex : Re :=
  .cat [.plus isDigit, .star isSpace,
    .alt (.seq (.litI "year".toList) (.opt (.litI "s".toList)))
      (.seq (.litI "yr".toList) (.opt (.litI "s".toList))),
    .star isSpace,
    .opt (.seq (.litI "of".toList) (.star isSpace)),
    .alt (.litI "experience".toList) (.litI "exp".toList)]

/-- The class `[-–—]`: hyphen, en dash, em dash. -/
def isDash (c : Char) : Bool := c == '-' || c.toNat == 0x2013 || c.toNat == 0x2014

/-- The pattern `/(\d{4})\s*[-–—]\s*(\d{4}|present|current)/gi`. -/
def dateRegex : Re :=
  .cat [.cls isDigit, .cls isDigit, .cls isDigit, .cls isDigit, .star isSpace, .cls isDash,
    .star isSpace,
    .alt (.cat [.cls isDigit, .cls isDigit, .cls isDigit, .cls isDigit])
      (.alt (.litI "present".toList) (.litI "current".toList))]

/-- The pattern `/(\d{4})/g`. -/
def fourDigitsRegex : Re := .cat [.cls isDigit, .cls isDigit, .cls isDigit, .cls isDigit]

/-- The natural number that the decimal digits at the head of a string write. -/
def digitsValue (s : Str) : Nat :=
  (s.takeWhile isDigit).foldl (fun n c => 10 * n + (c.toNat - 0x30)) 0

/-- What one date match adds to `totalYears` in exact arithmetic (the source computes it
with doubles, see `addRange`); `currentYear` stands for `new Date().getFullYear()`, and the
truncated subtraction is `Math.max(0, endYear - startYear)`. -/
def rangeYears (currentYear : Nat) (dateMatch : Str) : Nat :=
  match matchAll fourDigitsRegex dateMatch with
  | y0 :: y1 :: _ =>
    (if includes (toLowerCase y1) "present".toList then currentYear else digitsValue y1)
      - digitsValue y0
  | _ => 0

/-- A number of the source as far as `extractYearsOfExperience` computes with numbers: a
natural number that a double holds exactly, `Infinity`, or `NaN`. -/
inductive Num where
  /-- A finite value, a natural number. -/
  | fin (n : Nat) : Num
  /-- The value `Infinity`. -/
  | inf : Num
  /-- The value `NaN`. -/
  | nan : Num
  deriving DecidableEq

/-- The power of two by which a natural number is divided to bring it below 2^53; `fuel`
bounds the number of halvings. -/
def scale : Nat → Nat → Nat
  | 0, _ => 1
  | fuel + 1, n => if n < 2 ^ 53 then 1 else 2 * scale fuel (n / 2)

/-- The number 2^1024, the least natural number that no finite double reaches. -/
def doubleLimit : Nat :=
  179769313486231590772930519078902473361797697894230657273430081157732675805500963132708477322407536021120113879871393357658789768814416622492847430639474124377767893424865485276302219601246094119453082952085005768838150682342462881473913110540827237163350510684586298239947245938479716304835356329624224137216

/-- The significand of the double nearest to `n`, for the scale `d`: the quotient, plus one
when the remainder is more than half of `d`, or exactly half and the quotient is odd. -/
def significand (n d : Nat) : Nat :=
  if d < 2 * (n % d) ∨ (2 * (n % d) = d ∧ (n / d) % 2 = 1) then n / d + 1 else n / d

/-- The double nearest to a natural number, ties to the even significand, `Infinity` from
2^1024 on: the number is cut to 53 significant bits and rounded on what was cut. -/
def toDouble (n : Nat) : Num :=
  if n < 2 ^ 53 then .fin n
  else if significand n (scale n n) * scale n n < doubleLimit then
    .fin (significand n (scale n n) * scale n n)
  else .inf

/-- The function `parseInt` on a string without leading whitespace or sign (the parser
passes runs of decimal digits only): the double nearest to the number that the leading
digits write, `NaN` when the string does not start with a digit. -/
def parseInt (s : Str) : Num :=
  match s.takeWhile isDigit with
  | [] => .nan
  | d :: ds => toDouble (digitsValue (d :: ds))

/-- The expression `Math.max(0, endYear - startYear)`. -/
def Num.spanFrom (endYear startYear : Num) : Num :=
  match endYear, startYear with
  | .fin e, .fin s => toDouble (e - s)
  | .inf, .fin _ => .inf
  | .fin _, .inf => .fin 0
  | _, _ => .nan

/-- The sum of two numbers of the source. -/
def Num.add (a b : Num) : Num :=
  match a, b with
  | .fin x, .fin y => toDouble (x + y)
  | .nan, _ => .nan
  | _, .nan => .nan
  | _, _ => .inf

/-- The expression `Math.min(totalYears, 50)`. -/
def Num.min50 (a : Num) : Num :=
  match a with
  | .fin x => .fin (min x 50)
  | .inf => .fin 50
  | .nan => .nan

/-- The body of the `forEach` of `extractYearsOfExperience`: the value of `totalYears`
after one date match; `currentYear` stands for `new Date().getFullYear()`. -/
def addRange (currentYear : Nat) (totalYears : Num) (dateMatch : Str) : Num :=
  match matchAll fourDigitsRegex dateMatch with
  | y0 :: y1 :: _ =>
    totalYears.add
      (Num.spanFrom
        (if includes (toLowerCase y1) "present".toList then .fin currentYear else parseInt y1)
        (parseInt y0))
  | _ => totalYears

/-- The method `extractYearsOfExperience`. The only step that can raise is indexing the
result of `matches[0].match(/\d+/)` when it is null. -/
def extractYearsOfExperience (currentYear : Nat) (text : Str) : Except Str Num :=
  match matchAll yearRegex text with
  | first :: _ =>
    match matchAll digitsRegex first with
    | digits :: _ => .ok (parseInt digits)
    | [] => .error "TypeError: matches[0].match(...) is null".toList
  | [] =>
    match matchAll dateRegex text with
    | [] => .ok (.fin 0)
    | m :: ms => .ok ((m :: ms).foldl (addRange currentYear) (.fin 0)).min50

/-- The pattern of a date range with two years, `YYYY-YYYY`: four digits, optional
whitespace, a dash, optional whitespace, four digits. -/
def numericRangeRegex : Re :=
  .cat [.cls isDigit, .cls isDigit, .cls isDigit, .cls isDigit, .star isSpace, .cls isDash,
    .star isSpace, .cls isDigit, .cls isDigit, .cls isDigit, .cls isDigit]

/-- The years spanned by a `YYYY-YYYY` range: end year minus start year, 0 when negative. -/
def rangeSpan (range : Str) : Nat :=
  digitsValue (range.drop (range.length - 4)) - digitsValue (range.take 4)

/-- Reference definition of claim C20, in the words of the claim: when the text contains an
explicit `N years/yrs (of) experience/exp` phrase, the integer `N` of the leftmost such
phrase; otherwise the sum over all `YYYY-YYYY` date ranges found in the text of
`max(0, endYear - startYear)`, clipped to 50, which is 0 when there is no such range. -/
def yearsOfExperienceReference (text : Str) : Nat :=
  match matchAll yearRegex text with
  | phrase :: _ => digitsValue phrase
  | [] => min 50 ((matchAll numericRangeRegex text).map rangeSpan).sum

/-- The amended reference definition of claim C20: when the text contains an explicit
`N years/yrs (of) experience/exp` phrase, the double nearest to the integer `N` of the
leftmost such phrase; otherwise the sum over all `YYYY-YYYY` date ranges found in the text
of `max(0, endYear - startYear)`, clipped to 50. -/
def yearsOfExperienceRounded (text : Str) : Num :=
  match matchAll yearRegex text with
  | phrase :: _ => toDouble (digitsValue phrase)
  | [] => .fin (min 50 ((matchAll numericRangeRegex text).map rangeSpan).sum)

/-- The total of the source after some date matches against the exact total: equal below
2^53, and from there on at least 2^53 or `Infinity`. -/
def TotalIs (exact : Nat) (total : Num) : Prop :=
  (exact < 2 ^ 53 ∧ total = .fin exact) ∨
  (2 ^ 53 ≤ exact ∧ (total = .inf ∨ ∃ a, 2 ^ 53 ≤ a ∧ total = .fin a))

/-- Four digits at the head of a text: what follows them. -/
def fourDigitsAt (s : Str) : Option Str :=
  match s with
  | c1 :: c2 :: c3 :: c4 :: rest =>
    if isDigit c1 && isDigit c2 && isDigit c3 && isDigit c4 then some rest else none
  | _ => none

/-- A word at the head of a text, up to letter case: what follows it. -/
def wordAt (w s : Str) : Option Str :=
  if (s.take w.length).map Char.toLower = w.map Char.toLower then some (s.drop w.length)
  else none

/-- Optional whitespace, a dash and optional whitespace at the head of a text: what
follows them. -/
def dashAt (s : Str) : Option Str :=
  match s.dropWhile isSpace with
  | d :: rest => if isDash d then some (rest.dropWhile isSpace) else none
  | [] => none

/-- A pattern without assertions on the character before the position. -/
def Re.plain : Re → Bool
  | .eps => true
  | .cls _ => true
  | .seq a b => a.plain && b.plain
  | .alt a b => a.plain && b.plain
  | .star _ => true
  | .wordB => false
  | .bos => false
  | .eos => true

/-- What the date pattern reads after the dash: four digits, or one of the two words. -/
def dateTailAt (t : Str) : Option Str :=
  (fourDigitsAt t).orElse fun _ =>
    (wordAt "present".toList t).orElse fun _ => wordAt "current".toList t

/-- The phone pattern as the specification words it, without the word-boundary assertions
of the source: optional country code (`+1` or `1`), area code optionally in parentheses,
then the groups of 3, 3 and 4 digits with optional `-`, `.` or whitespace separators. -/
def phonePatternOfSpec : Re :=
  .cat [.opt (.cat [.opt (.chr '+'), .chr '1', .opt (.cls isPhoneSep)]),
    .opt (.chr '('),
    .cls isDigit, .cls isDigit, .cls isDigit,
    .opt (.chr ')'),
    .opt (.cls isPhoneSep),
    .cls isDigit, .cls isDigit, .cls isDigit,
    .opt (.cls isPhoneSep),
    .cls isDigit, .cls isDigit, .cls isDigit, .cls isDigit]

/-- For each body extractor: the name of its section, its keyword list, and the keywords of
that list which contain no keyword of the same section in the table of `identifySections`. -/
def extractorTable : List (Str × List Str × List Str) :=
  [("Summary".toList, summaryKeywords, []),
   ("Experience".toList, experienceKeywords, ["professional background".toList]),
   ("Education".toList, educationKeywords, ["school".toList, "qualifications".toList]),
   ("Skills".toList, skillsKeywords, ["expertise".toList, "skill set".toList])]

/-! ## The validator (`src/js/_validator.js`) -/

/-- The `length` of a JavaScript string: the number of UTF-16 code units. -/
def utf16Length (s : Str) : Nat :=
  (s.map (fun c => if c.toNat < 0x10000 then 1 else 2)).sum

/-- A literal string (no `i` flag). -/
def Re.lit (s : Str) : Re := s.foldr (fun c r => Re.seq (Re.chr c) r) Re.eps

/-- The pattern `[c]{0,n}` (greedy). -/
def Re.upto (n : Nat) (p : Char → Bool) : Re :=
  match n with
  | 0 => .eps
  | n + 1 => .opt (.seq (.cls p) (Re.upto n p))

/-- The class `.`: every character but the line terminators. -/
def isDot (c : Char) : Bool :=
  !(c == '\n' || c == '\r' || c.toNat == 0x2028 || c.toNat == 0x2029)

/-- The class `[^\s@]`. -/
def isEmailPart (c : Char) : Bool := !(isSpace c || c == '@')

/-- The class `[a-zA-Z\s\-'\.]`. -/
def isNameChar (c : Char) : Bool :=
  isLetter c || isSpace c || c == '-' || c.toNat == 0x27 || c == '.'

/-- The rule `email`: `/^[^\s@]+@[^\s@]+\.[^\s@]+$/`. -/
def rulesEmail : Re :=
  .cat [.bos, .plus isEmailPart, .chr '@', .plus isEmailPart, .chr '.', .plus isEmailPart, .eos]

/-- The rule `phone`: `/^\d{3}[-.]?\d{3}[-.]?\d{4}$/`. -/
def rulesPhone : Re :=
  .cat [.bos, .cls isDigit, .cls isDigit, .cls isDigit,
    .opt (.cls (fun c => c == '-' || c == '.')),
    .cls isDigit, .cls isDigit, .cls isDigit,
    .opt (.cls (fun c => c == '-' || c == '.')),
    .cls isDigit, .cls isDigit, .cls isDigit, .cls isDigit, .eos]

/-- The rule `name`: `/^[a-zA-Z\s\-'\.]{2,50}$/`. -/
def rulesName : Re :=
  .cat [.bos, .cls isNameChar, .cls isNameChar, Re.upto 48 isNameChar, .eos]

/-- The rule `url`: `/^https?:\/\/.+/`. -/
def rulesUrl : Re :=
  .cat [.bos, Re.lit "http".toList, .opt (.chr 's'), Re.lit "://".toList, .plus isDot]

/-- The rule `linkedin`: `/^https?:\/\/(www\.)?linkedin\.com\/in\/.+/`. -/
def rulesLinkedin : Re :=
  .cat [.bos, Re.lit "http".toList, .opt (.chr 's'), Re.lit "://".toList,
    .opt (Re.lit "www.".toList), Re.lit "linkedin.com/in/".toList, .plus isDot]

/-- The result `{ valid, error }` of a field validator. -/
structure Validation where
  /-- The field `valid`. -/
  valid : Bool
  /-- The field `error`, absent on success. -/
  error : Option Str
  deriving DecidableEq

/-- The result `{ valid, errors }` of a record validator. -/
structure ValidationList where
  /-- The field `valid`. -/
  valid : Bool
  /-- The field `errors`. -/
  errors : List Str
  deriving DecidableEq

/-- The method `validateEmail` on a string. -/
def validateEmail (email : Str) : Validation :=
  if email.isEmpty then { valid := false, error := some "Email is required".toList }
  else if !test rulesEmail email then
    { valid := false, error := some "Please enter a valid email address".toList }
  else if utf16Length email > 254 then
    { valid := false, error := some "Email address is too long".toList }
  else { valid := true, error := none }

/-- The method `validatePhone` on a string. -/
def validatePhone (phone : Str) : Validation :=
  if phone.isEmpty then { valid := true, error := none }
  else if !test rulesPhone (replaceAll (.cls isSpace) [] phone) then
    { valid := false,
      error := some "Please enter a valid phone number (e.g., 555-123-4567)".toList }
  else { valid := true, error := none }

/-- The method `validateName` on a string. -/
def validateName (name : Str) : Validation :=
  if name.isEmpty then { valid := false, error := some "Name is required".toList }
  else if utf16Length (trim name) < 2 then
    { valid := false, error := some "Name must be at least 2 characters long".toList }
  else if utf16Length (trim name) > 50 then
    { valid := false, error := some "Name must be less than 50 characters".toList }
  else if !test rulesName (trim name) then
    { valid := false,
      error := some "Name can only contain letters, spaces, hyphens, and apostrophes".toList }
  else { valid := true, error := none }

/-- The method `validateURL` on a string. -/
def validateURL (url : Str) : Validation :=
  if url.isEmpty then { valid := true, error := none }
  else if !test rulesUrl url then
    { valid := false, error := some "Please enter a valid URL (e.g., https://example.com)".toList }
  else { valid := true, error := none }

/-- The method `validateLinkedIn` on a string. -/
def validateLinkedIn (url : Str) : Validation :=
  if url.isEmpty then { valid := true, error := none }
  else if !(validateURL url).valid then validateURL url
  else if !test rulesLinkedin url then
    { valid := false,
      error := some
        "Please enter a valid LinkedIn URL (e.g., https://linkedin.com/in/username)".toList }
  else { valid := true, error := none }

/-- One step of `validatePersonalInfo`: the error of a field validator, with its label,
pushed on the list when the field is not empty and not valid. -/
def pushError (errors : List Str) (label : Str) (field : Str) (v : Validation) : List Str :=
  if !field.isEmpty && !v.valid then errors ++ [label ++ ": ".toList ++ v.error.getD []]
  else errors

/-- The method `validatePersonalInfo` on the record of the parser. -/
def validatePersonalInfo (personalInfo : PersonalInfo) : ValidationList :=
  let e1 := pushError [] "Name".toList personalInfo.name (validateName personalInfo.name)
  let e2 := pushError e1 "Email".toList personalInfo.email (validateEmail personalInfo.email)
  let e3 := pushError e2 "Phone".toList personalInfo.phone (validatePhone personalInfo.phone)
  let e4 := pushError e3 "LinkedIn".toList personalInfo.linkedin
    (validateLinkedIn personalInfo.linkedin)
  { valid := e4.isEmpty, errors := e4 }

/-- The method `validateResumeData` on the record of the parser. -/
def validateResumeData (data : ResumeData) : ValidationList :=
  let e1 : List Str :=
    if data.rawText.isEmpty then ["Resume text is required".toList]
    else if utf16Length data.rawText < 50 then
      ["Resume text is too short (minimum 50 characters)".toList]
    else if utf16Length data.rawText > 50000 then
      ["Resume text is too long (maximum 50,000 characters)".toList]
    else []
  let e2 :=
    if !(validatePersonalInfo data.personalInfo).valid then
      e1 ++ (validatePersonalInfo data.personalInfo).errors
    else e1
  let e3 :=
    if data.sections.isEmpty then e2 ++ ["Resume must have at least one section".toList]
    else e2
  { valid := e3.isEmpty, errors := e3 }

/-- The pattern `/[<>]/g`. -/
def angleRegex : Re := .cls (fun c => c == '<' || c == '>')

/-- The pattern `/javascript:/gi`. -/
def javascriptRegex : Re := .litI "javascript:".toList

/-- The pattern `/on\w+=/gi`. -/
def handlerRegex : Re := .cat [.litI "on".toList, .plus isWord, .chr '=']

/-- The pattern `/&/g`. -/
def ampRegex : Re := .chr '&'

/-- The pattern `/"/g`. -/
def quoteRegex : Re := .chr '"'

/-- The pattern `/'/g`. -/
def aposRegex : Re := .cls (fun c => c.toNat == 0x27)

/-- The method `sanitizeInput`; `none` stands for an input that is not a string. -/
def sanitizeInput (input : Option Str) : Str :=
  match input with
  | none => []
  | some s =>
    replaceAll aposRegex "&#x27;".toList
      (replaceAll quoteRegex "&quot;".toList
        (replaceAll ampRegex "&amp;".toList
          (replaceAll handlerRegex []
            (replaceAll javascriptRegex []
              (replaceAll angleRegex [] (trim s))))))

/-- The class of the special characters of `validatePassword`. -/
def isSpecial (c : Char) : Bool := "!@#$%^&*(),.?\":\x7b\x7d|<>".toList.contains c

/-- The result `{ valid, error, strength }` of `validatePassword`. -/
structure PasswordValidation where
  /-- The field `valid`. -/
  valid : Bool
  /-- The field `error`, absent on success. -/
  error : Option Str
  /-- The field `strength`, present on success. -/
  strength : Option Nat
  deriving DecidableEq

/-- The value `strength` of `validatePassword`: how many of the four tests hold. -/
def strengthOf (password : Str) : Nat :=
  ([test (.cls isLower) password, test (.cls isUpper) password, test (.cls isDigit) password,
    test (.cls isSpecial) password].filter id).length

/-- The method `validatePassword`; `none` stands for an input that is not a string. -/
def validatePassword (password : Option Str) : PasswordValidation :=
  match password with
  | none => { valid := false, error := some "Password is required".toList, strength := none }
  | some p =>
    if p.isEmpty then
      { valid := false, error := some "Password is required".toList, strength := none }
    else if utf16Length p < 8 then
      { valid := false, error := some "Password must be at least 8 characters long".toList,
        strength := none }
    else if utf16Length p > 128 then
      { valid := false, error := some "Password must be less than 128 characters".toList,
        strength := none }
    else if strengthOf p < 3 then
      { valid := false,
        error := some ("Password must contain at least 3 of: lowercase letters, " ++
          "uppercase letters, numbers, special characters").toList,
        strength := none }
    else { valid := true, error := none, strength := some (strengthOf p) }

/-! ## The storage service (`src/lib/puter-service.js`) -/

/-- The record `analysisRecord` of `saveAnalysis`. -/
structure AnalysisRecord where
  /-- The field `id`: `Date.now()`. -/
  id : Nat
  /-- The field `resumeName`. -/
  resumeName : Str
  /-- The field `analysis`. -/
  analysis : Str
  /-- The field `timestamp`. -/
  timestamp : Str
  deriving DecidableEq

/-- The key-value store as far as `saveAnalysis` sees it: what is stored under
`user_analyses`, whether the calls `puter.kv.get` and `puter.kv.set` succeed, and the
message of the error with which `puter.kv.set` fails when it does. -/
structure KvStore where
  /-- The list stored under `user_analyses`, `none` when nothing is stored. -/
  userAnalyses : Option (List AnalysisRecord)
  /-- Whether `puter.kv.get` resolves. -/
  getOk : Bool
  /-- Whether `puter.kv.set` resolves. -/
  setOk : Bool
  /-- The `message` of the error of a failing `puter.kv.set`. -/
  setFailure : Str
  deriving DecidableEq

/-- The method `get` for the key `user_analyses`: a failure is logged and yields `null`. -/
def KvStore.get (kv : KvStore) : Option (List AnalysisRecord) :=
  if kv.getOk then kv.userAnalyses else none

/-- The method `set` for the key `user_analyses`: a failure is raised again as
`Failed to store data: ` followed by the message of the cause. -/
def KvStore.set (kv : KvStore) (value : List AnalysisRecord) : Except Str KvStore :=
  if kv.setOk then .ok { kv with userAnalyses := some value }
  else .error ("Failed to store data: ".toList ++ kv.setFailure)

/-- The call `xs.slice(-n)`: the last `n` elements. -/
def sliceLast (n : Nat) (xs : List α) : List α := xs.drop (xs.length - n)

/-- The method `saveAnalysis`, with the clock readings as parameters: the record it
returns and the store it leaves, or the error it raises again. -/
def saveAnalysis (kv : KvStore) (now : Nat) (timestamp : Str) (analysisData resumeName : Str) :
    Except Str (AnalysisRecord × KvStore) :=
  let analysisRecord : AnalysisRecord :=
    { id := now, resumeName := resumeName, analysis := analysisData, timestamp := timestamp }
  let existingAnalyses := (kv.get.getD []) ++ [analysisRecord]
  let limitedAnalyses := sliceLast 10 existingAnalyses
  match kv.set limitedAnalyses with
  | .error e => .error e
  | .ok kv1 => .ok (analysisRecord, kv1)

/-! ## Vocabulary of the statements on the validator -/

/-- The entities that `sanitizeInput` writes. -/
def entities : List Str := ["&amp;".toList, "&quot;".toList, "&#x27;".toList]

/-- Every `&` of the text is the start of one of the entities `&amp;`, `&quot;`, `&#x27;`. -/
def EntitiesOnly (s : Str) : Prop :=
  ∀ pre post, s = pre ++ '&' :: post → ∃ e ∈ entities, e <+: '&' :: post

/-- The same as a test that runs over the text. -/
def entitiesOk : Str → Bool
  | [] => true
  | c :: rest =>
    (c != '&' || entities.any (fun e => e.isPrefixOf (c :: rest))) && entitiesOk rest

/-- What the three last replacements of `sanitizeInput` make of one character. -/
def escapeChar (c : Char) : Str :=
  if c == '&' then "&amp;".toList
  else if c == '"' then "&quot;".toList
  else if c.toNat == 0x27 then "&#x27;".toList
  else [c]

/-- How many of the four character classes of `validatePassword` occur in the password:
lower-case letter, upper-case letter, digit, special character. -/
def classCount (password : Str) : Nat :=
  ([password.any isLower, password.any isUpper, password.any isDigit,
    password.any isSpecial].filter id).length

/-! ## Lemmas on the string primitives -/

theorem split_ne_nil (sep : Char) (s : Str) : split sep s ≠ [] := by
  cases s with
  | nil => simp [split]
  | cons c cs =>
    by_cases h : c = sep
    · simp [split, h]
    · cases hs : split sep cs <;> simp [split, h, hs]

theorem split_of_not_mem (sep : Char) (s : Str) (h : sep ∉ s) : split sep s = [s] := by
  induction s with
  | nil => rfl
  | cons c cs ih =>
    have hc : c ≠ sep := fun e => h (by simp [e])
    have hcs : sep ∉ cs := fun e => h (by simp [e])
    simp [split, hc, ih hcs]

theorem split_append_sep (sep : Char) (a b : Str) :
    split sep (a ++ sep :: b) = split sep a ++ split sep b := by
  induction a with
  | nil => simp [split]
  | cons c cs ih =>
    by_cases h : c = sep
    · simp [split, h, ih]
    · cases hs : split sep cs with
      | nil => exact absurd hs (split_ne_nil sep cs)
      | cons l ls => simp [split, h, ih, hs]

theorem getFileFormat_of_dot (f : File) (stem ext : Str) (hname : f.name = stem ++ '.' :: ext)
    (hext : '.' ∉ ext) : getFileFormat f = toLowerCase ext := by
  unfold getFileFormat
  rw [hname, split_append_sep, split_of_not_mem _ _ hext]
  simp [List.getLastD_eq_getLast?]

/-! ## Format router -/

/-- C1: `validateFile` checks in the order null, size, format, and the first failing check
decides: the null file fails with `No file provided`; a file larger than 10 MiB fails with
the size error whatever its name; a file within the limit whose format is not one of pdf,
doc, docx, txt fails with the unsupported-format error; any other file is accepted. A file
of exactly 10 MiB is not rejected for its size, and the format of a name with a dot is the
lower-cased text after the last dot. -/
theorem validateFile_order :
    validateFile none = .error .noFileProvided ∧
    (∀ f : File, f.size > 10 * 1024 * 1024 →
      validateFile (some f) = .error (.fileSizeExceeds 10)) ∧
    (∀ f : File, f.size ≤ 10 * 1024 * 1024 → getFileFormat f ∉ supportedFormats →
      validateFile (some f) = .error (.unsupportedFormat (getFileFormat f) supportedFormats)) ∧
    (∀ f : File, f.size ≤ 10 * 1024 * 1024 → getFileFormat f ∈ supportedFormats →
      validateFile (some f) = .ok ()) ∧
    (∀ f : File, f.size = 10 * 1024 * 1024 →
      validateFile (some f) ≠ .error (.fileSizeExceeds 10)) ∧
    (∀ (f : File) (stem ext : Str), f.name = stem ++ '.' :: ext → '.' ∉ ext →
      getFileFormat f = toLowerCase ext) ∧
    supportedFormats = ["pdf".toList, "doc".toList, "docx".toList, "txt".toList] := by
  refine ⟨rfl, ?_, ?_, ?_, ?_, ?_, rfl⟩
  · intro f h
    have h1 : f.size > maxFileSize := h
    simp only [validateFile, if_pos h1]
    rfl
  · intro f h hf
    have h1 : ¬ f.size > maxFileSize := Nat.not_lt.mpr h
    simp [validateFile, h1, hf]
  · intro f h hf
    have h1 : ¬ f.size > maxFileSize := Nat.not_lt.mpr h
    simp [validateFile, h1, hf]
  · intro f h
    have h1 : ¬ f.size > maxFileSize := by simp [maxFileSize, h]
    by_cases hf : getFileFormat f ∈ supportedFormats <;> simp [validateFile, h1, hf]
  · intro f stem ext h1 h2
    exact getFileFormat_of_dot f stem ext h1 h2

/-- Witness for C1: an oversize file with an unsupported extension reports the size error. -/
theorem validateFile_order_witness :
    validateFile (some { name := "cv.exe".toList, size := 10 * 1024 * 1024 + 1,
                         readable := true, text := [], pdf := .ok [] })
      = .error (.fileSizeExceeds 10) :=
  validateFile_order.2.1 _ (by decide)

/-- C2 (failing input): a file within the size limit whose name `pdf` has no dot, hence no
extension, passes `validateFile`, and `parseFile` hands it to the PDF strategy and returns a
record instead of the unsupported-format error. -/
theorem validateFile_accepts_name_without_extension :
    '.' ∉ "pdf".toList ∧
    validateFile (some { name := "pdf".toList, size := 1, readable := true, text := [],
                         pdf := .ok [["A".toList]] }) = .ok () ∧
    (parseFile true (some { name := "pdf".toList, size := 1, readable := true, text := [],
                            pdf := .ok [["A".toList]] })).toBool = true :=
  ⟨by decide, rfl, rfl⟩

/-! ## The matcher against the declarative reading -/

namespace Re

theorem orElse_isSome_left {σ : Type} (a : Option σ) (b : Unit → Option σ)
    (h : a.isSome = true) : (a.orElse b).isSome = true := by
  cases a with
  | none => simp at h
  | some x => simp [Option.orElse]

theorem orElse_isSome_right {σ : Type} (a : Option σ) (b : Unit → Option σ)
    (h : (b ()).isSome = true) : (a.orElse b).isSome = true := by
  cases a with
  | none => simpa [Option.orElse] using h
  | some x => simp [Option.orElse]

theorem starRun_sound {σ : Type} (p : Char → Bool) (k : Option Char → Str → Option σ) :
    ∀ (s : Str) (prev : Option Char) (x : σ), starRun p k prev s = some x →
      ∃ prev1 s1, Sem (star p) prev s prev1 s1 ∧ k prev1 s1 = some x := by
  intro s
  induction s with
  | nil =>
    intro prev x h
    exact ⟨prev, [], Sem.starNil _ _ _, by simpa [starRun] using h⟩
  | cons c cs ih =>
    intro prev x h
    by_cases hp : p c = true
    · simp only [starRun, hp, if_true] at h
      cases hr : starRun p k (some c) cs with
      | none =>
        rw [hr] at h
        exact ⟨prev, c :: cs, Sem.starNil _ _ _, by simpa [Option.orElse] using h⟩
      | some y =>
        rw [hr] at h
        have hxy : y = x := by simpa [Option.orElse] using h
        obtain ⟨prev1, s1, hs, hk⟩ := ih (some c) y hr
        exact ⟨prev1, s1, Sem.starCons _ _ _ _ _ _ hp hs, hxy ▸ hk⟩
    · simp only [starRun, hp] at h
      exact ⟨prev, c :: cs, Sem.starNil _ _ _, by simpa using h⟩

theorem run_sound {σ : Type} (r : Re) :
    ∀ (prev : Option Char) (s : Str) (k : Option Char → Str → Option σ) (x : σ),
      run r prev s k = some x → ∃ prev1 s1, Sem r prev s prev1 s1 ∧ k prev1 s1 = some x := by
  induction r with
  | eps => intro prev s k x h; exact ⟨prev, s, Sem.eps _ _, by simpa [run] using h⟩
  | cls p =>
    intro prev s k x h
    cases s with
    | nil => simp [run] at h
    | cons c cs =>
      by_cases hp : p c = true
      · exact ⟨some c, cs, Sem.cls _ _ _ _ hp, by simpa [run, hp] using h⟩
      · simp [run, hp] at h
  | seq a b iha ihb =>
    intro prev s k x h
    obtain ⟨p1, s1, h1, hk1⟩ := iha prev s _ x (by simpa [run] using h)
    obtain ⟨p2, s2, h2, hk2⟩ := ihb p1 s1 k x hk1
    exact ⟨p2, s2, Sem.seq _ _ _ _ _ _ _ _ h1 h2, hk2⟩
  | alt a b iha ihb =>
    intro prev s k x h
    simp only [run] at h
    cases hr : run a prev s k with
    | none =>
      rw [hr] at h
      obtain ⟨p1, s1, h1, hk1⟩ := ihb prev s k x (by simpa [Option.orElse] using h)
      exact ⟨p1, s1, Sem.altR _ _ _ _ _ _ h1, hk1⟩
    | some y =>
      rw [hr] at h
      have hxy : y = x := by simpa [Option.orElse] using h
      obtain ⟨p1, s1, h1, hk1⟩ := iha prev s k y hr
      exact ⟨p1, s1, Sem.altL _ _ _ _ _ _ h1, hxy ▸ hk1⟩
  | star p => intro prev s k x h; exact starRun_sound p k s prev x (by simpa [run] using h)
  | wordB =>
    intro prev s k x h
    by_cases hb : isWordAt prev = isWordAt s.head?
    · simp [run, hb] at h
    · exact ⟨prev, s, Sem.wordB _ _ hb, by simpa [run, hb] using h⟩
  | bos =>
    intro prev s k x h
    cases prev with
    | none => exact ⟨none, s, Sem.bos _, by simpa [run] using h⟩
    | some c => simp [run] at h
  | eos =>
    intro prev s k x h
    cases s with
    | nil => exact ⟨prev, [], Sem.eos _, by simpa [run] using h⟩
    | cons c cs => simp [run] at h

theorem starRun_isSome_of_k {σ : Type} (p : Char → Bool) (k : Option Char → Str → Option σ)
    (prev : Option Char) (s : Str) (h : (k prev s).isSome = true) :
    (starRun p k prev s).isSome = true := by
  cases s with
  | nil => simpa [starRun] using h
  | cons c cs =>
    by_cases hp : p c = true
    · simp only [starRun, hp, if_true]
      exact orElse_isSome_right _ _ h
    · simpa [starRun, hp] using h

theorem run_complete {σ : Type} {r : Re} {prev prev1 : Option Char} {s s1 : Str}
    (h : Sem r prev s prev1 s1) :
    ∀ (k : Option Char → Str → Option σ), (k prev1 s1).isSome = true →
      (run r prev s k).isSome = true := by
  induction h with
  | eps prev s => intro k hk; simpa [run] using hk
  | cls p prev c s hp => intro k hk; simpa [run, hp] using hk
  | seq a b prev s p1 s1 p2 s2 _ _ iha ihb =>
    intro k hk
    simp only [run]
    exact iha _ (ihb k hk)
  | altL a b prev s p1 s1 _ iha =>
    intro k hk
    simp only [run]
    exact orElse_isSome_left _ _ (iha k hk)
  | altR a b prev s p1 s1 _ ihb =>
    intro k hk
    simp only [run]
    exact orElse_isSome_right _ _ (ihb k hk)
  | starNil p prev s => intro k hk; exact starRun_isSome_of_k p k prev s hk
  | starCons p prev c s p1 s1 hp _ ih =>
    intro k hk
    simp only [run, starRun, hp, if_true]
    exact orElse_isSome_left _ _ (by simpa [run] using ih k hk)
  | wordB prev s hb =>
    intro k hk
    have : (isWordAt prev != isWordAt s.head?) = true := by simpa using hb
    simpa [run, this] using hk
  | bos s => intro k hk; simpa [run] using hk
  | eos prev => intro k hk; simpa [run] using hk

/-- The match attempt succeeds exactly when the pattern has a reading at the position. -/
theorem matchAt_isSome_iff (r : Re) (prev : Option Char) (s : Str) :
    (matchAt r prev s).isSome = true ↔ ∃ prev1 s1, Sem r prev s prev1 s1 := by
  constructor
  · intro h
    obtain ⟨x, hx⟩ := Option.isSome_iff_exists.mp h
    obtain ⟨p1, s1, hs, _⟩ := run_sound r prev s _ x hx
    exact ⟨p1, s1, hs⟩
  · rintro ⟨p1, s1, hs⟩
    exact run_complete hs _ rfl

/-- What a successful match attempt leaves is reached by a reading of the pattern. -/
theorem matchAt_sound (r : Re) (prev : Option Char) (s rest : Str)
    (h : matchAt r prev s = some rest) : ∃ prev1, Sem r prev s prev1 rest := by
  obtain ⟨p1, s1, hs, hk⟩ := run_sound r prev s _ rest h
  have : s1 = rest := by simpa using hk
  exact ⟨p1, this ▸ hs⟩

theorem matchAt_eq_none_iff (r : Re) (prev : Option Char) (s : Str) :
    matchAt r prev s = none ↔ ∀ prev1 s1, ¬ Sem r prev s prev1 s1 := by
  constructor
  · intro h p1 s1 hs
    have := (matchAt_isSome_iff r prev s).mpr ⟨p1, s1, hs⟩
    simp [h] at this
  · intro h
    cases hm : matchAt r prev s with
    | none => rfl
    | some rest =>
      obtain ⟨p1, hs⟩ := matchAt_sound r prev s rest hm
      exact absurd hs (h p1 rest)

end Re

/-! ## The scanners -/

theorem lastOr_nil (prev : Option Char) : lastOr prev [] = prev := rfl

theorem lastOr_cons (prev : Option Char) (c : Char) (m : Str) :
    lastOr prev (c :: m) = lastOr (some c) m := by
  cases m with
  | nil => rfl
  | cons d m =>
    have hx : (d :: m).getLast? = some ((d :: m).getLast (by simp)) :=
      List.getLast?_eq_getLast _ _
    simp [lastOr, List.getLast?_cons_cons, hx]

theorem lastOr_append (prev : Option Char) (a b : Str) :
    lastOr prev (a ++ b) = lastOr (lastOr prev a) b := by
  induction a generalizing prev with
  | nil => rfl
  | cons c a ih => rw [List.cons_append, lastOr_cons, lastOr_cons, ih]

/-- A reading of a pattern consumes a prefix of the input and ends after its last character. -/
theorem Re.Sem.suffix {r : Re} {prev prev1 : Option Char} {s s1 : Str}
    (h : Re.Sem r prev s prev1 s1) : ∃ m, s = m ++ s1 ∧ prev1 = lastOr prev m := by
  induction h with
  | eps prev s => exact ⟨[], rfl, rfl⟩
  | cls p prev c s hp => exact ⟨[c], rfl, rfl⟩
  | seq a b prev s p1 s1 p2 s2 _ _ iha ihb =>
    obtain ⟨m1, h1, e1⟩ := iha
    obtain ⟨m2, h2, e2⟩ := ihb
    exact ⟨m1 ++ m2, by rw [h1, h2, List.append_assoc], by rw [e2, e1, lastOr_append]⟩
  | altL a b prev s p1 s1 _ ih => exact ih
  | altR a b prev s p1 s1 _ ih => exact ih
  | starNil p prev s => exact ⟨[], rfl, rfl⟩
  | starCons p prev c s p1 s1 hp _ ih =>
    obtain ⟨m, h1, e1⟩ := ih
    exact ⟨c :: m, by rw [h1, List.cons_append], by rw [e1, lastOr_cons]⟩
  | wordB prev s hb => exact ⟨[], rfl, rfl⟩
  | bos s => exact ⟨[], rfl, rfl⟩
  | eos prev => exact ⟨[], rfl, rfl⟩

theorem Re.matchAt_suffix (r : Re) (prev : Option Char) (s rest : Str)
    (h : Re.matchAt r prev s = some rest) : ∃ m, s = m ++ rest := by
  obtain ⟨p1, hs⟩ := Re.matchAt_sound r prev s rest h
  obtain ⟨m, hm, _⟩ := hs.suffix
  exact ⟨m, hm⟩

theorem replaceAllAux_skip (re : Re) (rep : Str) :
    ∀ (n : Nat) (s : Str) (prev : Option Char), n ≤ s.length →
      replaceAllAux re rep n prev s = replaceAllAux re rep 0 (lastOr prev (s.take n)) (s.drop n) := by
  intro n
  induction n with
  | zero => intro s prev _; simp [lastOr_nil]
  | succ n ih =>
    intro s prev h
    cases s with
    | nil => simp at h
    | cons c cs =>
      have h1 : n ≤ cs.length := by simpa using h
      simp only [replaceAllAux, List.take_succ_cons, List.drop_succ_cons, lastOr_cons]
      exact ih cs (some c) h1

theorem matchAllAux_skip (re : Re) :
    ∀ (n : Nat) (s : Str) (prev : Option Char), n ≤ s.length →
      matchAllAux re n prev s = matchAllAux re 0 (lastOr prev (s.take n)) (s.drop n) := by
  intro n
  induction n with
  | zero => intro s prev _; simp [lastOr_nil]
  | succ n ih =>
    intro s prev h
    cases s with
    | nil => simp at h
    | cons c cs =>
      have h1 : n ≤ cs.length := by simpa using h
      simp only [matchAllAux, List.take_succ_cons, List.drop_succ_cons, lastOr_cons]
      exact ih cs (some c) h1

/-- The scan of `replace` at a position where the pattern matches a non-empty `m`. -/
theorem replaceAllAux_match (re : Re) (rep : Str) (prev : Option Char) (m rest : Str)
    (hm : m ≠ []) (h : Re.matchAt re prev (m ++ rest) = some rest) :
    replaceAllAux re rep 0 prev (m ++ rest)
      = rep ++ replaceAllAux re rep 0 (lastOr prev m) rest := by
  cases m with
  | nil => exact absurd rfl hm
  | cons c m =>
    have hlen : (c :: (m ++ rest)).length - rest.length = m.length + 1 := by
      simp only [List.length_cons, List.length_append]; omega
    rw [List.cons_append] at h ⊢
    simp only [replaceAllAux, h, hlen]
    simp only [Nat.add_one_ne_zero, if_false, Nat.add_sub_cancel]
    rw [replaceAllAux_skip re rep m.length (m ++ rest) (some c) (by simp)]
    simp [lastOr_cons]

/-- The scan of `replace` at a position where the pattern does not match. -/
theorem replaceAllAux_nomatch (re : Re) (rep : Str) (prev : Option Char) (c : Char) (cs : Str)
    (h : Re.matchAt re prev (c :: cs) = none) :
    replaceAllAux re rep 0 prev (c :: cs) = c :: replaceAllAux re rep 0 (some c) cs := by
  simp [replaceAllAux, h]

/-- Every character of the result of `replace` comes from the replacement or the text. -/
theorem mem_replaceAllAux (re : Re) (rep : Str) (x : Char) :
    ∀ (s : Str) (n : Nat) (prev : Option Char),
      x ∈ replaceAllAux re rep n prev s → x ∈ rep ∨ x ∈ s := by
  intro s
  induction s with
  | nil =>
    intro n prev h
    cases n with
    | zero =>
      cases hm : Re.matchAt re prev [] with
      | none => simp [replaceAllAux, hm] at h
      | some r => left; simpa [replaceAllAux, hm] using h
    | succ n => simp [replaceAllAux] at h
  | cons c cs ih =>
    intro n prev h
    cases n with
    | zero =>
      cases hm : Re.matchAt re prev (c :: cs) with
      | none =>
        simp only [replaceAllAux, hm, List.mem_cons] at h
        rcases h with h | h
        · right; simp [h]
        · rcases ih _ _ h with h | h
          · left; exact h
          · right; simp [h]
      | some r =>
        simp only [replaceAllAux, hm] at h
        split at h
        · simp only [List.mem_append, List.mem_cons] at h
          rcases h with h | h | h
          · left; exact h
          · right; simp [h]
          · rcases ih _ _ h with h | h
            · left; exact h
            · right; simp [h]
        · simp only [List.mem_append] at h
          rcases h with h | h
          · left; exact h
          · rcases ih _ _ h with h | h
            · left; exact h
            · right; simp [h]
    | succ n =>
      simp only [replaceAllAux] at h
      rcases ih _ _ h with h | h
      · left; exact h
      · right; simp [h]

theorem mem_replaceAll (re : Re) (rep : Str) (x : Char) (s : Str)
    (h : x ∈ replaceAll re rep s) : x ∈ rep ∨ x ∈ s :=
  mem_replaceAllAux re rep x s 0 none h

/-- Where the pattern matches at no position of a non-empty-suffix, `replace` changes nothing. -/
theorem replaceAllAux_of_no_match (re : Re) (rep : Str) :
    ∀ (s : Str) (prev : Option Char),
      (∀ pre suf, s = pre ++ suf → Re.matchAt re (lastOr prev pre) suf = none) →
      replaceAllAux re rep 0 prev s = s := by
  intro s
  induction s with
  | nil =>
    intro prev h
    have := h [] [] rfl
    simp [replaceAllAux, lastOr_nil] at this ⊢
    simp [this]
  | cons c cs ih =>
    intro prev h
    have h0 := h [] (c :: cs) rfl
    rw [lastOr_nil] at h0
    rw [replaceAllAux_nomatch re rep prev c cs h0, ih (some c)]
    intro pre suf hs
    have := h (c :: pre) suf (by rw [hs, List.cons_append])
    rwa [lastOr_cons] at this

/-! ## Runs of a character class -/

theorem Re.starRun_total (p : Char → Bool) :
    ∀ (s : Str) (prev : Option Char),
      Re.starRun p (fun _ rest => some rest) prev s = some (s.dropWhile p) := by
  intro s
  induction s with
  | nil => intro prev; rfl
  | cons c cs ih =>
    intro prev
    by_cases hp : p c = true
    · simp [Re.starRun, hp, ih, Option.orElse]
    · simp [Re.starRun, hp]

theorem Re.matchAt_many (n : Nat) (p : Char → Bool) :
    ∀ (s : Str) (prev : Option Char),
      Re.matchAt (Re.many n p) prev s
        = if n ≤ (s.takeWhile p).length then some (s.dropWhile p) else none := by
  induction n with
  | zero => intro s prev; simp [Re.matchAt, Re.many, Re.run, Re.starRun_total]
  | succ n ih =>
    intro s prev
    cases s with
    | nil => simp [Re.matchAt, Re.many, Re.run]
    | cons c cs =>
      by_cases hp : p c = true
      · have := ih cs (some c)
        simp only [Re.matchAt] at this
        simp [Re.matchAt, Re.many, Re.run, hp, this]
      · simp [Re.matchAt, Re.many, Re.run, hp]

theorem replaceAllAux_many_nil (n : Nat) (p : Char → Bool) (rep : Str) (prev : Option Char)
    (hn : 1 ≤ n) : replaceAllAux (Re.many n p) rep 0 prev [] = [] := by
  have : ¬ n ≤ 0 := by omega
  simp [replaceAllAux, Re.matchAt_many, this]

theorem replaceAllAux_many_hit (n : Nat) (p : Char → Bool) (rep : Str) (prev : Option Char)
    (s : Str) (hn : 1 ≤ n) (h : n ≤ (s.takeWhile p).length) :
    replaceAllAux (Re.many n p) rep 0 prev s
      = rep ++ replaceAllAux (Re.many n p) rep 0 (lastOr prev (s.takeWhile p)) (s.dropWhile p) := by
  have hne : s.takeWhile p ≠ [] := by
    intro e; rw [e] at h; simp at h; omega
  have hm : Re.matchAt (Re.many n p) prev (s.takeWhile p ++ s.dropWhile p)
      = some (s.dropWhile p) := by
    rw [List.takeWhile_append_dropWhile, Re.matchAt_many, if_pos h]
  have := replaceAllAux_match (Re.many n p) rep prev _ _ hne hm
  rwa [List.takeWhile_append_dropWhile] at this

theorem replaceAllAux_many_miss (n : Nat) (p : Char → Bool) (rep : Str) (prev : Option Char)
    (c : Char) (cs : Str) (h : ¬ n ≤ ((c :: cs).takeWhile p).length) :
    replaceAllAux (Re.many n p) rep 0 prev (c :: cs)
      = c :: replaceAllAux (Re.many n p) rep 0 (some c) cs := by
  apply replaceAllAux_nomatch
  rw [Re.matchAt_many, if_neg h]

theorem dropWhile_length_lt (p : Char → Bool) (c : Char) (cs : Str) (hp : p c = true) :
    ((c :: cs).dropWhile p).length < (c :: cs).length := by
  have h1 : (cs.dropWhile p).length ≤ cs.length := (List.dropWhile_suffix p).length_le
  simp [List.dropWhile_cons, hp]
  omega

theorem dropWhile_head_not (p : Char → Bool) (s : Str) (d : Char) (ds : Str)
    (h : s.dropWhile p = d :: ds) : p d = false := by
  have := List.head_dropWhile_not p s (by rw [h]; simp)
  simpa [h] using this

/-- After `replace(/[c]+/g, rep)` no character of the class is left, unless it is part of
the replacement. -/
theorem replaceAllAux_plus_class (p : Char → Bool) (rep : Str) :
    ∀ (n : Nat) (s : Str) (prev : Option Char), s.length ≤ n →
      ∀ x ∈ replaceAllAux (Re.plus p) rep 0 prev s, p x = true → x ∈ rep := by
  intro n
  induction n with
  | zero =>
    intro s prev hs x hx _
    have : s = [] := List.length_eq_zero.mp (Nat.le_zero.mp hs)
    subst this
    rw [show Re.plus p = Re.many 1 p from rfl, replaceAllAux_many_nil _ _ _ _ (le_refl 1)] at hx
    simp at hx
  | succ n ih =>
    intro s prev hs x hx hpx
    cases s with
    | nil =>
      rw [show Re.plus p = Re.many 1 p from rfl, replaceAllAux_many_nil _ _ _ _ (le_refl 1)] at hx
      simp at hx
    | cons c cs =>
      by_cases hp : p c = true
      · have h1 : 1 ≤ ((c :: cs).takeWhile p).length := by simp [List.takeWhile_cons, hp]
        rw [show Re.plus p = Re.many 1 p from rfl,
          replaceAllAux_many_hit 1 p rep prev (c :: cs) (le_refl 1) h1] at hx
        rcases List.mem_append.mp hx with hx | hx
        · exact hx
        · have hlt := dropWhile_length_lt p c cs hp
          exact ih _ _ (by simp at hs hlt ⊢; omega) x hx hpx
      · have h1 : ¬ 1 ≤ ((c :: cs).takeWhile p).length := by simp [List.takeWhile_cons, hp]
        rw [show Re.plus p = Re.many 1 p from rfl,
          replaceAllAux_many_miss 1 p rep prev c cs h1] at hx
        rcases List.mem_cons.mp hx with hx | hx
        · rw [hx] at hpx; exact absurd hpx hp
        · exact ih cs (some c) (by simpa using hs) x hx hpx

theorem replaceAll_plus_class (p : Char → Bool) (rep : Str) (s : Str) (x : Char)
    (hx : x ∈ replaceAll (Re.plus p) rep s) (hpx : p x = true) : x ∈ rep :=
  replaceAllAux_plus_class p rep s.length s none (le_refl _) x hx hpx

theorem Re.matchAt_cls_cons (p : Char → Bool) (prev : Option Char) (c : Char) (cs : Str) :
    Re.matchAt (Re.cls p) prev (c :: cs) = if p c = true then some cs else none := by
  by_cases hp : p c = true <;> simp [Re.matchAt, Re.run, hp]

/-- After `replace(/[c]/g, rep)` no character of the class is left, unless it is part of
the replacement. -/
theorem replaceAllAux_cls_class (p : Char → Bool) (rep : Str) :
    ∀ (s : Str) (prev : Option Char),
      ∀ x ∈ replaceAllAux (Re.cls p) rep 0 prev s, p x = true → x ∈ rep := by
  intro s
  induction s with
  | nil => intro prev x hx _; simp [replaceAllAux, Re.matchAt, Re.run] at hx
  | cons c cs ih =>
    intro prev x hx hpx
    by_cases hp : p c = true
    · have hm : Re.matchAt (Re.cls p) prev ([c] ++ cs) = some cs := by
        simp [Re.matchAt_cls_cons, hp]
      have := replaceAllAux_match (Re.cls p) rep prev [c] cs (by simp) hm
      rw [List.singleton_append] at this
      rw [this] at hx
      rcases List.mem_append.mp hx with hx | hx
      · exact hx
      · exact ih _ x hx hpx
    · have hm : Re.matchAt (Re.cls p) prev (c :: cs) = none := by
        simp [Re.matchAt_cls_cons, hp]
      rw [replaceAllAux_nomatch _ _ _ _ _ hm] at hx
      rcases List.mem_cons.mp hx with hx | hx
      · rw [hx] at hpx; exact absurd hpx hp
      · exact ih _ x hx hpx

theorem replaceAll_cls_class (p : Char → Bool) (rep : Str) (s : Str) (x : Char)
    (hx : x ∈ replaceAll (Re.cls p) rep s) (hpx : p x = true) : x ∈ rep :=
  replaceAllAux_cls_class p rep s none x hx hpx

/-- A pattern that starts with a character of a class leaves a text without such a
character unchanged. -/
theorem replaceAll_seq_cls_of_not_mem (p : Char → Bool) (r : Re) (rep : Str) (s : Str)
    (h : ∀ x ∈ s, p x = false) : replaceAll (Re.seq (Re.cls p) r) rep s = s := by
  apply replaceAllAux_of_no_match
  intro pre suf hs
  cases suf with
  | nil => simp [Re.matchAt, Re.run]
  | cons c cs =>
    have : p c = false := h c (by rw [hs]; simp)
    simp [Re.matchAt, Re.run, this]

theorem replaceAll_cls_of_not_mem (p : Char → Bool) (rep : Str) (s : Str)
    (h : ∀ x ∈ s, p x = false) : replaceAll (Re.cls p) rep s = s := by
  apply replaceAllAux_of_no_match
  intro pre suf hs
  cases suf with
  | nil => simp [Re.matchAt, Re.run]
  | cons c cs =>
    have : p c = false := h c (by rw [hs]; simp)
    simp [Re.matchAt, Re.run, this]

/-! ## Whitespace runs -/

/-- After `replace(/\s+/g, ' ')` no two whitespace characters are adjacent. -/
theorem replaceAllAux_spaces_chain :
    ∀ (n : Nat) (s : Str) (prev : Option Char), s.length ≤ n →
      List.Chain' (fun a b => ¬ (isSpace a = true ∧ isSpace b = true))
        (replaceAllAux spacesRegex " ".toList 0 prev s) := by
  intro n
  induction n with
  | zero =>
    intro s prev hs
    have : s = [] := List.length_eq_zero.mp (Nat.le_zero.mp hs)
    subst this
    rw [show spacesRegex = Re.many 1 isSpace from rfl, replaceAllAux_many_nil _ _ _ _ (le_refl 1)]
    exact List.chain'_nil
  | succ n ih =>
    intro s prev hs
    rw [show spacesRegex = Re.many 1 isSpace from rfl]
    cases s with
    | nil => rw [replaceAllAux_many_nil _ _ _ _ (le_refl 1)]; exact List.chain'_nil
    | cons c cs =>
      by_cases hp : isSpace c = true
      · have h1 : 1 ≤ ((c :: cs).takeWhile isSpace).length := by simp [List.takeWhile_cons, hp]
        rw [replaceAllAux_many_hit 1 isSpace _ prev (c :: cs) (le_refl 1) h1]
        have hlt := dropWhile_length_lt isSpace c cs hp
        have hrec := ih ((c :: cs).dropWhile isSpace)
          (lastOr prev ((c :: cs).takeWhile isSpace)) (by simp at hs hlt ⊢; omega)
        rw [show spacesRegex = Re.many 1 isSpace from rfl] at hrec
        cases hd : (c :: cs).dropWhile isSpace with
        | nil =>
          rw [replaceAllAux_many_nil _ _ _ _ (le_refl 1)]
          simp
        | cons d ds =>
          have hnd : isSpace d = false := dropWhile_head_not isSpace _ d ds hd
          have h2 : ¬ 1 ≤ ((d :: ds).takeWhile isSpace).length := by
            simp [List.takeWhile_cons, hnd]
          rw [hd, replaceAllAux_many_miss 1 isSpace _ _ d ds h2] at hrec
          rw [replaceAllAux_many_miss 1 isSpace _ _ d ds h2]
          show List.Chain' _ (' ' :: d :: _)
          exact List.Chain'.cons (by simp [hnd]) hrec
      · have h1 : ¬ 1 ≤ ((c :: cs).takeWhile isSpace).length := by simp [List.takeWhile_cons, hp]
        rw [replaceAllAux_many_miss 1 isSpace _ prev c cs h1]
        have hrec := ih cs (some c) (by simpa using hs)
        rw [show spacesRegex = Re.many 1 isSpace from rfl] at hrec
        exact List.chain'_cons'.mpr ⟨fun y _ hy => hp hy.1, hrec⟩

theorem replaceAll_spaces_chain (s : Str) :
    List.Chain' (fun a b => ¬ (isSpace a = true ∧ isSpace b = true))
      (replaceAll spacesRegex " ".toList s) :=
  replaceAllAux_spaces_chain s.length s none (le_refl _)

/-- After `replace(/\s+/g, ' ')` the only whitespace character left is the space. -/
theorem replaceAll_spaces_space (s : Str) (x : Char)
    (hx : x ∈ replaceAll spacesRegex " ".toList s) (hs : isSpace x = true) : x = ' ' := by
  have := replaceAll_plus_class isSpace " ".toList s x hx hs
  simpa using this

/-! ## Trimming -/

theorem trim_part (s : Str) : trim s <:+: s :=
  (List.rdropWhile_prefix isSpace _).isInfix.trans (List.dropWhile_suffix isSpace).isInfix

theorem trimmed_trim (s : Str) : Trimmed (trim s) := by
  constructor
  · intro c hc
    have hne : trim s ≠ [] := by intro e; rw [e] at hc; simp at hc
    have hpre : trim s <+: s.dropWhile isSpace := List.rdropWhile_prefix isSpace _
    have hdne : s.dropWhile isSpace ≠ [] := by
      intro e; rw [e] at hpre; exact hne (List.prefix_nil.mp hpre)
    have h1 := hpre.head hne
    have h2 := List.head_dropWhile_not isSpace s hdne
    have h3 : (trim s).head hne = c := by
      have := List.head?_eq_head hne
      rw [hc] at this
      exact (Option.some.inj this).symm
    rw [← h3, h1]
    exact h2
  · intro c hc
    have hne : (s.dropWhile isSpace).rdropWhile isSpace ≠ [] := by
      intro e; unfold trim at hc; rw [e] at hc; simp at hc
    have h1 := List.rdropWhile_last_not (p := isSpace) (l := s.dropWhile isSpace) hne
    have h3 : ((s.dropWhile isSpace).rdropWhile isSpace).getLast hne = c := by
      have := List.getLast?_eq_getLast _ hne
      unfold trim at hc
      rw [hc] at this
      exact (Option.some.inj this).symm
    rw [h3] at h1
    simpa using h1

theorem trim_eq_self (t : Str) (h : Trimmed t) : trim t = t := by
  have h1 : t.dropWhile isSpace = t := by
    rw [List.dropWhile_eq_self_iff]
    intro hl
    cases t with
    | nil => simp at hl
    | cons c cs => simpa using h.1 c rfl
  unfold trim
  rw [h1, List.rdropWhile_eq_self_iff]
  intro hl
  have := h.2 _ (List.getLast?_eq_getLast t hl)
  simpa using this

theorem trim_trim (s : Str) : trim (trim s) = trim s := trim_eq_self _ (trimmed_trim s)

/-! ## Runs of line feeds -/

theorem leadingLF_nil : leadingLF [] = 0 := rfl

theorem leadingLF_cons_lf (cs : Str) : leadingLF ('\n' :: cs) = leadingLF cs + 1 := by
  simp [leadingLF, List.takeWhile_cons]

theorem leadingLF_cons_other (c : Char) (cs : Str) (h : c ≠ '\n') : leadingLF (c :: cs) = 0 := by
  simp [leadingLF, List.takeWhile_cons, h]

theorem leadingLF_dropWhile (s : Str) : leadingLF (s.dropWhile (fun x => x == '\n')) = 0 := by
  cases hd : s.dropWhile (fun x => x == '\n') with
  | nil => rfl
  | cons d ds =>
    have := dropWhile_head_not _ s d ds hd
    exact leadingLF_cons_other d ds (by simpa using this)

theorem triple_prefix_iff (l : Str) : ['\n', '\n', '\n'] <+: l ↔ 3 ≤ leadingLF l := by
  constructor
  · rintro ⟨t, rfl⟩
    simp [leadingLF, List.takeWhile_cons]
  · intro h
    match l, h with
    | [], h => simp [leadingLF] at h
    | a :: l, h =>
      by_cases ha : a = '\n'
      · subst ha
        rw [leadingLF_cons_lf] at h
        match l, h with
        | [], h => simp [leadingLF] at h
        | b :: l, h =>
          by_cases hb : b = '\n'
          · subst hb
            rw [leadingLF_cons_lf] at h
            match l, h with
            | [], h => simp [leadingLF] at h
            | c :: l, h =>
              by_cases hc : c = '\n'
              · subst hc
                exact ⟨l, rfl⟩
              · rw [leadingLF_cons_other c l hc] at h; omega
          · rw [leadingLF_cons_other b l hb] at h; omega
      · rw [leadingLF_cons_other a l ha] at h; omega

theorem noTripleLF_cons (c : Char) (o : Str) :
    NoTripleLF (c :: o) ↔ leadingLF (c :: o) < 3 ∧ NoTripleLF o := by
  unfold NoTripleLF
  rw [List.infix_cons_iff, triple_prefix_iff]
  constructor
  · intro h
    exact ⟨by
      by_contra hc
      exact h (Or.inl (by omega)), fun hi => h (Or.inr hi)⟩
  · rintro ⟨h1, h2⟩ (h | h)
    · omega
    · exact h2 h

theorem noTripleLF_nil : NoTripleLF [] := by
  unfold NoTripleLF
  intro h
  have := h.length_le
  simp at this

/-- After `replace(/\n{3,}/g, '\n\n')` no three line feeds are adjacent. -/
theorem replaceAllAux_newlines :
    ∀ (n : Nat) (s : Str) (prev : Option Char), s.length ≤ n →
      NoTripleLF (replaceAllAux newlinesRegex "\n\n".toList 0 prev s) ∧
      leadingLF (replaceAllAux newlinesRegex "\n\n".toList 0 prev s) ≤ leadingLF s ∧
      leadingLF (replaceAllAux newlinesRegex "\n\n".toList 0 prev s) ≤ 2 := by
  intro n
  rw [show newlinesRegex = Re.many 3 (fun x => x == '\n') from rfl]
  induction n with
  | zero =>
    intro s prev hs
    have : s = [] := List.length_eq_zero.mp (Nat.le_zero.mp hs)
    subst this
    rw [replaceAllAux_many_nil _ _ _ _ (by omega)]
    exact ⟨noTripleLF_nil, le_refl _, by simp [leadingLF]⟩
  | succ n ih =>
    intro s prev hs
    cases s with
    | nil =>
      rw [replaceAllAux_many_nil _ _ _ _ (by omega)]
      exact ⟨noTripleLF_nil, le_refl _, by simp [leadingLF]⟩
    | cons c cs =>
      by_cases h3 : 3 ≤ ((c :: cs).takeWhile (fun x => x == '\n')).length
      · rw [replaceAllAux_many_hit 3 _ _ prev (c :: cs) (by omega) h3]
        have hc : (c == '\n') = true := by
          by_contra hc
          simp [List.takeWhile_cons, hc] at h3
        have hlt := dropWhile_length_lt (fun x => x == '\n') c cs hc
        obtain ⟨i1, i2, _⟩ := ih ((c :: cs).dropWhile (fun x => x == '\n'))
          (lastOr prev ((c :: cs).takeWhile (fun x => x == '\n')))
          (by simp at hs hlt ⊢; omega)
        rw [leadingLF_dropWhile] at i2
        have i0 := Nat.le_zero.mp i2
        have h3' : 3 ≤ leadingLF (c :: cs) := h3
        have e : "\n\n".toList = ['\n', '\n'] := rfl
        rw [e] at i0 i1 ⊢
        simp only [List.cons_append, List.nil_append]
        refine ⟨?_, ?_, ?_⟩
        · rw [noTripleLF_cons, noTripleLF_cons]
          simp only [leadingLF_cons_lf, i0]
          exact ⟨by omega, by omega, i1⟩
        · simp only [leadingLF_cons_lf, i0]
          omega
        · simp only [leadingLF_cons_lf, i0]
          omega
      · rw [replaceAllAux_many_miss 3 _ _ prev c cs h3]
        obtain ⟨i1, i2, _⟩ := ih cs (some c) (by simpa using hs)
        have h3' : leadingLF (c :: cs) < 3 := by unfold leadingLF; omega
        by_cases hc : c = '\n'
        · subst hc
          rw [leadingLF_cons_lf] at h3'
          refine ⟨?_, ?_, ?_⟩
          · rw [noTripleLF_cons, leadingLF_cons_lf]
            exact ⟨by omega, i1⟩
          · rw [leadingLF_cons_lf, leadingLF_cons_lf]; omega
          · rw [leadingLF_cons_lf]; omega
        · refine ⟨?_, ?_, ?_⟩
          · rw [noTripleLF_cons, leadingLF_cons_other _ _ hc]
            exact ⟨by omega, i1⟩
          · rw [leadingLF_cons_other _ _ hc]; omega
          · rw [leadingLF_cons_other _ _ hc]; omega

theorem replaceAll_newlines_noTriple (s : Str) :
    NoTripleLF (replaceAll newlinesRegex "\n\n".toList s) :=
  (replaceAllAux_newlines s.length s none (le_refl _)).1

theorem replaceAll_newlines_of_noTriple (s : Str) (h : NoTripleLF s) :
    replaceAll newlinesRegex "\n\n".toList s = s := by
  apply replaceAllAux_of_no_match
  intro pre suf hs
  rw [show newlinesRegex = Re.many 3 (fun x => x == '\n') from rfl, Re.matchAt_many]
  rw [if_neg]
  intro h3
  have hp : ['\n', '\n', '\n'] <+: suf := (triple_prefix_iff suf).mpr h3
  apply h
  rw [hs]
  exact hp.isInfix.trans (List.suffix_append pre suf).isInfix

/-! ## Normalisation -/

theorem normalize_no_cr (t : Str) : '\r' ∉ normalize t := by
  intro h
  have h1 := (trim_part _).subset h
  rcases mem_replaceAll _ _ _ _ h1 with h2 | h2
  · revert h2; decide
  · have h3 := replaceAll_cls_class (fun x => x == '\r') "\n".toList _ '\r' h2 (by decide)
    revert h3; decide

theorem normalize_noTriple (t : Str) : NoTripleLF (normalize t) := by
  intro h
  exact replaceAll_newlines_noTriple _ (h.trans (trim_part _))

theorem normalize_trimmed (t : Str) : Trimmed (normalize t) := trimmed_trim _

/-- A text without carriage return, without three line feeds in a row and without
leading or trailing whitespace is left unchanged by the normalisation. -/
theorem normalize_of_clean (s : Str) (h1 : '\r' ∉ s) (h2 : NoTripleLF s) (h3 : Trimmed s) :
    normalize s = s := by
  have hcr : ∀ x ∈ s, (fun x => x == '\r') x = false := by
    intro x hx
    have : x ≠ '\r' := fun e => h1 (e ▸ hx)
    simpa using this
  unfold normalize
  rw [show crlfRegex = Re.seq (Re.cls (fun x => x == '\r')) (Re.chr '\n') from rfl,
    replaceAll_seq_cls_of_not_mem _ _ _ _ hcr,
    show crRegex = Re.cls (fun x => x == '\r') from rfl,
    replaceAll_cls_of_not_mem _ _ _ hcr,
    replaceAll_newlines_of_noTriple _ h2, trim_eq_self _ h3]

theorem normalize_normalize (t : Str) : normalize (normalize t) = normalize t :=
  normalize_of_clean _ (normalize_no_cr t) (normalize_noTriple t) (normalize_trimmed t)

/-! ## Section extraction never raises -/

theorem findLine_some (p : Str → Bool) :
    ∀ (l : List Str) (i j : Nat), findLine p l i = some j → i ≤ j ∧ j < i + l.length := by
  intro l
  induction l with
  | nil => intro i j h; simp [findLine] at h
  | cons a l ih =>
    intro i j h
    by_cases hp : p a = true
    · simp [findLine, hp] at h
      subst h
      simp
    · simp only [findLine, hp] at h
      have := ih (i + 1) j (by simpa using h)
      simp only [List.length_cons]
      omega

theorem slice_ne_nil (xs : List Str) (a b : Nat) (ha : a < xs.length) (hb : a < b) :
    slice xs a b ≠ [] := by
  intro h
  have := congrArg List.length h
  simp [slice] at this
  omega

theorem sectionLinesOf_ne_nil (keywords : List Str) (lines : List Str) (a : Nat)
    (ha : a < lines.length) : sectionLinesOf keywords lines a ≠ [] := by
  unfold sectionLinesOf
  cases he : findSectionEnd keywords lines a with
  | none => exact slice_ne_nil _ _ _ ha ha
  | some e =>
    have hb := findLine_some _ _ _ _ he
    exact slice_ne_nil _ _ _ ha (show a < e by omega)

theorem sectionTextOf_ok (keywords : List Str) (sectionLines : List Str)
    (h : sectionLines ≠ []) : ∃ body, sectionTextOf keywords sectionLines = .ok body := by
  cases sectionLines with
  | nil => exact absurd rfl h
  | cons first rest =>
    by_cases hk : (keywords.any fun k => includes (toLowerCase (trim first)) k) = true
    · exact ⟨trim (join '\n' ((first :: rest).drop 1)), by
        simp only [sectionTextOf, hk, if_true]⟩
    · exact ⟨trim (join '\n' (first :: rest)), by
        simp only [sectionTextOf, hk]; rfl⟩

theorem extractSection_ok (text : Str) (keywords : List Str) :
    ∃ body, extractSection text keywords = .ok body := by
  unfold extractSection
  cases hs : findSectionStart keywords (split '\n' text) with
  | none => exact ⟨[], rfl⟩
  | some a =>
    have ha := findLine_some _ _ _ _ hs
    exact sectionTextOf_ok _ _ (sectionLinesOf_ne_nil _ _ _ (by omega))

/-- The record builder `extractResumeData` returns a record for every text, and its
`rawText` is the normalised text. -/
theorem extractResumeData_ok (t : Str) :
    ∃ r, extractResumeData t = .ok r ∧ r.rawText = normalize t := by
  obtain ⟨e1, h1⟩ := extractSection_ok (normalize t) experienceKeywords
  obtain ⟨e2, h2⟩ := extractSection_ok (normalize t) educationKeywords
  obtain ⟨e3, h3⟩ := extractSection_ok (normalize t) skillsKeywords
  obtain ⟨e4, h4⟩ := extractSection_ok (normalize t) summaryKeywords
  exact ⟨{ rawText := normalize t
           personalInfo := extractPersonalInfo (normalize t)
           experience := e1
           education := e2
           skills := e3
           sections := identifySections (normalize t)
           summary := e4
           metadata := { format := none, pageCount := none, fileSize := none } },
    by simp only [extractResumeData, extractExperience, extractEducation, extractSkills,
      extractSummary, h1, h2, h3, h4], rfl⟩

theorem extractResumeData_rawText (t : Str) (r : ResumeData)
    (h : extractResumeData t = .ok r) : r.rawText = normalize t := by
  obtain ⟨r', h1, h2⟩ := extractResumeData_ok t
  rw [h] at h1
  cases h1
  exact h2

/-! ## Normalised text (claims C3 and C4) -/

/-- C3: for every text `t`, `extractResumeData` returns a record whose `rawText` is
`normalize t` (CRLF and lone CR replaced by LF, runs of three or more LF collapsed to two,
then trimmed); `normalize` is idempotent, so running `extractResumeData` on that `rawText`
returns a record with the same `rawText`. -/
theorem rawText_normalize_idempotent (t : Str) :
    (∃ r, extractResumeData t = .ok r ∧ r.rawText = normalize t ∧
      ∃ r2, extractResumeData r.rawText = .ok r2 ∧ r2.rawText = r.rawText) ∧
    normalize t =
      trim (replaceAll newlinesRegex "\n\n".toList
        (replaceAll crRegex "\n".toList (replaceAll crlfRegex "\n".toList t))) ∧
    normalize (normalize t) = normalize t := by
  obtain ⟨r, h1, h2⟩ := extractResumeData_ok t
  obtain ⟨r2, h3, h4⟩ := extractResumeData_ok r.rawText
  refine ⟨⟨r, h1, h2, r2, h3, ?_⟩, rfl, normalize_normalize t⟩
  rw [h4, h2, normalize_normalize]

theorem split_cons_lf (cs : Str) : split '\n' ('\n' :: cs) = [] :: split '\n' cs := by
  simp [split]

theorem split_cons_other (c : Char) (cs : Str) (h : c ≠ '\n') :
    ∃ l ls, split '\n' cs = l :: ls ∧ split '\n' (c :: cs) = (c :: l) :: ls := by
  cases hs : split '\n' cs with
  | nil => exact absurd hs (split_ne_nil _ _)
  | cons l ls => exact ⟨l, ls, rfl, by simp [split, h, hs]⟩

/-- In a text without three line feeds in a row that does not end with a line feed, no two
empty lines are adjacent, except possibly the first two lines. -/
theorem split_chain_aux :
    ∀ s : Str, NoTripleLF s → s.getLast? ≠ some '\n' →
      List.Chain' (fun a b : Str => ¬ (a = [] ∧ b = [])) (split '\n' s).tail ∧
      (leadingLF s ≤ 1 → List.Chain' (fun a b : Str => ¬ (a = [] ∧ b = [])) (split '\n' s)) := by
  intro s
  induction s with
  | nil => intro _ _; exact ⟨by simp [split], fun _ => by simp [split]⟩
  | cons c cs ih =>
    intro h3 hlast
    obtain ⟨hlead, h3cs⟩ := (noTripleLF_cons c cs).mp h3
    have hlastcs : cs.getLast? ≠ some '\n' := by
      cases cs with
      | nil => simp
      | cons d ds => simpa [List.getLast?_cons_cons] using hlast
    obtain ⟨ih1, ih2⟩ := ih h3cs hlastcs
    by_cases hc : c = '\n'
    · subst hc
      rw [leadingLF_cons_lf] at hlead
      rw [split_cons_lf]
      have hchain := ih2 (by omega)
      refine ⟨hchain, fun h1 => ?_⟩
      rw [leadingLF_cons_lf] at h1
      cases cs with
      | nil => simp at hlast
      | cons d ds =>
        have hd : d ≠ '\n' := by
          intro e
          subst e
          rw [leadingLF_cons_lf] at h1
          omega
        obtain ⟨l, ls, _, e2⟩ := split_cons_other d ds hd
        rw [e2] at hchain ⊢
        exact List.Chain'.cons (by simp) hchain
    · obtain ⟨l, ls, e1, e2⟩ := split_cons_other c cs hc
      rw [e2]
      rw [e1] at ih1
      simp only [List.tail_cons] at ih1 ⊢
      exact ⟨ih1, fun _ => List.chain'_cons'.mpr ⟨fun y _ => by simp, ih1⟩⟩

theorem leadingLF_of_trimmed (s : Str) (h : Trimmed s) : leadingLF s = 0 := by
  cases s with
  | nil => rfl
  | cons c cs =>
    have := h.1 c rfl
    exact leadingLF_cons_other c cs (by intro e; subst e; revert this; decide)

theorem split_chain_of_clean (s : Str) (h3 : NoTripleLF s) (ht : Trimmed s) :
    List.Chain' (fun a b : Str => ¬ (a = [] ∧ b = [])) (split '\n' s) := by
  have hlast : s.getLast? ≠ some '\n' := by
    intro e
    have := ht.2 _ e
    revert this; decide
  exact (split_chain_aux s h3 hlast).2 (by rw [leadingLF_of_trimmed s ht]; omega)

/-- C4 (counterexample): the text with three whitespace-only lines between `a` and `b` is
its own `rawText`, so three blank lines in a row survive between two non-blank lines. -/
theorem rawText_keeps_whitespace_only_lines :
    ∃ r, extractResumeData "a\n \n \n \nb".toList = .ok r ∧
      split '\n' r.rawText = ["a".toList, " ".toList, " ".toList, " ".toList, "b".toList] ∧
      ¬ List.Chain' (fun a b => ¬ (isBlankLine a = true ∧ isBlankLine b = true))
          (split '\n' r.rawText) := by
  obtain ⟨r, h1, h2⟩ := extractResumeData_ok "a\n \n \n \nb".toList
  have h3 : normalize "a\n \n \n \nb".toList = "a\n \n \n \nb".toList := by decide
  have h4 : split '\n' "a\n \n \n \nb".toList
      = ["a".toList, " ".toList, " ".toList, " ".toList, "b".toList] := by decide
  refine ⟨r, h1, ?_, ?_⟩
  · rw [h2, h3, h4]
  · rw [h2, h3, h4]
    intro hc
    exact (List.chain'_cons.mp (List.chain'_cons.mp hc).2).1 ⟨by decide, by decide⟩

/-- C4 (amended): for every text, `extractResumeData` returns a record whose `rawText`
contains no carriage return, has no leading or trailing whitespace and no three line feeds
in a row, so that no two empty lines are adjacent (at most one empty line separates two
lines); whitespace-only lines are not collapsed. -/
theorem rawText_normalized_invariant (t : Str) :
    ∃ r, extractResumeData t = .ok r ∧
      '\r' ∉ r.rawText ∧ Trimmed r.rawText ∧ NoTripleLF r.rawText ∧
      List.Chain' (fun a b : Str => ¬ (a = [] ∧ b = [])) (split '\n' r.rawText) := by
  obtain ⟨r, h1, h2⟩ := extractResumeData_ok t
  refine ⟨r, h1, ?_, ?_, ?_, ?_⟩
  · rw [h2]; exact normalize_no_cr t
  · rw [h2]; exact normalize_trimmed t
  · rw [h2]; exact normalize_noTriple t
  · rw [h2]; exact split_chain_of_clean _ (normalize_noTriple t) (normalize_trimmed t)

/-! ## The first match of a global pattern -/

theorem matchAllAux_first (re : Re) :
    ∀ (s : Str) (prev : Option Char),
      (matchAllAux re 0 prev s = [] ∧
        ∀ pre suf, s = pre ++ suf → Re.matchAt re (lastOr prev pre) suf = none) ∨
      (∃ pre suf rest, s = pre ++ suf ∧ Re.matchAt re (lastOr prev pre) suf = some rest ∧
        (∀ pre1 suf1, s = pre1 ++ suf1 → pre1.length < pre.length →
          Re.matchAt re (lastOr prev pre1) suf1 = none) ∧
        (matchAllAux re 0 prev s).head? = some (suf.take (suf.length - rest.length))) := by
  intro s
  induction s with
  | nil =>
    intro prev
    cases hm : Re.matchAt re prev [] with
    | none =>
      left
      refine ⟨by simp [matchAllAux, hm], ?_⟩
      intro pre suf hs
      have h1 : pre = [] := (List.append_eq_nil.mp hs.symm).1
      have h2 : suf = [] := (List.append_eq_nil.mp hs.symm).2
      subst h1; subst h2
      exact hm
    | some rest =>
      right
      refine ⟨[], [], rest, rfl, hm, ?_, ?_⟩
      · intro pre1 suf1 _ hlt; simp at hlt
      · simp [matchAllAux, hm]
  | cons c cs ih =>
    intro prev
    cases hm : Re.matchAt re prev (c :: cs) with
    | some rest =>
      right
      refine ⟨[], c :: cs, rest, rfl, hm, ?_, ?_⟩
      · intro pre1 suf1 _ hlt; simp at hlt
      · simp [matchAllAux, hm]
    | none =>
      have hstep : matchAllAux re 0 prev (c :: cs) = matchAllAux re 0 (some c) cs := by
        simp [matchAllAux, hm]
      rcases ih (some c) with ⟨h1, h2⟩ | ⟨pre, suf, rest, h1, h2, h3, h4⟩
      · left
        refine ⟨by rw [hstep, h1], ?_⟩
        intro pre suf hs
        cases pre with
        | nil =>
          simp only [List.nil_append] at hs
          subst hs
          exact hm
        | cons d pre =>
          simp only [List.cons_append, List.cons.injEq] at hs
          obtain ⟨hd, hs⟩ := hs
          subst hd
          rw [lastOr_cons]
          exact h2 pre suf hs
      · right
        refine ⟨c :: pre, suf, rest, by rw [h1, List.cons_append], by rw [lastOr_cons]; exact h2,
          ?_, by rw [hstep]; exact h4⟩
        intro pre1 suf1 hs hlt
        cases pre1 with
        | nil =>
          simp only [List.nil_append] at hs
          subst hs
          exact hm
        | cons d pre1 =>
          simp only [List.cons_append, List.cons.injEq] at hs
          obtain ⟨hd, hs⟩ := hs
          subst hd
          rw [lastOr_cons]
          exact h3 pre1 suf1 hs (by simpa using hlt)

/-- The first match of a global pattern is the match at the leftmost position where the
pattern matches at all; it is the empty string when the pattern matches nowhere. -/
theorem firstMatch_leftmost (re : Re) (text : Str) :
    (firstMatch re text = [] ∧ ∀ pre m post, text = pre ++ m ++ post → ¬ MatchIn re pre m post) ∨
    (∃ pre post, text = pre ++ firstMatch re text ++ post ∧
      MatchIn re pre (firstMatch re text) post ∧
      ∀ pre1 m1 post1, text = pre1 ++ m1 ++ post1 → MatchIn re pre1 m1 post1 →
        pre.length ≤ pre1.length) := by
  have key : ∀ pre m post, text = pre ++ m ++ post → MatchIn re pre m post →
      Re.matchAt re (lastOr none pre) (m ++ post) ≠ none := by
    intro pre m post _ ⟨p1, hs⟩ hn
    exact (Re.matchAt_eq_none_iff re _ _).mp hn p1 post hs
  rcases matchAllAux_first re text none with ⟨h1, h2⟩ | ⟨pre, suf, rest, h1, h2, h3, h4⟩
  · left
    refine ⟨by simp [firstMatch, matchAll, h1], ?_⟩
    intro pre m post hs hm
    exact key pre m post hs hm (h2 pre (m ++ post) (by rw [hs, List.append_assoc]))
  · right
    obtain ⟨p1, hsem⟩ := Re.matchAt_sound re _ _ _ h2
    obtain ⟨m, hm, _⟩ := hsem.suffix
    have hfm : firstMatch re text = m := by
      unfold firstMatch matchAll
      have : (matchAllAux re 0 none text).head? = some m := by
        rw [h4, hm]
        simp
      cases hl : matchAllAux re 0 none text with
      | nil => rw [hl] at this; simp at this
      | cons a l => rw [hl] at this; simpa using this
    refine ⟨pre, rest, by rw [hfm, h1, hm, List.append_assoc], ⟨p1, by rw [hfm, ← hm]; exact hsem⟩, ?_⟩
    intro pre1 m1 post1 hs1 hm1
    by_contra hlt
    exact key pre1 m1 post1 hs1 hm1
      (h3 pre1 (m1 ++ post1) (by rw [hs1, List.append_assoc]) (by omega))

/-! ## Reading a pattern backwards -/

theorem Re.Sem.eps_inv {prev prev1 : Option Char} {s s1 : Str}
    (h : Re.Sem Re.eps prev s prev1 s1) : prev1 = prev ∧ s1 = s := by
  cases h; exact ⟨rfl, rfl⟩

theorem Re.Sem.cls_inv {p : Char → Bool} {prev prev1 : Option Char} {s s1 : Str}
    (h : Re.Sem (Re.cls p) prev s prev1 s1) : ∃ c, s = c :: s1 ∧ p c = true ∧ prev1 = some c := by
  cases h with
  | cls _ _ c _ hp => exact ⟨c, rfl, hp, rfl⟩

theorem Re.Sem.seq_inv {a b : Re} {prev prev2 : Option Char} {s s2 : Str}
    (h : Re.Sem (Re.seq a b) prev s prev2 s2) :
    ∃ prev1 s1, Re.Sem a prev s prev1 s1 ∧ Re.Sem b prev1 s1 prev2 s2 := by
  cases h with
  | seq _ _ _ _ p1 s1 _ _ h1 h2 => exact ⟨p1, s1, h1, h2⟩

theorem Re.Sem.alt_inv {a b : Re} {prev prev1 : Option Char} {s s1 : Str}
    (h : Re.Sem (Re.alt a b) prev s prev1 s1) :
    Re.Sem a prev s prev1 s1 ∨ Re.Sem b prev s prev1 s1 := by
  cases h with
  | altL _ _ _ _ _ _ h1 => exact Or.inl h1
  | altR _ _ _ _ _ _ h1 => exact Or.inr h1

theorem Re.Sem.wordB_inv {prev prev1 : Option Char} {s s1 : Str}
    (h : Re.Sem Re.wordB prev s prev1 s1) :
    prev1 = prev ∧ s1 = s ∧ isWordAt prev ≠ isWordAt s.head? := by
  cases h with
  | wordB _ _ hb => exact ⟨rfl, rfl, hb⟩

theorem Re.Sem.star_inv {p : Char → Bool} {prev prev1 : Option Char} {s s1 : Str}
    (h : Re.Sem (Re.star p) prev s prev1 s1) :
    ∃ m, s = m ++ s1 ∧ (∀ c ∈ m, p c = true) ∧ prev1 = lastOr prev m := by
  generalize hr : Re.star p = r at h
  induction h with
  | starNil q prev s => exact ⟨[], rfl, by simp, rfl⟩
  | starCons q prev c s p1 s1 hq _ ih =>
    cases hr
    obtain ⟨m, h1, h2, h3⟩ := ih rfl
    refine ⟨c :: m, by rw [h1, List.cons_append], ?_, by rw [h3, lastOr_cons]⟩
    intro x hx
    rcases List.mem_cons.mp hx with hx | hx
    · rw [hx]; exact hq
    · exact h2 x hx
  | _ => cases hr

theorem Re.Sem.plus_inv {p : Char → Bool} {prev prev1 : Option Char} {s s1 : Str}
    (h : Re.Sem (Re.plus p) prev s prev1 s1) :
    ∃ m, m ≠ [] ∧ s = m ++ s1 ∧ (∀ c ∈ m, p c = true) ∧ prev1 = lastOr prev m := by
  obtain ⟨p1, t1, h1, h2⟩ := Re.Sem.seq_inv h
  obtain ⟨c, hc, hpc, hp1⟩ := Re.Sem.cls_inv h1
  obtain ⟨m, hm, hall, hl⟩ := Re.Sem.star_inv h2
  refine ⟨c :: m, by simp, by rw [hc, hm, List.cons_append], ?_, by rw [hl, hp1, lastOr_cons]⟩
  intro x hx
  rcases List.mem_cons.mp hx with hx | hx
  · rw [hx]; exact hpc
  · exact hall x hx

/-! ## The e-mail address (claim C5) -/

/-- Every match of the e-mail pattern has the form local@domain.tld: a non-empty local part
over `[A-Za-z0-9._%+-]`, an `@`, a non-empty domain over `[A-Za-z0-9.-]`, a dot, and at
least two characters over `[A-Z|a-z]`. -/
theorem Re.Sem.star_intro (p : Char → Bool) (m : Str) (hm : ∀ c ∈ m, p c = true) :
    ∀ (prev : Option Char) (s : Str), Re.Sem (Re.star p) prev (m ++ s) (lastOr prev m) s := by
  induction m with
  | nil => intro prev s; exact Re.Sem.starNil p prev s
  | cons c m ih =>
    intro prev s
    rw [lastOr_cons, List.cons_append]
    exact Re.Sem.starCons p prev c (m ++ s) _ _ (hm c (by simp))
      (ih (fun x hx => hm x (by simp [hx])) (some c) s)

theorem Re.Sem.plus_intro (p : Char → Bool) (m : Str) (hne : m ≠ [])
    (hm : ∀ c ∈ m, p c = true) (prev : Option Char) (s : Str) :
    Re.Sem (Re.plus p) prev (m ++ s) (lastOr prev m) s := by
  cases m with
  | nil => exact absurd rfl hne
  | cons c m =>
    rw [lastOr_cons, List.cons_append]
    exact Re.Sem.seq _ _ _ _ _ _ _ _ (Re.Sem.cls p prev c (m ++ s) (hm c (by simp)))
      (Re.Sem.star_intro p m (fun x hx => hm x (by simp [hx])) (some c) s)

theorem lastOr_eq_getLast? (prev : Option Char) (m : Str) (hne : m ≠ []) :
    lastOr prev m = m.getLast? := by
  unfold lastOr
  rw [List.getLast?_eq_getLast m hne]

/-- Every text of the form local@domain.tld between two word boundaries is a match of the
e-mail pattern. -/
theorem email_match_intro (pre loc dom tld post : Str)
    (hloc0 : loc ≠ []) (hloc : ∀ c ∈ loc, isEmailLocal c = true)
    (hdom0 : dom ≠ []) (hdom : ∀ c ∈ dom, isEmailDomain c = true)
    (htld0 : 2 ≤ tld.length) (htld : ∀ c ∈ tld, isEmailTld c = true)
    (hb1 : isWordAt (lastOr none pre) ≠ isWordAt loc.head?)
    (hb2 : isWordAt tld.getLast? ≠ isWordAt post.head?) :
    MatchIn emailRegex pre (loc ++ '@' :: (dom ++ '.' :: tld)) post := by
  match tld, htld0, htld, hb2 with
  | t1 :: t2 :: ts, _, htld, hb2 =>
    have hhead : (loc ++ '@' :: (dom ++ '.' :: (t1 :: t2 :: ts)) ++ post).head? = loc.head? := by
      cases loc with
      | nil => exact absurd rfl hloc0
      | cons c l => rfl
    have hlast : lastOr (some t2) ts = (t1 :: t2 :: ts).getLast? := by
      rw [← lastOr_eq_getLast? none (t1 :: t2 :: ts) (by simp), lastOr_cons, lastOr_cons]
    have e : loc ++ '@' :: (dom ++ '.' :: (t1 :: t2 :: ts)) ++ post
        = loc ++ ('@' :: (dom ++ ('.' :: t1 :: t2 :: (ts ++ post)))) := by simp
    refine ⟨lastOr (some t2) ts, ?_⟩
    simp only [emailRegex, Re.cat, List.foldr]
    refine Re.Sem.seq _ _ _ _ _ _ _ _ (Re.Sem.wordB _ _ (by rw [hhead]; exact hb1)) ?_
    rw [e]
    refine Re.Sem.seq _ _ _ _ _ _ _ _ (Re.Sem.plus_intro _ loc hloc0 hloc _ _) ?_
    refine Re.Sem.seq _ _ _ _ _ _ _ _ (Re.Sem.cls _ _ '@' _ (by decide)) ?_
    refine Re.Sem.seq _ _ _ _ _ _ _ _ (Re.Sem.plus_intro _ dom hdom0 hdom _ _) ?_
    refine Re.Sem.seq _ _ _ _ _ _ _ _ (Re.Sem.cls _ _ '.' _ (by decide)) ?_
    refine Re.Sem.seq _ _ _ _ _ _ _ _ (Re.Sem.cls _ _ t1 _ (htld t1 (by simp))) ?_
    refine Re.Sem.seq _ _ _ _ _ _ _ _ (Re.Sem.cls _ _ t2 _ (htld t2 (by simp))) ?_
    refine Re.Sem.seq _ _ _ _ _ _ _ _
      (Re.Sem.star_intro _ ts (fun x hx => htld x (by simp [hx])) (some t2) post) ?_
    exact Re.Sem.seq _ _ _ _ _ _ _ _ (Re.Sem.wordB _ _ (by rw [hlast]; exact hb2))
      (Re.Sem.eps _ _)

/-- Every match of the e-mail pattern has the form local@domain.tld and stands between two
word boundaries. -/
theorem email_match_bounds (pre m post : Str) (h : MatchIn emailRegex pre m post) :
    ∃ loc dom tld, m = loc ++ '@' :: (dom ++ '.' :: tld) ∧
      loc ≠ [] ∧ (∀ c ∈ loc, isEmailLocal c = true) ∧
      dom ≠ [] ∧ (∀ c ∈ dom, isEmailDomain c = true) ∧
      2 ≤ tld.length ∧ (∀ c ∈ tld, isEmailTld c = true) ∧
      isWordAt (lastOr none pre) ≠ isWordAt loc.head? ∧
      isWordAt tld.getLast? ≠ isWordAt post.head? := by
  obtain ⟨pEnd, h⟩ := h
  simp only [emailRegex, Re.cat, List.foldr] at h
  obtain ⟨p1, s1, hb1, h⟩ := Re.Sem.seq_inv h
  obtain ⟨q1, e1, b1⟩ := Re.Sem.wordB_inv hb1
  obtain ⟨p2, s2, hloc, h⟩ := Re.Sem.seq_inv h
  obtain ⟨loc, hloc0, e2, hlocall, _⟩ := Re.Sem.plus_inv hloc
  obtain ⟨p3, s3, hat, h⟩ := Re.Sem.seq_inv h
  obtain ⟨cat, e3, hcat, _⟩ := Re.Sem.cls_inv hat
  obtain ⟨p4, s4, hdom, h⟩ := Re.Sem.seq_inv h
  obtain ⟨dom, hdom0, e4, hdomall, _⟩ := Re.Sem.plus_inv hdom
  obtain ⟨p5, s5, hdot, h⟩ := Re.Sem.seq_inv h
  obtain ⟨cdot, e5, hcdot, _⟩ := Re.Sem.cls_inv hdot
  obtain ⟨p6, s6, ht1, h⟩ := Re.Sem.seq_inv h
  obtain ⟨t1, e6, ht1c, _⟩ := Re.Sem.cls_inv ht1
  obtain ⟨p7, s7, ht2, h⟩ := Re.Sem.seq_inv h
  obtain ⟨t2, e7, ht2c, q7⟩ := Re.Sem.cls_inv ht2
  obtain ⟨p8, s8, hts, h⟩ := Re.Sem.seq_inv h
  obtain ⟨ts, e8, htsall, q8⟩ := Re.Sem.star_inv hts
  obtain ⟨p9, s9, hb2, h⟩ := Re.Sem.seq_inv h
  obtain ⟨_, e9, b2⟩ := Re.Sem.wordB_inv hb2
  obtain ⟨_, e10⟩ := Re.Sem.eps_inv h
  have hat' : cat = '@' := by simpa using hcat
  have hdot' : cdot = '.' := by simpa using hcdot
  subst hat' hdot'
  have hm : m ++ post = (loc ++ '@' :: (dom ++ '.' :: (t1 :: t2 :: ts))) ++ post := by
    rw [← e1, e2, e3, e4, e5, e6, e7, e8, ← e9, ← e10]
    simp
  have hmeq := List.append_cancel_right hm
  refine ⟨loc, dom, t1 :: t2 :: ts, hmeq, hloc0, hlocall, hdom0, hdomall,
    by simp, ?_, ?_, ?_⟩
  · intro c hc
    simp only [List.mem_cons] at hc
    rcases hc with hc | hc | hc
    · rw [hc]; exact ht1c
    · rw [hc]; exact ht2c
    · exact htsall c hc
  · have hhead : (m ++ post).head? = loc.head? := by
      rw [hmeq]
      cases loc with
      | nil => exact absurd rfl hloc0
      | cons c l => rfl
    rw [← hhead]
    exact b1
  · have hlast : p8 = (t1 :: t2 :: ts).getLast? := by
      rw [q8, q7, ← lastOr_eq_getLast? none (t1 :: t2 :: ts) (by simp), lastOr_cons, lastOr_cons]
    have hp : post = s8 := e10.trans e9
    rw [← hlast, hp]
    exact b2

/-- C5: the e-mail of `extractPersonalInfo` is the match of the e-mail pattern at the
leftmost position of the text where the pattern matches, and the empty string when no
substring matches. The matches of the pattern are exactly the texts local@domain.tld (a
non-empty local part of letters, digits and `._%+-`, a non-empty domain of letters, digits,
`.` and `-`, a last part of at least two letters or bars) that stand between two word
boundaries. A text without `@` has the empty e-mail, and the first of two addresses in a
text is the one returned. -/
theorem email_first_match (text : Str) :
    ((∀ pre m post, text = pre ++ m ++ post → ¬ MatchIn emailRegex pre m post) →
      (extractPersonalInfo text).email = []) ∧
    ((∃ pre m post, text = pre ++ m ++ post ∧ MatchIn emailRegex pre m post) →
      ∃ pre post, text = pre ++ (extractPersonalInfo text).email ++ post ∧
        MatchIn emailRegex pre (extractPersonalInfo text).email post ∧
        ∀ pre1 m1 post1, text = pre1 ++ m1 ++ post1 → MatchIn emailRegex pre1 m1 post1 →
          pre.length ≤ pre1.length) ∧
    (∀ pre m post, MatchIn emailRegex pre m post ↔
      ∃ loc dom tld, m = loc ++ '@' :: (dom ++ '.' :: tld) ∧
        loc ≠ [] ∧ (∀ c ∈ loc, isEmailLocal c = true) ∧
        dom ≠ [] ∧ (∀ c ∈ dom, isEmailDomain c = true) ∧
        2 ≤ tld.length ∧ (∀ c ∈ tld, isEmailTld c = true) ∧
        isWordAt (lastOr none pre) ≠ isWordAt loc.head? ∧
        isWordAt tld.getLast? ≠ isWordAt post.head?) ∧
    ('@' ∉ text → (extractPersonalInfo text).email = []) ∧
    (extractPersonalInfo "Mail: john.doe@example.co.uk, or x@y.zz".toList).email
      = "john.doe@example.co.uk".toList ∧
    (extractPersonalInfo "jane@example.com".toList).email = "jane@example.com".toList := by
  have hemail : (extractPersonalInfo text).email = firstMatch emailRegex text := rfl
  rw [hemail]
  have hnone : (∀ pre m post, text = pre ++ m ++ post → ¬ MatchIn emailRegex pre m post) →
      firstMatch emailRegex text = [] := by
    intro hno
    rcases firstMatch_leftmost emailRegex text with ⟨h1, _⟩ | ⟨pre, post, h1, h2, _⟩
    · exact h1
    · exact absurd h2 (hno _ _ _ h1)
  refine ⟨hnone, ?_, ?_, ?_, by decide, by decide⟩
  · rintro ⟨pre, m, post, hs, hm⟩
    rcases firstMatch_leftmost emailRegex text with ⟨_, h2⟩ | h
    · exact absurd hm (h2 _ _ _ hs)
    · exact h
  · intro pre m post
    constructor
    · exact email_match_bounds pre m post
    · rintro ⟨loc, dom, tld, e, h1, h2, h3, h4, h5, h6, h7, h8⟩
      rw [e]
      exact email_match_intro pre loc dom tld post h1 h2 h3 h4 h5 h6 h7 h8
  · intro hat
    apply hnone
    intro pre m post hs hm
    obtain ⟨loc, dom, tld, e, _⟩ := email_match_bounds pre m post hm
    apply hat
    rw [hs, e]
    simp

/-- Witness for C5: an address between a label and a full stop is found and returned. -/
theorem email_first_match_witness :
    (∃ pre post, "Mail: jane@example.com.".toList
        = pre ++ (extractPersonalInfo "Mail: jane@example.com.".toList).email ++ post ∧
      MatchIn emailRegex pre (extractPersonalInfo "Mail: jane@example.com.".toList).email post ∧
      ∀ pre1 m1 post1, "Mail: jane@example.com.".toList = pre1 ++ m1 ++ post1 →
        MatchIn emailRegex pre1 m1 post1 → pre.length ≤ pre1.length) ∧
    (extractPersonalInfo "Mail: jane@example.com.".toList).email = "jane@example.com".toList :=
  ⟨(email_first_match "Mail: jane@example.com.".toList).2.1
    ⟨"Mail: ".toList, "jane@example.com".toList, ".".toList, by decide,
      email_match_intro "Mail: ".toList "jane".toList "example".toList "com".toList ".".toList
        (by decide) (by decide) (by decide) (by decide) (by decide) (by decide) (by decide)
        (by decide)⟩,
    by decide⟩

/-! ## Section bodies (claim C6) -/

theorem findLine_of_getElem (p : Str → Bool) :
    ∀ (l : List Str) (k i : Nat) (x : Str), l[i]? = some x → p x = true →
      ∃ a, findLine p l k = some a ∧ a ≤ k + i := by
  intro l
  induction l with
  | nil => intro k i x h _; simp at h
  | cons y l ih =>
    intro k i x h hp
    by_cases hy : p y = true
    · exact ⟨k, by simp [findLine, hy], by omega⟩
    · cases i with
      | zero =>
        simp only [List.getElem?_cons_zero, Option.some.injEq] at h
        rw [h] at hy
        exact absurd hp hy
      | succ i =>
        simp only [List.getElem?_cons_succ] at h
        obtain ⟨a, h1, h2⟩ := ih (k + 1) i x h hp
        exact ⟨a, by simp only [findLine, hy]; simpa using h1, by omega⟩

theorem drop_one_slice (xs : List Str) (a b : Nat) : (slice xs a b).drop 1 = slice xs (a + 1) b := by
  simp [slice, List.drop_drop, Nat.add_comm]

/-- C6: when a line of the text is `Experience` and a later line is `Education`, the body
returned by `extractExperience` is the trimmed join of a range of lines that ends before
the `Education` line: neither that line nor any line after it is part of the body. -/
theorem experience_stops_before_education (text : Str) (i j : Nat)
    (hi : (split '\n' text)[i]? = some "Experience".toList)
    (hj : (split '\n' text)[j]? = some "Education".toList) (hij : i < j) :
    ∃ a b, a ≤ i + 1 ∧ b ≤ j ∧
      extractExperience text = .ok (trim (join '\n' (slice (split '\n' text) a b))) := by
  obtain ⟨a0, hs, ha0⟩ := findLine_of_getElem
    (fun l => keywordMatch experienceKeywords (trim (toLowerCase l))) (split '\n' text) 0 i _ hi
    (by decide)
  have hstart : findSectionStart experienceKeywords (split '\n' text) = some a0 := hs
  have hj2 : ((split '\n' text).drop (a0 + 1))[j - (a0 + 1)]? = some "Education".toList := by
    rw [List.getElem?_drop, ← hj]
    congr 1
    omega
  obtain ⟨e, he, hej⟩ := findLine_of_getElem
    (fun l => isNextSection experienceKeywords (trim (toLowerCase l)))
    ((split '\n' text).drop (a0 + 1)) (a0 + 1) (j - (a0 + 1)) _ hj2 (by decide)
  have hend : findSectionEnd experienceKeywords (split '\n' text) a0 = some e := he
  have hlines : sectionLinesOf experienceKeywords (split '\n' text) a0
      = slice (split '\n' text) a0 e := by
    simp only [sectionLinesOf, hend]
  have hres : extractExperience text
      = sectionTextOf experienceKeywords (slice (split '\n' text) a0 e) := by
    simp only [extractExperience, extractSection, hstart, hlines]
  rw [hres]
  cases hl : slice (split '\n' text) a0 e with
  | nil =>
    have hlt := findLine_some _ _ _ _ hs
    have hge := findLine_some _ _ _ _ he
    exact absurd hl (slice_ne_nil _ _ _ (by omega) (by omega))
  | cons first rest =>
    by_cases hk : (experienceKeywords.any fun k => includes (toLowerCase (trim first)) k) = true
    · refine ⟨a0 + 1, e, by omega, by omega, ?_⟩
      rw [← drop_one_slice, hl]
      simp only [sectionTextOf, hk, if_true]
    · refine ⟨a0, e, by omega, by omega, ?_⟩
      rw [hl]
      simp only [sectionTextOf, hk]
      rfl

/-- Witness for C6: the text `Experience`, a bullet line, `Education`, `MIT`. -/
theorem experience_stops_before_education_witness :
    ∃ a b, a ≤ 0 + 1 ∧ b ≤ 2 ∧
      extractExperience "Experience\n- built X\nEducation\nMIT".toList
        = .ok (trim (join '\n'
            (slice (split '\n' "Experience\n- built X\nEducation\nMIT".toList) a b))) :=
  experience_stops_before_education "Experience\n- built X\nEducation\nMIT".toList 0 2
    (by decide) (by decide) (by decide)

/-! ## The degraded word-processor strategy (claim C7) -/

theorem normalize_wordPlaceholder : normalize wordPlaceholder = wordPlaceholder := by decide

/-- C7: when the cleaned text of a readable doc/docx file (non-printable characters replaced
by spaces, whitespace collapsed, trimmed) is shorter than 50 characters,
`extractTextFromWordBuffer` returns the fixed placeholder, `parseWord` raises no error, and
the `rawText` of its record is the placeholder itself. -/
theorem word_short_text_placeholder (f : File) (hread : f.readable = true)
    (hshort : (cleanWordText f.text).length < 50) :
    extractTextFromWordBuffer f.text = wordPlaceholder ∧
    ∃ r, parseWord f = .ok r ∧ r.rawText = wordPlaceholder := by
  have h1 : extractTextFromWordBuffer f.text = wordPlaceholder := by
    simp only [extractTextFromWordBuffer, hshort, if_true]
  obtain ⟨r, h2, h3⟩ := extractResumeData_ok wordPlaceholder
  refine ⟨h1, { r with metadata := { format := some (getFileFormat f), pageCount := none,
                                     fileSize := some f.size } }, ?_, ?_⟩
  · simp only [parseWord, hread, h1, h2]
    rfl
  · show r.rawText = wordPlaceholder
    rw [h3, normalize_wordPlaceholder]

/-- Witness for C7: a docx file whose bytes decode to a zip header and three letters. -/
theorem word_short_text_placeholder_witness :
    extractTextFromWordBuffer "PK\x03\x04\x14\x00 abc".toList = wordPlaceholder ∧
    ∃ r, parseWord { name := "cv.docx".toList, size := 9, readable := true,
                     text := "PK\x03\x04\x14\x00 abc".toList, pdf := .ok [] } = .ok r ∧
      r.rawText = wordPlaceholder :=
  word_short_text_placeholder
    { name := "cv.docx".toList, size := 9, readable := true,
      text := "PK\x03\x04\x14\x00 abc".toList, pdf := .ok [] } rfl (by decide)

/-! ## The PDF strategy (claim C8) -/

theorem pdfLoop_foldl (pages : List (List Str)) :
    ∀ acc : Str × Nat,
      pages.foldl (fun acc items => (acc.1 ++ (pageText items ++ "\n".toList), acc.2 + 1)) acc
        = (acc.1 ++ (pages.map (fun items => pageText items ++ ['\n'])).flatten,
           acc.2 + pages.length) := by
  induction pages with
  | nil => intro acc; simp
  | cons p ps ih =>
    intro acc
    simp only [List.foldl_cons, ih, List.map_cons, List.flatten_cons, List.length_cons]
    have e : "\n".toList = ['\n'] := rfl
    rw [e]
    simp only [List.append_assoc, Prod.mk.injEq, true_and]
    omega

theorem pdfLoop_eq (pages : List (List Str)) :
    pdfLoop pages
      = ((pages.map (fun items => pageText items ++ ['\n'])).flatten, pages.length) := by
  unfold pdfLoop
  rw [pdfLoop_foldl]
  simp

theorem parsePDF_ok (f : File) (pages : List (List Str)) (hread : f.readable = true)
    (hpdf : f.pdf = .ok pages) :
    ∃ r, parsePDF true f = .ok r ∧ r.rawText = normalize (pdfLoop pages).1 ∧
      r.metadata.pageCount = some (pdfLoop pages).2 := by
  obtain ⟨r, h1, h2⟩ := extractResumeData_ok (pdfLoop pages).1
  refine ⟨{ r with metadata := { format := some "pdf".toList, pageCount := some (pdfLoop pages).2,
                                 fileSize := some f.size } }, ?_, h2, rfl⟩
  simp only [parsePDF, hread, hpdf, h1]
  rfl

theorem normalize_eq_trim (s : Str) (h1 : '\r' ∉ s) (h2 : NoTripleLF s) :
    normalize s = trim s := by
  have hcr : ∀ x ∈ s, (fun x => x == '\r') x = false := by
    intro x hx
    have : x ≠ '\r' := fun e => h1 (e ▸ hx)
    simpa using this
  unfold normalize
  rw [show crlfRegex = Re.seq (Re.cls (fun x => x == '\r')) (Re.chr '\n') from rfl,
    replaceAll_seq_cls_of_not_mem _ _ _ _ hcr,
    show crRegex = Re.cls (fun x => x == '\r') from rfl,
    replaceAll_cls_of_not_mem _ _ _ hcr,
    replaceAll_newlines_of_noTriple _ h2]

theorem trim_append_lf (t : Str) (h : Trimmed t) : trim (t ++ ['\n']) = t := by
  cases t with
  | nil => decide
  | cons c cs =>
    have hc : isSpace c = false := h.1 c rfl
    have h1 : (c :: cs ++ ['\n']).dropWhile isSpace = c :: cs ++ ['\n'] := by
      simp [List.dropWhile_cons, hc]
    unfold trim
    rw [h1, List.rdropWhile_concat_pos _ _ _ (by decide), List.rdropWhile_eq_self_iff]
    intro hl
    have := h.2 _ (List.getLast?_eq_getLast _ hl)
    simpa using this

theorem chain_of_no_lf (p : Str) (h : ∀ c ∈ p, c ≠ '\n') :
    List.Chain' (fun a b : Char => ¬ (a = '\n' ∧ b = '\n')) p := by
  induction p with
  | nil => exact List.chain'_nil
  | cons c cs ih =>
    refine List.chain'_cons'.mpr ⟨fun y _ hy => h c (by simp) hy.1, ih ?_⟩
    intro x hx
    exact h x (by simp [hx])

theorem noTripleLF_of_chain (s : Str)
    (h : List.Chain' (fun a b : Char => ¬ (a = '\n' ∧ b = '\n')) s) : NoTripleLF s := by
  intro hin
  have := List.Chain'.infix h hin
  exact (List.chain'_cons.mp this).1 ⟨rfl, rfl⟩

/-- The text of a page holds neither a line feed nor a carriage return, and is trimmed. -/
theorem pageText_chars (items : List Str) :
    Trimmed (pageText items) ∧ ∀ c ∈ pageText items, c ≠ '\n' ∧ c ≠ '\r' := by
  refine ⟨trimmed_trim _, ?_⟩
  intro c hc
  have h1 := (trim_part _).subset hc
  constructor
  · intro e
    subst e
    have := replaceAll_spaces_space _ _ h1 (by decide)
    revert this; decide
  · intro e
    subst e
    have := replaceAll_spaces_space _ _ h1 (by decide)
    revert this; decide

theorem blocks_chain (ps : List Str)
    (h : ∀ p ∈ ps, p ≠ [] ∧ Trimmed p ∧ ∀ c ∈ p, c ≠ '\n' ∧ c ≠ '\r') :
    List.Chain' (fun a b : Char => ¬ (a = '\n' ∧ b = '\n'))
        (ps.map (fun p => p ++ ['\n'])).flatten ∧
    (∀ c, (ps.map (fun p => p ++ ['\n'])).flatten.head? = some c → c ≠ '\n') ∧
    '\r' ∉ (ps.map (fun p => p ++ ['\n'])).flatten := by
  induction ps with
  | nil => simp
  | cons p ps ih =>
    obtain ⟨hne, htr, hch⟩ := h p (by simp)
    obtain ⟨i1, i2, i3⟩ := ih (fun q hq => h q (by simp [hq]))
    simp only [List.map_cons, List.flatten_cons, List.append_assoc, List.singleton_append]
    refine ⟨?_, ?_, ?_⟩
    · refine List.Chain'.append (chain_of_no_lf p (fun c hc => (hch c hc).1))
        (List.chain'_cons'.mpr ⟨fun y hy hh => i2 y hy hh.2, i1⟩) ?_
      intro x hx y hy hh
      exact (hch x (List.mem_of_mem_getLast? hx)).1 hh.1
    · intro c hc
      cases p with
      | nil => exact absurd rfl hne
      | cons d ds =>
        simp only [List.cons_append, List.head?_cons, Option.some.injEq] at hc
        exact hc ▸ (hch d (by simp)).1
    · intro hmem
      rcases List.mem_append.mp hmem with hm | hm
      · exact (hch _ hm).2 rfl
      · rcases List.mem_cons.mp hm with hm | hm
        · revert hm; decide
        · exact i3 hm

theorem blocks_eq_join (ps : List Str) (h : ps ≠ []) :
    (ps.map (fun p => p ++ ['\n'])).flatten = join '\n' ps ++ ['\n'] := by
  induction ps with
  | nil => exact absurd rfl h
  | cons p ps ih =>
    cases ps with
    | nil => simp [join, List.intercalate, List.intersperse]
    | cons q qs =>
      have := ih (by simp)
      simp only [List.map_cons, List.flatten_cons] at this ⊢
      rw [this]
      simp [join, List.intercalate, List.intersperse]

theorem join_trimmed (ps : List Str) (hne : ps ≠ [])
    (h : ∀ p ∈ ps, p ≠ [] ∧ Trimmed p ∧ ∀ c ∈ p, c ≠ '\n' ∧ c ≠ '\r') :
    join '\n' ps ≠ [] ∧ Trimmed (join '\n' ps) := by
  induction ps with
  | nil => exact absurd rfl hne
  | cons p ps ih =>
    obtain ⟨hpne, htr, _⟩ := h p (by simp)
    cases ps with
    | nil =>
      have e : join '\n' [p] = p := by simp [join, List.intercalate, List.intersperse]
      rw [e]
      exact ⟨hpne, htr⟩
    | cons q qs =>
      obtain ⟨i1, i2⟩ := ih (by simp) (fun x hx => h x (by simp [hx]))
      have e : join '\n' (p :: q :: qs) = p ++ '\n' :: join '\n' (q :: qs) := by
        simp [join, List.intercalate, List.intersperse]
      rw [e]
      refine ⟨by simp, ?_, ?_⟩
      · intro c hc
        cases p with
        | nil => exact absurd rfl hpne
        | cons d ds =>
          simp only [List.cons_append, List.head?_cons, Option.some.injEq] at hc
          exact hc ▸ htr.1 d rfl
      · intro c hc
        rw [List.getLast?_append_of_ne_nil _ (by simp)] at hc
        cases hj : join '\n' (q :: qs) with
        | nil => exact absurd hj i1
        | cons d ds =>
          rw [hj, List.getLast?_cons_cons] at hc
          rw [hj] at i2
          exact i2.2 c hc

/-- The page loop followed by the normalisation: non-empty page texts come out in page
order, separated by single line feeds. -/
theorem normalize_blocks (ps : List Str)
    (h : ∀ p ∈ ps, p ≠ [] ∧ Trimmed p ∧ ∀ c ∈ p, c ≠ '\n' ∧ c ≠ '\r') :
    normalize (ps.map (fun p => p ++ ['\n'])).flatten = join '\n' ps := by
  cases hps : ps with
  | nil => decide
  | cons p qs =>
    rw [← hps]
    have hne : ps ≠ [] := by rw [hps]; simp
    obtain ⟨c1, _, c3⟩ := blocks_chain ps h
    rw [normalize_eq_trim _ c3 (noTripleLF_of_chain _ c1), blocks_eq_join ps hne,
      trim_append_lf _ (join_trimmed ps hne h).2]

/-- C8 (counterexample): for the three pages with texts `A`, `B`, `C` the record has
`pageCount` 3 and `rawText` equal to `A`, line feed, `B`, line feed, `C`: the last page
text is not followed by a line break. -/
theorem pdf_last_page_without_line_break :
    ∃ r, parsePDF true { name := "cv.pdf".toList, size := 3, readable := true, text := [],
                         pdf := .ok [["A".toList], ["B".toList], ["C".toList]] } = .ok r ∧
      r.rawText = "A\nB\nC".toList ∧ r.metadata.pageCount = some 3 ∧
      ¬ ("C\n".toList <:+: r.rawText) := by
  obtain ⟨r, h1, h2, h3⟩ := parsePDF_ok
    { name := "cv.pdf".toList, size := 3, readable := true, text := [],
      pdf := .ok [["A".toList], ["B".toList], ["C".toList]] }
    [["A".toList], ["B".toList], ["C".toList]] rfl rfl
  have h4 : normalize (pdfLoop [["A".toList], ["B".toList], ["C".toList]]).1
      = "A\nB\nC".toList := by decide
  refine ⟨r, h1, by rw [h2, h4], by rw [h3]; rfl, ?_⟩
  rw [h2, h4]
  decide

/-- C8 (amended): for a readable PDF with the library loaded, `parsePDF` returns a record
whose `pageCount` is the number of pages and whose `rawText` is the normalisation of the
page texts each followed by a line feed; when no page text is empty, `rawText` is the page
texts in page order separated by single line feeds, so that every page text but the last
is followed by its line break and the last one ends the text. -/
theorem pdf_rawText_in_page_order (f : File) (pages : List (List Str))
    (hread : f.readable = true) (hpdf : f.pdf = .ok pages) :
    ∃ r, parsePDF true f = .ok r ∧ r.metadata.pageCount = some pages.length ∧
      r.rawText = normalize (pages.map (fun items => pageText items ++ ['\n'])).flatten ∧
      ((∀ items ∈ pages, pageText items ≠ []) →
        r.rawText = join '\n' (pages.map pageText)) := by
  obtain ⟨r, h1, h2, h3⟩ := parsePDF_ok f pages hread hpdf
  rw [pdfLoop_eq] at h2 h3
  refine ⟨r, h1, h3, h2, ?_⟩
  intro hne
  rw [h2]
  have := normalize_blocks (pages.map pageText) (by
    intro p hp
    obtain ⟨items, hi, rfl⟩ := List.mem_map.mp hp
    exact ⟨hne items hi, (pageText_chars items).1, (pageText_chars items).2⟩)
  rw [List.map_map] at this
  exact this

/-- Witness for C8: the three pages with texts `A`, `B`, `C`. -/
theorem pdf_rawText_in_page_order_witness :
    ∃ r, parsePDF true { name := "cv.pdf".toList, size := 3, readable := true, text := [],
                         pdf := .ok [["A".toList], ["B".toList], ["C".toList]] } = .ok r ∧
      r.metadata.pageCount = some [["A".toList], ["B".toList], ["C".toList]].length ∧
      r.rawText = normalize
        ([["A".toList], ["B".toList], ["C".toList]].map
          (fun items => pageText items ++ ['\n'])).flatten ∧
      ((∀ items ∈ [["A".toList], ["B".toList], ["C".toList]], pageText items ≠ []) →
        r.rawText = join '\n' ([["A".toList], ["B".toList], ["C".toList]].map pageText)) :=
  pdf_rawText_in_page_order
    { name := "cv.pdf".toList, size := 3, readable := true, text := [],
      pdf := .ok [["A".toList], ["B".toList], ["C".toList]] }
    [["A".toList], ["B".toList], ["C".toList]] rfl rfl

/-! ## The name (claims C9 and C10) -/

theorem cleanName_props (line : Str) :
    (∀ c ∈ cleanName line, isDigit c = false) ∧ Trimmed (cleanName line) ∧
    List.Chain' (fun a b => ¬ (isSpace a = true ∧ isSpace b = true)) (cleanName line) := by
  unfold cleanName
  simp only
  split
  · exact ⟨by simp, ⟨by simp, by simp⟩, List.chain'_nil⟩
  · refine ⟨?_, trimmed_trim _, List.Chain'.infix (replaceAll_spaces_chain _) (trim_part _)⟩
    intro c hc
    have h1 := (trim_part _).subset hc
    by_contra hd
    have hd : isDigit c = true := by simpa using hd
    rcases mem_replaceAll _ _ _ _ h1 with h2 | h2
    · have : c = ' ' := by simpa using h2
      subst this
      revert hd; decide
    · rcases mem_replaceAll _ _ _ _ h2 with h3 | h3
      · have : c = ' ' := by simpa using h3
        subst this
        revert hd; decide
      · have := replaceAll_plus_class isDigit [] _ c h3 hd
        simp at this

theorem filter_first (p : Str → Bool) (pre : List Str) (l : Str) (post : List Str)
    (hpre : ∀ x ∈ pre, p x = false) (hl : p l = true) :
    (pre ++ l :: post).filter p = l :: post.filter p := by
  induction pre with
  | nil => simp [List.filter_cons, hl]
  | cons a pre ih =>
    have ha : p a = false := hpre a (by simp)
    rw [List.cons_append, List.filter_cons, ha]
    simpa using ih (fun x hx => hpre x (by simp [hx]))

/-- C9: the name of `extractPersonalInfo` contains no digit, has no leading or trailing
whitespace and no two consecutive whitespace characters; it is computed from the first
non-blank line of the text (digits stripped, whitespace collapsed, trimmed), and it is
empty when every line is blank; for the first line `John Smith 2024` it is `John Smith`. -/
theorem name_from_first_line (text : Str) :
    (∀ c ∈ (extractPersonalInfo text).name, isDigit c = false) ∧
    Trimmed (extractPersonalInfo text).name ∧
    List.Chain' (fun a b => ¬ (isSpace a = true ∧ isSpace b = true))
      (extractPersonalInfo text).name ∧
    (∀ pre l post, split '\n' text = pre ++ l :: post →
      (∀ x ∈ pre, isBlankLine x = true) → isBlankLine l = false →
      (extractPersonalInfo text).name = cleanName l) ∧
    ((∀ x ∈ split '\n' text, isBlankLine x = true) → (extractPersonalInfo text).name = []) ∧
    (extractPersonalInfo "John Smith 2024".toList).name = "John Smith".toList := by
  have hname : (extractPersonalInfo text).name
      = match (split '\n' text).filter (fun line => !(trim line).isEmpty) with
        | first :: _ => cleanName first
        | [] => [] := rfl
  refine ⟨?_, ?_, ?_, ?_, ?_, by decide⟩
  · rw [hname]
    split
    · exact (cleanName_props _).1
    · simp
  · rw [hname]
    split
    · exact (cleanName_props _).2.1
    · exact ⟨by simp, by simp⟩
  · rw [hname]
    split
    · exact (cleanName_props _).2.2
    · exact List.chain'_nil
  · intro pre l post hs hpre hl
    rw [hname, hs, filter_first _ pre l post
      (fun x hx => by have := hpre x hx; simpa [isBlankLine] using this)
      (by simpa [isBlankLine] using hl)]
  · intro hall
    rw [hname]
    have : (split '\n' text).filter (fun line => !(trim line).isEmpty) = [] := by
      rw [List.filter_eq_nil_iff]
      intro x hx
      have := hall x hx
      simpa [isBlankLine] using this
    rw [this]

/-- Witness for C9: a text whose first non-blank line is `John Smith 2024`. -/
theorem name_from_first_line_witness :
    (extractPersonalInfo "\nJohn Smith 2024\njohn@x.com".toList).name
      = cleanName "John Smith 2024".toList :=
  (name_from_first_line "\nJohn Smith 2024\njohn@x.com".toList).2.2.2.1
    [[]] "John Smith 2024".toList ["john@x.com".toList] (by decide) (by decide) (by decide)

/-- C10 (failing input): for the line `John_Smith` the name is `John_Smith`; the underscore
is neither a letter nor a space, a hyphen or an apostrophe, and yet it is kept. -/
theorem name_keeps_underscore :
    (extractPersonalInfo "John_Smith".toList).name = "John_Smith".toList ∧
    '_' ∈ (extractPersonalInfo "John_Smith".toList).name ∧
    isLetter '_' = false ∧ '_' ≠ ' ' ∧ '_' ≠ '-' ∧ ('_').toNat ≠ 0x27 := by
  decide

/-! ## The embedding on sample inputs -/

theorem normalize_sample :
    normalize "  a\r\n\r\n\r\n\r\nb\rc \n".toList = "a\n\nb\nc".toList := by decide

theorem extractExperience_sample :
    extractExperience "John Smith\nExperience\n- built X\n- ran Y\nEducation\nMIT".toList
      = .ok "- built X\n- ran Y".toList := rfl

theorem email_sample :
    (extractPersonalInfo "Mail: john.doe@example.co.uk, or x@y.zz".toList).email
      = "john.doe@example.co.uk".toList := by decide

theorem identifySections_sample :
    (identifySections "Skills: Lean\nWork history".toList).map (fun r => r.name)
      = ["Experience".toList, "Skills".toList] := by decide

theorem parseFile_sample :
    (parseFile true (some { name := "cv.TXT".toList, size := 21, readable := true,
                            text := "Ada Lovelace\r\nLondon".toList, pdf := .ok [] })).toOption.map
        (fun r => (r.rawText, r.personalInfo.name, r.metadata.format))
      = some ("Ada Lovelace\nLondon".toList, "Ada Lovelace".toList, some "txt".toList) := rfl

/-! ## Substring containment -/

theorem includes_iff (s sub : Str) : includes s sub = true ↔ sub <:+: s := by
  unfold includes
  rw [List.any_eq_true]
  constructor
  · rintro ⟨t, ht, hp⟩
    exact List.infix_iff_prefix_suffix.mpr
      ⟨t, List.isPrefixOf_iff_prefix.mp hp, (List.mem_tails _ _).mp ht⟩
  · intro h
    obtain ⟨t, hp, hs⟩ := List.infix_iff_prefix_suffix.mp h
    exact ⟨t, (List.mem_tails _ _).mpr hs, List.isPrefixOf_iff_prefix.mpr hp⟩

theorem includes_self (s : Str) : includes s s = true :=
  (includes_iff s s).mpr List.infix_rfl

/-! ## The discard test of the name (claim C11) -/

/-- The name before the discard test of `extractPersonalInfo`. -/
theorem nameCore_chars (line : Str) :
    ∀ c ∈ trim (replaceAll spacesRegex " ".toList
      (replaceAll nonNameRegex " ".toList (replaceAll digitsRegex [] (trim line)))),
      isDigit c = false ∧ c ≠ '@' := by
  intro c hc
  have h1 := (trim_part _).subset hc
  constructor
  · by_contra hd
    have hd : isDigit c = true := by simpa using hd
    rcases mem_replaceAll _ _ _ _ h1 with h2 | h2
    · have : c = ' ' := by simpa using h2
      subst this
      revert hd; decide
    · rcases mem_replaceAll _ _ _ _ h2 with h3 | h3
      · have : c = ' ' := by simpa using h3
        subst this
        revert hd; decide
      · have := replaceAll_plus_class isDigit [] _ c h3 hd
        simp at this
  · intro e
    subst e
    rcases mem_replaceAll _ _ _ _ h1 with h2 | h2
    · revert h2; decide
    · have := replaceAll_cls_class _ " ".toList _ '@' h2 (by decide)
      revert this; decide

theorem test_eq_true_iff (re : Re) (text : Str) :
    test re text = true ↔ ∃ pre suf, text = pre ++ suf ∧
      (Re.matchAt re (lastOr none pre) suf).isSome = true := by
  unfold test matchAll
  constructor
  · intro h
    rcases matchAllAux_first re text none with ⟨h1, _⟩ | ⟨pre, suf, rest, h1, h2, _, _⟩
    · rw [h1] at h; simp at h
    · exact ⟨pre, suf, h1, by rw [h2]; rfl⟩
  · rintro ⟨pre, suf, hs, hm⟩
    rcases matchAllAux_first re text none with ⟨_, h2⟩ | ⟨_, _, _, _, _, _, h4⟩
    · rw [h2 pre suf hs] at hm; simp at hm
    · cases hl : matchAllAux re 0 none text with
      | nil => rw [hl] at h4; simp at h4
      | cons a l => simp

theorem Re.Sem.bos_inv {prev prev1 : Option Char} {s s1 : Str}
    (h : Re.Sem Re.bos prev s prev1 s1) : prev = none ∧ prev1 = none ∧ s1 = s := by
  cases h; exact ⟨rfl, rfl, rfl⟩

theorem Re.Sem.eos_inv {prev prev1 : Option Char} {s s1 : Str}
    (h : Re.Sem Re.eos prev s prev1 s1) : s = [] ∧ prev1 = prev ∧ s1 = [] := by
  cases h; exact ⟨rfl, rfl, rfl⟩

/-- The discard test of the name is false on a text without `@` and without digits. -/
theorem discard_test_false (name : Str) (hchars : ∀ c ∈ name, isDigit c = false ∧ c ≠ '@') :
    (includes name "@".toList || test phoneLikeRegex name) = false := by
  have h1 : includes name "@".toList = false := by
    by_contra h
    have h : includes name "@".toList = true := by simpa using h
    have hin := (includes_iff _ _).mp h
    exact (hchars '@' (hin.subset (by simp))).2 rfl
  have h2 : test phoneLikeRegex name = false := by
    by_contra h
    have h : test phoneLikeRegex name = true := by simpa using h
    obtain ⟨pre, suf, hs, hm⟩ := (test_eq_true_iff _ _).mp h
    obtain ⟨p1, s1, hsem⟩ := (Re.matchAt_isSome_iff _ _ _).mp hm
    simp only [phoneLikeRegex, Re.cat, List.foldr] at hsem
    obtain ⟨p2, s2, hb, hrest⟩ := Re.Sem.seq_inv hsem
    obtain ⟨_, _, hs2⟩ := Re.Sem.bos_inv hb
    obtain ⟨p3, s3, hd, _⟩ := Re.Sem.seq_inv hrest
    obtain ⟨c, hc, hdc, _⟩ := Re.Sem.cls_inv hd
    have : c ∈ name := by rw [hs, ← hs2, hc]; simp
    rw [(hchars c this).1] at hdc
    exact absurd hdc (by simp)
  rw [h1, h2]
  rfl

/-- The discard test of the name never fires: the name is the cleaned first line. -/
theorem cleanName_eq (line : Str) :
    cleanName line = trim (replaceAll spacesRegex " ".toList
      (replaceAll nonNameRegex " ".toList (replaceAll digitsRegex [] (trim line)))) := by
  simp only [cleanName, discard_test_false _ (nameCore_chars line)]
  rfl

/-- C11 (failing input): a first line that is an e-mail address, or a phone number, is
reported as a name: the `@` and the digits are removed before the test that should
discard such a line, so the test never fires. -/
theorem name_of_email_or_phone_line :
    (extractPersonalInfo "john@example.com".toList).name = "john example com".toList ∧
    (extractPersonalInfo "555-123-4567".toList).name = "--".toList ∧
    (extractPersonalInfo "(555) 123-4567\nJohn Smith".toList).name = "-".toList := by
  decide

/-! ## Trimming keeps what stands between two non-blank characters -/

theorem dropWhile_append_solid (p : Char → Bool) (a : Str) (c : Char) (r : Str)
    (hc : p c = false) : (a ++ c :: r).dropWhile p = a.dropWhile p ++ c :: r := by
  induction a with
  | nil => simp [List.dropWhile_cons, hc]
  | cons d a ih =>
    by_cases hd : p d = true
    · simp [List.dropWhile_cons, hd, ih]
    · simp [List.dropWhile_cons, hd]

theorem rdropWhile_append_solid (p : Char → Bool) (a : Str) (c : Char) (b : Str)
    (hc : p c = false) : (a ++ c :: b).rdropWhile p = a ++ c :: b.rdropWhile p := by
  unfold List.rdropWhile
  have h1 : (a ++ c :: b).reverse = b.reverse ++ c :: a.reverse := by simp
  rw [h1, dropWhile_append_solid p _ c _ hc]
  simp

/-- Trimming a text keeps every part of it that starts and ends with a non-blank character. -/
theorem trim_around (a k b : Str) (hne : k ≠ []) (hk : Trimmed k) :
    trim (a ++ k ++ b) = a.dropWhile isSpace ++ k ++ b.rdropWhile isSpace := by
  obtain ⟨h1, h2⟩ := hk
  cases k with
  | nil => exact absurd rfl hne
  | cons c k =>
    have hc : isSpace c = false := h1 c rfl
    unfold trim
    rw [List.append_assoc, List.cons_append, dropWhile_append_solid isSpace a c _ hc]
    have hlast : ∃ k0 d, c :: k = k0 ++ [d] ∧ isSpace d = false := by
      have hx := List.getLast?_eq_getLast (c :: k) (by simp)
      exact ⟨(c :: k).dropLast, (c :: k).getLast (by simp),
        (List.dropLast_append_getLast (by simp)).symm, h2 _ hx⟩
    obtain ⟨k0, d, hk0, hd⟩ := hlast
    have e1 : a.dropWhile isSpace ++ c :: (k ++ b)
        = (a.dropWhile isSpace ++ k0) ++ d :: b := by
      rw [← List.cons_append, hk0]; simp
    have e2 : a.dropWhile isSpace ++ (c :: k) ++ b.rdropWhile isSpace
        = (a.dropWhile isSpace ++ k0) ++ d :: b.rdropWhile isSpace := by
      rw [hk0]; simp
    rw [e1, rdropWhile_append_solid isSpace _ d b hd, e2]

theorem includes_trim (l k : Str) (hne : k ≠ []) (hk : Trimmed k) :
    includes (trim l) k = includes l k := by
  rw [Bool.eq_iff_iff, includes_iff, includes_iff]
  constructor
  · intro h
    exact h.trans (trim_part l)
  · rintro ⟨a, b, rfl⟩
    rw [trim_around a k b hne hk]
    exact ⟨_, _, rfl⟩

theorem trimmed_of_trim_eq (k : Str) (h : trim k = k) : Trimmed k := by
  have := trimmed_trim k
  rwa [h] at this

theorem states_solid : ∀ k ∈ states, k ≠ [] ∧ trim k = k := by decide

theorem cities_solid : ∀ k ∈ cities, k ≠ [] ∧ trim k = k := by decide

theorem any_includes_trim (keys : List Str) (hkeys : ∀ k ∈ keys, k ≠ [] ∧ trim k = k)
    (l : Str) :
    keys.any (fun k => includes (trim l) k) = keys.any (fun k => includes l k) := by
  induction keys with
  | nil => rfl
  | cons k ks ih =>
    obtain ⟨h1, h2⟩ := hkeys k (by simp)
    simp only [List.any_cons, includes_trim l k h1 (trimmed_of_trim_eq k h2),
      ih (fun x hx => hkeys x (by simp [hx]))]

theorem mentionsState_trim (l : Str) : mentionsState (trim l) = mentionsState l :=
  any_includes_trim states states_solid l

theorem mentionsCity_trim (l : Str) : mentionsCity (trim l) = mentionsCity l :=
  any_includes_trim cities cities_solid l

theorem ne_nil_of_any_includes (keys : List Str) (hkeys : ∀ k ∈ keys, k ≠ [] ∧ trim k = k)
    (l : Str) (h : keys.any (fun k => includes l k) = true) : l ≠ [] := by
  rw [List.any_eq_true] at h
  obtain ⟨k, hk, hin⟩ := h
  intro e
  subst e
  have := (includes_iff _ _).mp hin
  exact (hkeys k hk).1 (List.infix_nil.mp this)

/-! ## The location (claim C12) -/

theorem extractLocationLines_cons (line : Str) (rest : List Str) :
    extractLocationLines (line :: rest)
      = if (mentionsState line || mentionsCity line) = true then trim line
        else extractLocationLines rest := by
  have h1 : (states.any fun state => includes (trim line) state) = mentionsState line :=
    mentionsState_trim line
  have h2 : (cities.any fun city => includes (trim line) city) = mentionsCity line :=
    mentionsCity_trim line
  simp only [extractLocationLines, h1, h2]
  cases mentionsState line <;> cases mentionsCity line <;> rfl

theorem extractLocationLines_first (pre : List Str) (l : Str) (post : List Str)
    (hpre : ∀ x ∈ pre, mentionsState x = false ∧ mentionsCity x = false)
    (hl : mentionsState l = true ∨ mentionsCity l = true) :
    extractLocationLines (pre ++ l :: post) = trim l := by
  induction pre with
  | nil =>
    rw [List.nil_append, extractLocationLines_cons]
    rcases hl with h | h <;> simp [h]
  | cons a pre ih =>
    obtain ⟨h1, h2⟩ := hpre a (by simp)
    rw [List.cons_append, extractLocationLines_cons, h1, h2]
    exact ih (fun x hx => hpre x (by simp [hx]))

theorem extractLocationLines_eq_nil_iff (ls : List Str) :
    extractLocationLines ls = [] ↔
      ∀ x ∈ ls, mentionsState x = false ∧ mentionsCity x = false := by
  induction ls with
  | nil => simp [extractLocationLines]
  | cons a ls ih =>
    rw [extractLocationLines_cons]
    by_cases h : (mentionsState a || mentionsCity a) = true
    · rw [if_pos h]
      constructor
      · intro e
        exfalso
        rcases Bool.or_eq_true_iff.mp h with h1 | h1
        · rw [← mentionsState_trim] at h1
          exact ne_nil_of_any_includes states states_solid _ h1 e
        · rw [← mentionsCity_trim] at h1
          exact ne_nil_of_any_includes cities cities_solid _ h1 e
      · intro hall
        have := hall a (by simp)
        rw [this.1, this.2] at h
        exact absurd h (by simp)
    · rw [if_neg h, ih]
      have h' : mentionsState a = false ∧ mentionsCity a = false := by
        cases hs : mentionsState a <;> cases hc : mentionsCity a <;> simp [hs, hc] at h ⊢
      constructor
      · intro hall x hx
        rcases List.mem_cons.mp hx with e | e
        · rw [e]; exact h'
        · exact hall x e
      · intro hall x hx
        exact hall x (by simp [hx])

/-- C12 (counterexample): in the text with the line `Chicago` before the line `Austin, TX`
the second line contains a state abbreviation and the first contains none, and yet
`extractLocation` returns `Chicago`. -/
theorem location_city_line_before_state_line :
    split '\n' "Chicago\nAustin, TX".toList = ["Chicago".toList, "Austin, TX".toList] ∧
    mentionsState "Austin, TX".toList = true ∧
    mentionsState "Chicago".toList = false ∧
    extractLocation "Chicago\nAustin, TX".toList = "Chicago".toList := by
  decide

/-- C12 (amended): `extractLocation` returns, trimmed, the first line from the top that
contains a state abbreviation or a name of the city list, whichever line comes first; it
returns the empty string exactly when no line contains either. -/
theorem location_first_state_or_city_line (text : Str) :
    (∀ pre l post, split '\n' text = pre ++ l :: post →
      (∀ x ∈ pre, mentionsState x = false ∧ mentionsCity x = false) →
      (mentionsState l = true ∨ mentionsCity l = true) →
      extractLocation text = trim l) ∧
    (extractLocation text = [] ↔
      ∀ x ∈ split '\n' text, mentionsState x = false ∧ mentionsCity x = false) := by
  constructor
  · intro pre l post hs hpre hl
    unfold extractLocation
    rw [hs]
    exact extractLocationLines_first pre l post hpre hl
  · exact extractLocationLines_eq_nil_iff _

/-- Witness for C12: the city line `Chicago` comes before the state line `Austin, TX`. -/
theorem location_first_state_or_city_line_witness :
    extractLocation "John\n Chicago \nAustin, TX".toList = trim " Chicago ".toList :=
  (location_first_state_or_city_line "John\n Chicago \nAustin, TX".toList).1
    ["John".toList] " Chicago ".toList ["Austin, TX".toList] (by decide) (by decide) (by decide)

/-! ## Lower-casing -/

theorem toLower_of_not_upper (c : Char) (h : isUpper c = false) : c.toLower = c := by
  have h1 : ¬ (c.toNat ≥ 65 ∧ c.toNat ≤ 90) := by
    intro ⟨h2, h3⟩
    simp [isUpper, h2, h3] at h
  simp only [Char.toLower, h1, if_false]

theorem upper_ofNat_props :
    ∀ n : Nat, 65 ≤ n → n ≤ 90 →
      isUpper (Char.ofNat (n + 32)) = false ∧ isSpace (Char.ofNat (n + 32)) = false ∧
      isSpace (Char.ofNat n) = false := by
  intro n h1 h2
  interval_cases n <;> decide

theorem toLower_props (c : Char) :
    isUpper c.toLower = false ∧ isSpace c.toLower = isSpace c := by
  by_cases h : c.toNat ≥ 65 ∧ c.toNat ≤ 90
  · obtain ⟨p1, p2, p3⟩ := upper_ofNat_props c.toNat h.1 h.2
    rw [Char.ofNat_toNat] at p3
    simp only [Char.toLower, h, and_self, if_true]
    exact ⟨p1, by rw [p2, p3]⟩
  · have hu : isUpper c = false := by
      simp only [isUpper]
      by_contra hc
      simp at hc
      exact h ⟨hc.1, hc.2⟩
    rw [toLower_of_not_upper c hu]
    exact ⟨hu, rfl⟩

theorem noUpper_iff (s : Str) : noUpper s = true ↔ ∀ c ∈ s, isUpper c = false := by
  simp [noUpper, List.all_eq_true]

theorem map_toLower_of_noUpper (s : Str) (h : noUpper s = true) : s.map Char.toLower = s := by
  rw [noUpper_iff] at h
  induction s with
  | nil => rfl
  | cons c s ih =>
    rw [List.map_cons, toLower_of_not_upper c (h c (by simp)),
      ih (fun x hx => h x (by simp [hx]))]

theorem isSpace_iff (c : Char) : isSpace c = true ↔ c.toNat ∈ spaceCodes := by
  simp only [isSpace, spaceCodes, Bool.or_eq_true, beq_iff_eq, Bool.and_eq_true,
    decide_eq_true_eq, List.mem_cons, List.mem_singleton, List.not_mem_nil, or_false]
  omega

set_option maxRecDepth 100000 in
theorem lowerRuns_images :
    lowerRuns.all (fun r =>
      (r.2.2.2 + (r.2.1 - r.1) < 0xD800 || (0xDFFF < r.2.2.2 && r.2.2.2 + (r.2.1 - r.1) < 0x110000))
      && (r.2.2.2 + (r.2.1 - r.1) < 65 || 90 < r.2.2.2)
      && spaceCodes.all (fun w => w < r.2.2.2 || r.2.2.2 + (r.2.1 - r.1) < w)) = true := by
  decide

set_option maxRecDepth 100000 in
theorem spaceCodes_fixed :
    spaceCodes.all (fun w => lowerCode w == w && !inRanges casedRanges w && w != 0x3A3
      && w != 0x130) = true := by
  decide

theorem toNat_ofNat_of_valid (n : Nat) (h : n < 0xD800 ∨ (0xDFFF < n ∧ n < 0x110000)) :
    (Char.ofNat n).toNat = n := by
  have hv : n.isValidChar := by
    rcases h with h | h
    · exact Or.inl h
    · exact Or.inr h
  simp only [Char.ofNat, hv, dif_pos, Char.ofNatAux]
  rfl

theorem lowerCode_cases (n : Nat) :
    lowerCode n = n ∨
    ∃ r ∈ lowerRuns, r.1 ≤ n ∧ n ≤ r.2.1 ∧ lowerCode n = r.2.2.2 + (n - r.1) := by
  unfold lowerCode
  cases h : lowerRuns.find? (fun r => r.1 ≤ n && n ≤ r.2.1 && (n - r.1) % r.2.2.1 == 0) with
  | none => left; rfl
  | some r =>
    right
    have hp := List.find?_some h
    simp only [Bool.and_eq_true, decide_eq_true_eq] at hp
    exact ⟨r, List.mem_of_find?_eq_some h, hp.1.1, hp.1.2, rfl⟩

/-- The image of a code point in the table is a character that is neither whitespace nor
an upper-case ASCII letter. -/
theorem lowerCode_image (n : Nat) (r : Nat × Nat × Nat × Nat) (hr : r ∈ lowerRuns)
    (h1 : r.1 ≤ n) (h2 : n ≤ r.2.1) :
    isSpace (Char.ofNat (r.2.2.2 + (n - r.1))) = false ∧
    isUpper (Char.ofNat (r.2.2.2 + (n - r.1))) = false := by
  have h := List.all_eq_true.mp lowerRuns_images r hr
  simp only [Bool.and_eq_true, Bool.or_eq_true, decide_eq_true_eq, List.all_eq_true] at h
  obtain ⟨⟨hv, hu⟩, hs⟩ := h
  have hval : (Char.ofNat (r.2.2.2 + (n - r.1))).toNat = r.2.2.2 + (n - r.1) :=
    toNat_ofNat_of_valid _ (by omega)
  constructor
  · cases hsp : isSpace (Char.ofNat (r.2.2.2 + (n - r.1))) with
    | false => rfl
    | true =>
      have hm := (isSpace_iff _).mp hsp
      rw [hval] at hm
      have := hs _ hm
      omega
  · simp only [isUpper, hval]
    cases hu with
    | inl hu => simp; omega
    | inr hu => simp; omega

theorem space_code_facts (c : Char) (h : isSpace c = true) :
    lowerCode c.toNat = c.toNat ∧ isCased c = false ∧ c.toNat ≠ 0x3A3 ∧ c.toNat ≠ 0x130 := by
  have hm := (isSpace_iff c).mp h
  have := List.all_eq_true.mp spaceCodes_fixed _ hm
  simp only [Bool.and_eq_true, beq_iff_eq, Bool.not_eq_true', bne_iff_ne, ne_eq] at this
  exact ⟨this.1.1.1, this.1.1.2, this.1.2, this.2⟩

/-- The lower-case form of a character: whitespace stays, anything else yields characters
that are not whitespace, and no upper-case ASCII letter appears. -/
theorem lowerChar_props (c : Char) :
    (isSpace c = true → lowerChar c = [c]) ∧
    (isSpace c = false → ∀ x ∈ lowerChar c, isSpace x = false) ∧
    (∀ x ∈ lowerChar c, isUpper x = false) ∧ lowerChar c ≠ [] := by
  unfold lowerChar
  by_cases h1 : c.toNat < 0x80
  · simp only [h1, if_true, List.mem_singleton, forall_eq, ne_eq, List.cons_ne_nil,
      not_false_eq_true, and_true]
    refine ⟨?_, ?_, (toLower_props c).1⟩
    · intro hs
      have hu : isUpper c = false := by
        cases hu : isUpper c with
        | false => rfl
        | true =>
          have hm := (isSpace_iff c).mp hs
          simp only [isUpper, Bool.and_eq_true, decide_eq_true_eq] at hu
          simp only [spaceCodes, List.mem_cons, List.mem_singleton, List.not_mem_nil,
            or_false] at hm
          omega
      rw [toLower_of_not_upper c hu]
    · intro hs
      rw [(toLower_props c).2]; exact hs
  · by_cases h2 : c.toNat = 0x130
    · rw [if_neg h1, if_pos h2]
      refine ⟨?_, ?_, by decide, by simp⟩
      · intro hs
        exact absurd h2 (space_code_facts c hs).2.2.2
      · intro _; decide
    · simp only [h1, h2, if_false, List.mem_singleton, forall_eq, ne_eq, List.cons_ne_nil,
        not_false_eq_true, and_true]
      rcases lowerCode_cases c.toNat with h | ⟨r, hr, ha, hb, h⟩
      · rw [h, Char.ofNat_toNat]
        refine ⟨fun _ => rfl, fun hs => hs, ?_⟩
        simp only [isUpper]
        simp
        omega
      · rw [h]
        obtain ⟨p1, p2⟩ := lowerCode_image c.toNat r hr ha hb
        refine ⟨?_, fun _ => p1, p2⟩
        intro hs
        have := (space_code_facts c hs).1
        rw [h] at this
        rw [this, Char.ofNat_toNat]

theorem lowerAt_props (b a : Str) (c : Char) :
    (isSpace c = true → lowerAt b a c = [c]) ∧
    (isSpace c = false → ∀ x ∈ lowerAt b a c, isSpace x = false) ∧
    (∀ x ∈ lowerAt b a c, isUpper x = false) ∧ lowerAt b a c ≠ [] := by
  unfold lowerAt
  by_cases h : c.toNat = 0x3A3
  · simp only [h, if_true]
    refine ⟨fun hs => absurd h (space_code_facts c hs).2.2.1, ?_, ?_, ?_⟩
    · intro _ x hx
      split at hx <;> (simp only [List.mem_singleton] at hx; subst hx; decide)
    · intro x hx
      split at hx <;> (simp only [List.mem_singleton] at hx; subst hx; decide)
    · split <;> simp
  · simp only [h, if_false]
    exact lowerChar_props c

/-- No upper-case ASCII letter is left after lower-casing. -/
theorem mem_lowerFrom (s : Str) : ∀ b : Str, ∀ x ∈ lowerFrom b s, isUpper x = false := by
  induction s with
  | nil => intro b x hx; simp [lowerFrom] at hx
  | cons c cs ih =>
    intro b x hx
    simp only [lowerFrom, List.mem_append] at hx
    rcases hx with hx | hx
    · exact (lowerAt_props b cs c).2.2.1 x hx
    · exact ih _ x hx

theorem casedNext_spaces (w : Str) (hw : ∀ c ∈ w, isSpace c = true) : casedNext w = false := by
  induction w with
  | nil => rfl
  | cons c w ih =>
    simp only [casedNext]
    split
    · exact ih (fun x hx => hw x (by simp [hx]))
    · exact (space_code_facts c (hw c (by simp))).2.1

theorem casedNext_append_spaces (a w : Str) (hw : ∀ c ∈ w, isSpace c = true) :
    casedNext (a ++ w) = casedNext a := by
  induction a with
  | nil => simpa [casedNext] using casedNext_spaces w hw
  | cons c a ih =>
    simp only [List.cons_append, casedNext, List.append_eq, ih]

theorem lowerAt_append_spaces (b a w v : Str) (c : Char) (hw : ∀ x ∈ w, isSpace x = true)
    (hv : ∀ x ∈ v, isSpace x = true) : lowerAt (b ++ w) (a ++ v) c = lowerAt b a c := by
  simp only [lowerAt, casedNext_append_spaces b w hw, casedNext_append_spaces a v hv]

theorem lowerFrom_spaces (w : Str) (hw : ∀ x ∈ w, isSpace x = true) :
    ∀ b, lowerFrom b w = w := by
  induction w with
  | nil => intro b; rfl
  | cons c w ih =>
    intro b
    simp only [lowerFrom, (lowerAt_props b w c).1 (hw c (by simp)),
      ih (fun x hx => hw x (by simp [hx])), List.singleton_append]

/-- Whitespace around a text does not change how the text is lower-cased. -/
theorem lowerFrom_context (s w v : Str) (hw : ∀ x ∈ w, isSpace x = true)
    (hv : ∀ x ∈ v, isSpace x = true) :
    ∀ b, lowerFrom (b ++ w) (s ++ v) = lowerFrom b s ++ v := by
  induction s with
  | nil => intro b; simpa [lowerFrom] using lowerFrom_spaces v hv (b ++ w)
  | cons c cs ih =>
    intro b
    simp only [List.cons_append, lowerFrom, List.append_assoc, List.append_eq]
    rw [lowerAt_append_spaces b cs w v c hw hv]
    have := ih (c :: b)
    simp only [List.cons_append] at this
    rw [this]

theorem lowerFrom_lead (w s : Str) (hw : ∀ x ∈ w, isSpace x = true) :
    ∀ b, lowerFrom b (w ++ s) = w ++ lowerFrom (w.reverse ++ b) s := by
  induction w with
  | nil => intro b; rfl
  | cons c w ih =>
    intro b
    simp only [List.cons_append, lowerFrom, List.append_eq,
      (lowerAt_props b (w ++ s) c).1 (hw c (by simp)), List.singleton_append,
      ih (fun x hx => hw x (by simp [hx])), List.reverse_cons, List.append_assoc,
      List.nil_append]

theorem lowerFrom_head (s : Str) (c : Char) (hs : s.head? = some c) (hc : isSpace c = false) :
    ∀ x, (lowerFrom [] s).head? = some x → isSpace x = false := by
  cases s with
  | nil => simp at hs
  | cons d cs =>
    simp only [List.head?_cons, Option.some.injEq] at hs
    subst hs
    intro x hx
    obtain ⟨_, p2, _, p4⟩ := lowerAt_props [] cs d
    simp only [lowerFrom] at hx
    cases hl : lowerAt [] cs d with
    | nil => exact absurd hl p4
    | cons y ys =>
      rw [hl] at hx
      simp only [List.cons_append, List.head?_cons, Option.some.injEq] at hx
      subst hx
      exact p2 hc y (by rw [hl]; simp)

theorem lowerFrom_last (s : Str) :
    ∀ b c, s.getLast? = some c → isSpace c = false →
      ∀ x, (lowerFrom b s).getLast? = some x → isSpace x = false := by
  induction s with
  | nil => intro b c hs; simp at hs
  | cons d cs ih =>
    intro b c hs hc x hx
    simp only [lowerFrom] at hx
    cases cs with
    | nil =>
      simp only [List.getLast?_singleton, Option.some.injEq] at hs
      subst hs
      simp only [lowerFrom, List.append_nil] at hx
      obtain ⟨_, p2, _, _⟩ := lowerAt_props b [] d
      exact p2 hc x (List.mem_of_getLast?_eq_some hx)
    | cons e es =>
      have hs2 : (e :: es).getLast? = some c := by
        rw [List.getLast?_cons_cons] at hs; exact hs
      have hne : lowerFrom (d :: b) (e :: es) ≠ [] := by
        simp only [lowerFrom]
        intro h
        have := (lowerAt_props (d :: b) es e).2.2.2
        exact this (List.append_eq_nil.mp h).1
      rw [List.getLast?_append_of_ne_nil _ hne] at hx
      exact ih (d :: b) c hs2 hc x hx

theorem noUpper_toLowerCase (s : Str) : noUpper (toLowerCase s) = true := by
  rw [noUpper_iff]
  exact mem_lowerFrom s []

theorem noUpper_of_part (s t : Str) (h : t <:+: s) (hs : noUpper s = true) :
    noUpper t = true := by
  rw [noUpper_iff] at hs ⊢
  exact fun c hc => hs c (h.subset hc)

theorem noUpper_trim_toLowerCase (l : Str) : noUpper (trim (toLowerCase l)) = true :=
  noUpper_of_part _ _ (trim_part _) (noUpper_toLowerCase l)

/-- A text is its leading whitespace, its trimmed form and its trailing whitespace. -/
theorem trim_decompose (l : Str) :
    ∃ w v, l = w ++ trim l ++ v ∧ (∀ x ∈ w, isSpace x = true) ∧ (∀ x ∈ v, isSpace x = true) := by
  refine ⟨l.takeWhile isSpace, ((l.dropWhile isSpace).reverse.takeWhile isSpace).reverse,
    ?_, fun x hx => (List.mem_takeWhile_imp hx), ?_⟩
  · have h1 : l.dropWhile isSpace
        = (l.dropWhile isSpace).rdropWhile isSpace
          ++ ((l.dropWhile isSpace).reverse.takeWhile isSpace).reverse := by
      unfold List.rdropWhile
      rw [← List.reverse_append, List.takeWhile_append_dropWhile, List.reverse_reverse]
    unfold trim
    rw [List.append_assoc, ← h1, List.takeWhile_append_dropWhile]
  · intro x hx
    exact List.mem_takeWhile_imp (List.mem_reverse.mp hx)

theorem trim_of_spaces (w : Str) (hw : ∀ x ∈ w, isSpace x = true) : trim w = [] := by
  unfold trim
  have : w.dropWhile isSpace = [] := by
    rw [List.dropWhile_eq_nil_iff]; exact hw
  rw [this]; rfl

theorem trim_spaces_around (w k v : Str) (hw : ∀ x ∈ w, isSpace x = true)
    (hv : ∀ x ∈ v, isSpace x = true) (hk : Trimmed k) : trim (w ++ k ++ v) = k := by
  by_cases hne : k = []
  · subst hne
    rw [List.append_nil]
    exact trim_of_spaces _ (fun x hx => by
      rcases List.mem_append.mp hx with h | h
      · exact hw x h
      · exact hv x h)
  · rw [trim_around w k v hne hk]
    have h1 : w.dropWhile isSpace = [] := by
      rw [List.dropWhile_eq_nil_iff]; exact hw
    have h2 : v.rdropWhile isSpace = [] := by
      unfold List.rdropWhile
      have : v.reverse.dropWhile isSpace = [] := by
        rw [List.dropWhile_eq_nil_iff]
        exact fun x hx => hv x (List.mem_reverse.mp hx)
      rw [this]; rfl
    rw [h1, h2]; simp

theorem trimmed_lowerFrom (k : Str) (hk : Trimmed k) : Trimmed (lowerFrom [] k) := by
  constructor
  · intro x hx
    cases k with
    | nil => simp [lowerFrom] at hx
    | cons c cs => exact lowerFrom_head (c :: cs) c rfl (hk.1 c rfl) x hx
  · intro x hx
    cases hl : k.getLast? with
    | none =>
      have : k = [] := List.getLast?_eq_none_iff.mp hl
      subst this
      simp [lowerFrom] at hx
    | some c => exact lowerFrom_last k [] c hl (hk.2 c hl) x hx

/-- Lower-casing and trimming commute. -/
theorem trim_toLowerCase (l : Str) : trim (toLowerCase l) = toLowerCase (trim l) := by
  obtain ⟨w, v, hl, hw, hv⟩ := trim_decompose l
  have h1 : toLowerCase l = w ++ lowerFrom [] (trim l) ++ v := by
    unfold toLowerCase
    conv_lhs => rw [hl]
    rw [List.append_assoc, lowerFrom_lead w _ hw]
    have := lowerFrom_context (trim l) w.reverse v
      (fun x hx => hw x (List.mem_reverse.mp hx)) hv []
    simp only [List.nil_append] at this
    rw [List.append_nil, this, List.append_assoc]
  rw [h1, trim_spaces_around w _ v hw hv (trimmed_lowerFrom _ (trimmed_trim l))]
  rfl

theorem lowerFrom_ascii (s : Str) (hs : ∀ c ∈ s, c.toNat < 0x80) :
    ∀ b, lowerFrom b s = s.map Char.toLower := by
  induction s with
  | nil => intro b; rfl
  | cons c cs ih =>
    intro b
    have hc := hs c (by simp)
    have h3 : c.toNat ≠ 0x3A3 := by omega
    simp only [lowerFrom, lowerAt, lowerChar, h3, hc, if_true, if_false,
      ih (fun x hx => hs x (by simp [hx])), List.map_cons, List.singleton_append]

/-- On ASCII text lower-casing maps each character by itself. -/
theorem toLowerCase_ascii (s : Str) (hs : ∀ c ∈ s, c.toNat < 0x80) :
    toLowerCase s = s.map Char.toLower := lowerFrom_ascii s hs []

theorem toLower_ascii (c : Char) (h : c.toLower.toNat < 0x80) : c.toNat < 0x80 := by
  by_cases hu : isUpper c = true
  · simp only [isUpper, Bool.and_eq_true, decide_eq_true_eq] at hu
    omega
  · rw [toLower_of_not_upper c (by simpa using hu)] at h
    exact h

set_option maxRecDepth 100000 in
/-- The lower-casing of the model on a sample with the Kelvin sign, the dotted capital I,
a final and a non-final sigma. -/
theorem toLowerCase_sample :
    toLowerCase "WOR\u212A \u0130 \u039F\u0394\u039F\u03A3 \u03A3 \u00C9 A\u03A3.".toList
      = "work i\u0307 \u03BF\u03B4\u03BF\u03C2 \u03C3 \u00E9 a\u03C2.".toList := by
  decide

/-! ## The keyword test (claim C13) -/

theorem litI_cons (c : Char) (k : Str) :
    Re.litI (c :: k) = Re.seq (Re.cls (fun x => x.toLower == c.toLower)) (Re.litI k) := rfl

/-- A literal under the `i` flag matches a text that equals it up to letter case. -/
theorem litI_sem (k : Str) :
    ∀ (prev prev1 : Option Char) (s s1 : Str), Re.Sem (Re.litI k) prev s prev1 s1 →
      ∃ m, s = m ++ s1 ∧ m.map Char.toLower = k.map Char.toLower := by
  induction k with
  | nil =>
    intro prev prev1 s s1 h
    obtain ⟨_, e⟩ := Re.Sem.eps_inv h
    exact ⟨[], by rw [e]; rfl, rfl⟩
  | cons c k ih =>
    intro prev prev1 s s1 h
    rw [litI_cons] at h
    obtain ⟨p2, s2, h1, h2⟩ := Re.Sem.seq_inv h
    obtain ⟨d, hd, hdc, _⟩ := Re.Sem.cls_inv h1
    obtain ⟨m, hm, hmk⟩ := ih _ _ _ _ h2
    refine ⟨d :: m, by rw [hd, hm, List.cons_append], ?_⟩
    have : d.toLower = c.toLower := by simpa using hdc
    rw [List.map_cons, List.map_cons, this, hmk]

/-- On a lower-cased line, a lower-case keyword that matches between word boundaries is
contained in the line. -/
theorem includes_of_keywordRegex (k line : Str) (hk : noUpper k = true)
    (hl : noUpper line = true) (h : test (keywordRegex k) line = true) :
    includes line k = true := by
  obtain ⟨pre, suf, hs, hm⟩ := (test_eq_true_iff _ _).mp h
  obtain ⟨p1, s1, hsem⟩ := (Re.matchAt_isSome_iff _ _ _).mp hm
  simp only [keywordRegex, Re.cat, List.foldr] at hsem
  obtain ⟨p2, s2, hb, hrest⟩ := Re.Sem.seq_inv hsem
  obtain ⟨_, e2, _⟩ := Re.Sem.wordB_inv hb
  obtain ⟨p3, s3, hlit, _⟩ := Re.Sem.seq_inv hrest
  obtain ⟨m, hm1, hm2⟩ := litI_sem k _ _ _ _ hlit
  have hmu : noUpper m = true :=
    noUpper_of_part line m ⟨pre, s3, by rw [hs, ← e2, hm1, List.append_assoc]⟩ hl
  rw [map_toLower_of_noUpper m hmu, map_toLower_of_noUpper k hk] at hm2
  rw [includes_iff]
  exact ⟨pre, s3, by rw [hs, ← e2, hm1, hm2, List.append_assoc]⟩

/-- For lower-case keywords and a lower-cased line the three-way test of `extractSection`
is substring containment. -/
theorem keywordMatch_eq_any_includes (keywords : List Str)
    (hk : ∀ k ∈ keywords, noUpper k = true) (line : Str) (hl : noUpper line = true) :
    keywordMatch keywords line = keywords.any (fun k => includes line k) := by
  unfold keywordMatch
  induction keywords with
  | nil => rfl
  | cons k ks ih =>
    simp only [List.any_cons]
    rw [ih (fun x hx => hk x (by simp [hx]))]
    congr 1
    cases hin : includes line k with
    | true => simp
    | false =>
      have h1 : (line == k) = false := by
        by_contra he
        have he : line = k := by simpa using he
        rw [he, includes_self] at hin
        exact absurd hin (by simp)
      have h2 : test (keywordRegex k) line = false := by
        by_contra ht
        have ht : test (keywordRegex k) line = true := by simpa using ht
        rw [includes_of_keywordRegex k line (hk k (by simp)) hl ht] at hin
        exact absurd hin (by simp)
      simp [h1, h2]

theorem findLine_eq_none_iff (p : Str → Bool) :
    ∀ (l : List Str) (i : Nat), findLine p l i = none ↔ ∀ x ∈ l, p x = false := by
  intro l
  induction l with
  | nil => intro i; simp [findLine]
  | cons a l ih =>
    intro i
    by_cases ha : p a = true
    · simp [findLine, ha]
    · have ha' : p a = false := by simpa using ha
      simp only [findLine, ha, List.mem_cons, forall_eq_or_imp, ha', true_and]
      exact ih (i + 1)

/-- The index found by a line loop: the first line that passes the test. -/
theorem findLine_eq_some_iff (p : Str → Bool) :
    ∀ (l : List Str) (i a : Nat), findLine p l i = some a ↔
      i ≤ a ∧ (∃ x, l[a - i]? = some x ∧ p x = true) ∧
      ∀ j x, j < a - i → l[j]? = some x → p x = false := by
  intro l
  induction l with
  | nil => intro i a; simp [findLine]
  | cons y l ih =>
    intro i a
    by_cases hy : p y = true
    · simp only [findLine, hy, if_true, Option.some.injEq]
      constructor
      · intro e
        subst e
        exact ⟨le_refl _, ⟨y, by simp, hy⟩, fun j x hj => by omega⟩
      · rintro ⟨h1, _, h3⟩
        by_contra hne
        have hpos : 0 < a - i := by omega
        have := h3 0 y hpos (by simp)
        rw [hy] at this
        exact absurd this (by simp)
    · have hy' : p y = false := by simpa using hy
      simp only [findLine, hy]
      rw [show (if false = true then some i else findLine p l (i + 1)) = findLine p l (i + 1)
        from rfl, ih (i + 1) a]
      constructor
      · rintro ⟨h1, ⟨x, hx, hpx⟩, h3⟩
        refine ⟨by omega, ⟨x, ?_, hpx⟩, ?_⟩
        · have e : a - i = (a - (i + 1)) + 1 := by omega
          rw [e, List.getElem?_cons_succ]
          exact hx
        · intro j z hj hz
          cases j with
          | zero =>
            simp only [List.getElem?_cons_zero, Option.some.injEq] at hz
            rw [← hz]; exact hy'
          | succ j =>
            rw [List.getElem?_cons_succ] at hz
            exact h3 j z (by omega) hz
      · rintro ⟨h1, ⟨x, hx, hpx⟩, h3⟩
        have hne : a ≠ i := by
          intro e
          subst e
          simp only [Nat.sub_self, List.getElem?_cons_zero, Option.some.injEq] at hx
          rw [← hx, hy'] at hpx
          exact absurd hpx (by simp)
        refine ⟨by omega, ⟨x, ?_, hpx⟩, ?_⟩
        · have e : a - i = (a - (i + 1)) + 1 := by omega
          rw [e, List.getElem?_cons_succ] at hx
          exact hx
        · intro j z hj hz
          exact h3 (j + 1) z (by omega) (by rw [List.getElem?_cons_succ]; exact hz)

theorem fixed_keywords_noUpper (keywords : List Str)
    (hk : keywords ∈ [experienceKeywords, educationKeywords, skillsKeywords, summaryKeywords]) :
    ∀ k ∈ keywords, noUpper k = true := by
  simp only [List.mem_cons, List.mem_singleton, List.not_mem_nil, or_false] at hk
  rcases hk with h | h | h | h <;> subst h <;> decide

theorem extractSection_of_no_start (text : Str) (keywords : List Str)
    (h : findSectionStart keywords (split '\n' text) = none) :
    extractSection text keywords = .ok [] := by
  simp only [extractSection, h]

/-- C13: in `extractSection` a line matches a keyword list when its lower-cased trimmed
form equals a keyword, contains one, or matches one between word boundaries; for the four
fixed keyword lists this test is the same as substring containment in the lower-cased
trimmed line. The section start is the first line that matches, and when no line matches
the section body is the empty string. -/
theorem keyword_test_is_containment (keywords : List Str)
    (hk : keywords ∈ [experienceKeywords, educationKeywords, skillsKeywords, summaryKeywords])
    (text : Str) :
    (∀ line, keywordMatch keywords line = keywords.any (fun k =>
      line == k || includes line k || test (keywordRegex k) line)) ∧
    (∀ l, keywordMatch keywords (trim (toLowerCase l))
      = keywords.any (fun k => includes (trim (toLowerCase l)) k)) ∧
    (∀ a, findSectionStart keywords (split '\n' text) = some a ↔
      (∃ l, (split '\n' text)[a]? = some l ∧
        keywords.any (fun k => includes (trim (toLowerCase l)) k) = true) ∧
      ∀ j l, j < a → (split '\n' text)[j]? = some l →
        keywords.any (fun k => includes (trim (toLowerCase l)) k) = false) ∧
    ((∀ l ∈ split '\n' text, keywords.any (fun k => includes (trim (toLowerCase l)) k) = false) →
      extractSection text keywords = .ok []) := by
  have hlow := fixed_keywords_noUpper keywords hk
  have heq : ∀ l, keywordMatch keywords (trim (toLowerCase l))
      = keywords.any (fun k => includes (trim (toLowerCase l)) k) :=
    fun l => keywordMatch_eq_any_includes keywords hlow _ (noUpper_trim_toLowerCase l)
  refine ⟨fun _ => rfl, heq, ?_, ?_⟩
  · intro a
    unfold findSectionStart
    rw [findLine_eq_some_iff]
    simp only [Nat.sub_zero, Nat.zero_le, true_and, heq]
  · intro hall
    apply extractSection_of_no_start
    unfold findSectionStart
    rw [findLine_eq_none_iff]
    intro x hx
    rw [heq]
    exact hall x hx

/-- Witness for C13: no line of the text contains a keyword of the skills list. -/
theorem keyword_test_is_containment_witness :
    extractSection "John Smith\nLondon".toList skillsKeywords = .ok [] :=
  (keyword_test_is_containment skillsKeywords (by simp) "John Smith\nLondon".toList).2.2.2
    (by decide)

/-! ## The end of a section (claim C14) -/

theorem any_eq_or_includes (keys : List Str) (line : Str) :
    keys.any (fun k => line == k || includes line k) = keys.any (fun k => includes line k) := by
  induction keys with
  | nil => rfl
  | cons k ks ih =>
    simp only [List.any_cons, ih]
    congr 1
    cases hin : includes line k with
    | true => simp
    | false =>
      have h1 : (line == k) = false := by
        by_contra he
        have he : line = k := by simpa using he
        rw [he, includes_self] at hin
        exact absurd hin (by simp)
      simp [h1]

theorem isNextSection_eq (keywords : List Str) (l : Str) :
    isNextSection keywords (trim (toLowerCase l)) = endsSection keywords l := by
  unfold isNextSection endsSection
  cases hk : keywords.any (fun k => includes (trim (toLowerCase l)) k) with
  | true =>
    simp only [if_true, Bool.not_true, Bool.false_and]
    induction majorSections with
    | nil => rfl
    | cons m ms ih => simp only [List.any_cons, ih, Bool.or_self]
  | false =>
    simp only [Bool.false_eq_true, if_false, Bool.not_false, Bool.true_and]
    exact any_eq_or_includes majorSections _

theorem slice_cons (xs : List Str) (a b : Nat) (x : Str) (hx : xs[a]? = some x) (hab : a < b) :
    slice xs a b = x :: slice xs (a + 1) b := by
  have hlen : a < xs.length := by
    by_contra h
    rw [List.getElem?_eq_none (by omega)] at hx
    exact absurd hx (by simp)
  have h1 : (xs.take b)[a]? = some x := by
    rw [List.getElem?_take_of_lt hab]; exact hx
  have h2 : a < (xs.take b).length := by
    rw [List.length_take]; omega
  unfold slice
  rw [List.drop_eq_getElem_cons h2]
  congr 1
  have := List.getElem?_eq_getElem h2
  rw [h1] at this
  exact (Option.some.inj this).symm

theorem findSectionEnd_eq_some_iff (keywords : List Str) (lines : List Str) (a e : Nat) :
    findSectionEnd keywords lines a = some e ↔
      a < e ∧ (∃ l, lines[e]? = some l ∧ endsSection keywords l = true) ∧
      ∀ j x, a < j → j < e → lines[j]? = some x → endsSection keywords x = false := by
  unfold findSectionEnd
  rw [findLine_eq_some_iff]
  simp only [isNextSection_eq, List.getElem?_drop]
  constructor
  · rintro ⟨h1, ⟨x, hx, hpx⟩, h3⟩
    refine ⟨by omega, ⟨x, ?_, hpx⟩, ?_⟩
    · rw [← hx]; congr 1; omega
    · intro j z hj1 hj2 hz
      apply h3 (j - (a + 1)) z (by omega)
      rw [← hz]; congr 1; omega
  · rintro ⟨h1, ⟨x, hx, hpx⟩, h3⟩
    refine ⟨by omega, ⟨x, ?_, hpx⟩, ?_⟩
    · rw [← hx]; congr 1; omega
    · intro j z hj hz
      exact h3 (a + 1 + j) z (by omega) (by omega) hz

theorem findSectionEnd_eq_none_iff (keywords : List Str) (lines : List Str) (a : Nat) :
    findSectionEnd keywords lines a = none ↔
      ∀ j x, a < j → lines[j]? = some x → endsSection keywords x = false := by
  unfold findSectionEnd
  rw [findLine_eq_none_iff]
  simp only [isNextSection_eq]
  constructor
  · intro h j x hj hx
    apply h x
    rw [List.mem_iff_getElem?]
    exact ⟨j - (a + 1), by rw [List.getElem?_drop, ← hx]; congr 1; omega⟩
  · intro h x hx
    obtain ⟨n, hn⟩ := List.mem_iff_getElem?.mp hx
    rw [List.getElem?_drop] at hn
    exact h (a + 1 + n) x (by omega) hn

/-- For lower-case keywords the header line is always removed: the body of a section that
starts at line `a` is the trimmed join of the lines after `a` and before the end line. -/
theorem extractSection_of_start (text : Str) (keywords : List Str)
    (hlow : ∀ k ∈ keywords, noUpper k = true) (a : Nat)
    (hstart : findSectionStart keywords (split '\n' text) = some a) :
    extractSection text keywords = .ok (trim (join '\n' (slice (split '\n' text) (a + 1)
      (match findSectionEnd keywords (split '\n' text) a with
       | none => (split '\n' text).length
       | some e => e)))) := by
  have hs := hstart
  unfold findSectionStart at hs
  rw [findLine_eq_some_iff] at hs
  obtain ⟨_, ⟨l, hl, hmatch⟩, _⟩ := hs
  simp only [Nat.sub_zero] at hl
  have hlen : a < (split '\n' text).length := by
    by_contra h
    rw [List.getElem?_eq_none (by omega)] at hl
    exact absurd hl (by simp)
  have hhead : (keywords.any fun k => includes (toLowerCase (trim l)) k) = true := by
    rw [← trim_toLowerCase,
      ← keywordMatch_eq_any_includes keywords hlow _ (noUpper_trim_toLowerCase l)]
    exact hmatch
  cases he : findSectionEnd keywords (split '\n' text) a with
  | none =>
    simp only [extractSection, hstart, sectionLinesOf, he]
    rw [slice_cons _ _ _ l hl hlen]
    simp only [sectionTextOf, hhead, if_true, List.drop_one, List.tail_cons]
  | some e =>
    have hae := ((findSectionEnd_eq_some_iff _ _ _ _).mp he).1
    simp only [extractSection, hstart, sectionLinesOf, he]
    rw [slice_cons _ _ _ l hl hae]
    simp only [sectionTextOf, hhead, if_true, List.drop_one, List.tail_cons]

theorem slice_length_eq_drop (xs : List Str) (a : Nat) : slice xs a xs.length = xs.drop a := by
  simp [slice]

/-- C14 (counterexample): after the start line `Experience`, the line
`Work and Education` contains the master keyword `education`, which is not a keyword of
the experience section, and yet the body runs through that line to the end of the text,
because the line also contains the section keyword `work`. -/
theorem section_runs_past_mixed_line :
    (split '\n' "Experience\nBuilt things\nWork and Education\nMore".toList)[2]?
      = some "Work and Education".toList ∧
    includes (trim (toLowerCase "Work and Education".toList)) "education".toList = true ∧
    "education".toList ∈ majorSections ∧ "education".toList ∉ experienceKeywords ∧
    findSectionStart experienceKeywords
      (split '\n' "Experience\nBuilt things\nWork and Education\nMore".toList) = some 0 ∧
    extractExperience "Experience\nBuilt things\nWork and Education\nMore".toList
      = .ok "Built things\nWork and Education\nMore".toList :=
  ⟨by decide, by decide, by decide, by decide, by decide, rfl⟩

/-- C14 (amended): for each of the four body extractors and every text with a start line
`a`, the section ends (exclusive) at the first line after `a` whose lower-cased trimmed form
contains a keyword of the master list and contains no keyword of the current section: the
body is the trimmed join of the lines after `a` and before that line, and it runs to the
end of the text exactly when there is no such line. -/
theorem section_end_line (keywords : List Str)
    (hk : keywords ∈ [experienceKeywords, educationKeywords, skillsKeywords, summaryKeywords])
    (text : Str) (a : Nat) (hstart : findSectionStart keywords (split '\n' text) = some a) :
    (∀ e l, a < e → (split '\n' text)[e]? = some l → endsSection keywords l = true →
      (∀ j x, a < j → j < e → (split '\n' text)[j]? = some x → endsSection keywords x = false) →
      extractSection text keywords
        = .ok (trim (join '\n' (slice (split '\n' text) (a + 1) e)))) ∧
    ((∀ j x, a < j → (split '\n' text)[j]? = some x → endsSection keywords x = false) →
      extractSection text keywords = .ok (trim (join '\n' ((split '\n' text).drop (a + 1))))) ∧
    extractSummary text = extractSection text summaryKeywords ∧
    extractExperience text = extractSection text experienceKeywords ∧
    extractEducation text = extractSection text educationKeywords ∧
    extractSkills text = extractSection text skillsKeywords := by
  have hlow := fixed_keywords_noUpper keywords hk
  have hbody := extractSection_of_start text keywords hlow a hstart
  refine ⟨?_, ?_, rfl, rfl, rfl, rfl⟩
  · intro e l hae hl hend hbefore
    have he : findSectionEnd keywords (split '\n' text) a = some e :=
      (findSectionEnd_eq_some_iff _ _ _ _).mpr ⟨hae, ⟨l, hl, hend⟩, hbefore⟩
    rw [hbody, he]
  · intro hnone
    have he : findSectionEnd keywords (split '\n' text) a = none :=
      (findSectionEnd_eq_none_iff _ _ _).mpr hnone
    rw [hbody, he]
    simp only [slice_length_eq_drop]

/-- Witness for C14: the experience section of a text that goes on with `Education`. -/
theorem section_end_line_witness :
    extractSection "Experience\nBuilt things\nEducation\nMIT".toList experienceKeywords
      = .ok (trim (join '\n'
          (slice (split '\n' "Experience\nBuilt things\nEducation\nMIT".toList) (0 + 1) 2))) :=
  (section_end_line experienceKeywords (by simp)
    "Experience\nBuilt things\nEducation\nMIT".toList 0 (by decide)).1
    2 "Education".toList (by decide) (by decide) (by decide)
    (by
      intro j x h1 h2 hx
      have hj : j = 1 := by omega
      subst hj
      have hs : (split '\n' "Experience\nBuilt things\nEducation\nMIT".toList)[1]?
          = some "Built things".toList := by decide
      rw [hs] at hx
      rw [← Option.some.inj hx]
      decide)

/-! ## Section bodies are parts of the text (claim C15) -/

theorem join_singleton (sep : Char) (a : Str) : join sep [a] = a := by
  simp [join, List.intercalate, List.intersperse]

theorem join_cons_cons (sep : Char) (a b : Str) (xs : List Str) :
    join sep (a :: b :: xs) = a ++ sep :: join sep (b :: xs) := by
  simp [join, List.intercalate, List.intersperse]

theorem join_cons_of_ne_nil (sep : Char) (a : Str) (xs : List Str) (h : xs ≠ []) :
    join sep (a :: xs) = a ++ sep :: join sep xs := by
  cases xs with
  | nil => exact absurd rfl h
  | cons b xs => exact join_cons_cons sep a b xs

/-- Splitting a text at a separator and joining the pieces with it gives the text back. -/
theorem join_split (sep : Char) (s : Str) : join sep (split sep s) = s := by
  induction s with
  | nil => simp [split, join_singleton]
  | cons c cs ih =>
    by_cases h : c = sep
    · subst h
      simp only [split, if_true]
      rw [join_cons_of_ne_nil _ _ _ (split_ne_nil _ _), ih]
      rfl
    · cases hs : split sep cs with
      | nil => exact absurd hs (split_ne_nil _ _)
      | cons l ls =>
        rw [hs] at ih
        simp only [split, h, if_false, hs]
        cases ls with
        | nil =>
          rw [join_singleton] at ih ⊢
          rw [ih]
        | cons l2 ls =>
          rw [join_cons_cons] at ih ⊢
          rw [← ih]
          rfl

theorem join_append_right_part (sep : Char) (a b : List Str) :
    join sep b <:+: join sep (a ++ b) := by
  induction a with
  | nil => exact List.infix_rfl
  | cons x a ih =>
    by_cases h : a ++ b = []
    · have hb : b = [] := (List.append_eq_nil.mp h).2
      subst hb
      exact List.nil_infix
    · rw [List.cons_append, join_cons_of_ne_nil _ _ _ h]
      exact ih.trans ⟨x ++ [sep], [], by simp⟩

theorem join_append_left_part (sep : Char) (a b : List Str) :
    ∃ v, join sep a ++ v = join sep (a ++ b) := by
  induction a with
  | nil => exact ⟨_, rfl⟩
  | cons x a ih =>
    cases a with
    | nil =>
      rw [join_singleton]
      cases b with
      | nil => exact ⟨[], by rw [List.append_nil, List.append_nil, join_singleton]⟩
      | cons y b =>
        rw [List.singleton_append, join_cons_cons]
        exact ⟨sep :: join sep (y :: b), rfl⟩
    | cons y a =>
      rw [List.cons_append, List.cons_append, join_cons_cons, join_cons_cons]
      obtain ⟨v, hv⟩ := ih
      rw [List.cons_append] at hv
      refine ⟨v, ?_⟩
      rw [← hv]
      simp

/-- The join of a run of consecutive lines is a part of the join of all lines. -/
theorem join_part (sep : Char) (m xs : List Str) (h : m <:+: xs) :
    join sep m <:+: join sep xs := by
  obtain ⟨p, q, rfl⟩ := h
  rw [List.append_assoc]
  obtain ⟨v, hv⟩ := join_append_left_part sep m q
  exact List.IsInfix.trans ⟨[], v, by rw [List.nil_append, hv]⟩
    (join_append_right_part sep p (m ++ q))

theorem slice_part (xs : List Str) (a b : Nat) : slice xs a b <:+: xs :=
  List.IsInfix.trans (List.IsSuffix.isInfix ( List.drop_suffix a (xs.take b)))
    (List.IsPrefix.isInfix ( List.take_prefix b xs))

/-- The body returned by `extractSection` is a contiguous part of the text. -/
theorem extractSection_part (text : Str) (keywords : List Str) (body : Str)
    (h : extractSection text keywords = .ok body) : body <:+: text := by
  unfold extractSection at h
  cases hs : findSectionStart keywords (split '\n' text) with
  | none =>
    rw [hs] at h
    cases h
    exact List.nil_infix
  | some a =>
    rw [hs] at h
    simp only at h
    have hlines : sectionLinesOf keywords (split '\n' text) a <:+: split '\n' text := by
      unfold sectionLinesOf
      exact slice_part _ _ _
    have key : ∀ m : List Str, m <:+: sectionLinesOf keywords (split '\n' text) a →
        trim (join '\n' m) <:+: text := by
      intro m hm
      have h1 := join_part '\n' m _ (hm.trans hlines)
      rw [join_split] at h1
      exact (trim_part _).trans h1
    cases hl : sectionLinesOf keywords (split '\n' text) a with
    | nil =>
      rw [hl] at h
      simp [sectionTextOf] at h
    | cons first rest =>
      rw [hl] at h key
      unfold sectionTextOf at h
      simp only at h
      split at h
      · cases h
        exact key _ (List.IsSuffix.isInfix ( List.drop_suffix 1 (first :: rest)))
      · cases h
        exact key _ List.infix_rfl

theorem extractResumeData_fields (t : Str) (r : ResumeData)
    (h : extractResumeData t = .ok r) :
    r.rawText = normalize t ∧
    r.personalInfo = extractPersonalInfo r.rawText ∧
    extractExperience r.rawText = .ok r.experience ∧
    extractEducation r.rawText = .ok r.education ∧
    extractSkills r.rawText = .ok r.skills ∧
    r.sections = identifySections r.rawText ∧
    extractSummary r.rawText = .ok r.summary ∧
    r.metadata = { format := none, pageCount := none, fileSize := none } := by
  obtain ⟨e1, h1⟩ := extractSection_ok (normalize t) experienceKeywords
  obtain ⟨e2, h2⟩ := extractSection_ok (normalize t) educationKeywords
  obtain ⟨e3, h3⟩ := extractSection_ok (normalize t) skillsKeywords
  obtain ⟨e4, h4⟩ := extractSection_ok (normalize t) summaryKeywords
  simp only [extractResumeData, extractExperience, extractEducation, extractSkills,
    extractSummary, h1, h2, h3, h4] at h
  cases h
  exact ⟨rfl, rfl, h1, h2, h3, rfl, h4, rfl⟩

/-- C15: for every input `extractResumeData` returns a record in which each of the summary,
experience, education and skills bodies is a contiguous substring of the record's
`rawText` (the empty body being the empty substring). -/
theorem bodies_are_parts_of_rawText (t : Str) :
    ∃ r, extractResumeData t = .ok r ∧
      (r.summary = [] ∨ r.summary <:+: r.rawText) ∧
      (r.experience = [] ∨ r.experience <:+: r.rawText) ∧
      (r.education = [] ∨ r.education <:+: r.rawText) ∧
      (r.skills = [] ∨ r.skills <:+: r.rawText) := by
  obtain ⟨r, h, _⟩ := extractResumeData_ok t
  obtain ⟨_, _, h1, h2, h3, _, h4, _⟩ := extractResumeData_fields t r h
  exact ⟨r, h, Or.inr (extractSection_part _ _ _ h4), Or.inr (extractSection_part _ _ _ h1),
    Or.inr (extractSection_part _ _ _ h2), Or.inr (extractSection_part _ _ _ h3)⟩

/-! ## Section presence (claim C16) -/

theorem identifySections_eq (text : Str) :
    identifySections text = sectionKeywords.filterMap (fun e =>
      if sectionFound text e = true then
        some { name := e.1, present := true, keywords := e.2 }
      else none) := rfl

theorem names_filterMap (text : Str) (l : List (Str × List Str)) :
    (l.filterMap (fun e =>
      if sectionFound text e = true then
        some ({ name := e.1, present := true, keywords := e.2 } : SectionRecord)
      else none)).map (fun r => r.name)
      = (l.filter (sectionFound text)).map Prod.fst := by
  induction l with
  | nil => rfl
  | cons e l ih =>
    by_cases h : sectionFound text e = true
    · simp [List.filterMap_cons, List.filter_cons, h, ih]
    · simp [List.filterMap_cons, List.filter_cons, h, ih]

theorem sectionKeywords_names : sectionKeywords.map Prod.fst = canonicalSections := by decide

theorem canonicalSections_nodup : canonicalSections.Nodup := by decide

theorem sectionKeywords_solid :
    ∀ e ∈ sectionKeywords, ∀ k ∈ e.2, k ≠ [] ∧ trim k = k := by decide

theorem sectionFound_iff (text : Str) (e : Str × List Str) (he : e ∈ sectionKeywords) :
    sectionFound text e = true ↔
      ∃ line ∈ split '\n' text, ∃ k ∈ e.2, includes (toLowerCase line) k = true := by
  unfold sectionFound
  rw [List.any_eq_true]
  constructor
  · rintro ⟨line, hl, h⟩
    rw [any_eq_or_includes, List.any_eq_true] at h
    obtain ⟨k, hk, hin⟩ := h
    obtain ⟨h1, h2⟩ := sectionKeywords_solid e he k hk
    rw [includes_trim _ k h1 (trimmed_of_trim_eq k h2)] at hin
    exact ⟨line, hl, k, hk, hin⟩
  · rintro ⟨line, hl, k, hk, hin⟩
    refine ⟨line, hl, ?_⟩
    rw [any_eq_or_includes, List.any_eq_true]
    obtain ⟨h1, h2⟩ := sectionKeywords_solid e he k hk
    exact ⟨k, hk, by rw [includes_trim _ k h1 (trimmed_of_trim_eq k h2)]; exact hin⟩

/-- C16: `identifySections` lists the sections in the order of the canonical taxonomy
(Summary, Experience, Education, Skills, Projects, Certifications, Awards, Leadership,
References) whatever the order of the lines, without duplicates and always with
`present = true`; a section is listed if and only if some line of the text, lower-cased,
contains one of that section's keywords. -/
theorem identifySections_canonical_order (text : Str) :
    List.Sublist ((identifySections text).map (fun r => r.name)) canonicalSections ∧
    ((identifySections text).map (fun r => r.name)).Nodup ∧
    (∀ r ∈ identifySections text, r.present = true) ∧
    (∀ e ∈ sectionKeywords,
      (e.1 ∈ (identifySections text).map (fun r => r.name) ↔
        ∃ line ∈ split '\n' text, ∃ k ∈ e.2, includes (toLowerCase line) k = true)) ∧
    canonicalSections = ["Summary".toList, "Experience".toList, "Education".toList,
      "Skills".toList, "Projects".toList, "Certifications".toList, "Awards".toList,
      "Leadership".toList, "References".toList] ∧
    sectionKeywords.map Prod.fst = canonicalSections := by
  have hnames := names_filterMap text sectionKeywords
  rw [← identifySections_eq] at hnames
  have hsub : List.Sublist ((identifySections text).map (fun r => r.name)) canonicalSections := by
    rw [hnames, ← sectionKeywords_names]
    exact List.Sublist.map _ (List.filter_sublist _)
  refine ⟨hsub, List.Nodup.sublist hsub canonicalSections_nodup, ?_, ?_, rfl,
    sectionKeywords_names⟩
  · intro r hr
    rw [identifySections_eq, List.mem_filterMap] at hr
    obtain ⟨e, _, he⟩ := hr
    split at he
    · cases he; rfl
    · cases he
  · intro e he
    rw [hnames, ← sectionFound_iff text e he]
    constructor
    · intro hmem
      obtain ⟨e2, he2, hfst⟩ := List.mem_map.mp hmem
      obtain ⟨hin, hfound⟩ := List.mem_filter.mp he2
      have hinj := List.inj_on_of_nodup_map
        (by rw [sectionKeywords_names]; exact canonicalSections_nodup) hin he hfst
      rw [← hinj]
      exact hfound
    · intro hfound
      exact List.mem_map.mpr ⟨e, List.mem_filter.mpr ⟨he, hfound⟩, rfl⟩

/-- Witness for C16: a skills line before a work line is listed after Experience. -/
theorem identifySections_canonical_order_witness :
    ("Experience".toList ∈
        (identifySections "SKILLS: Lean\nWork history".toList).map (fun r => r.name) ↔
      ∃ line ∈ split '\n' "SKILLS: Lean\nWork history".toList,
        ∃ k ∈ ["experience".toList, "work".toList, "employment".toList, "career".toList],
          includes (toLowerCase line) k = true) :=
  (identifySections_canonical_order "SKILLS: Lean\nWork history".toList).2.2.2.1
    ("Experience".toList,
      ["experience".toList, "work".toList, "employment".toList, "career".toList])
    (by decide)

/-! ## Empty text and totality (claims C17 and C18) -/

theorem normalize_of_blank (t : Str) (h : ∀ c ∈ t, isSpace c = true) : normalize t = [] := by
  have h1 : ∀ c ∈ replaceAll crlfRegex "\n".toList t, isSpace c = true := by
    intro c hc
    rcases mem_replaceAll _ _ _ _ hc with h2 | h2
    · have : c = '\n' := by simpa using h2
      subst this; decide
    · exact h c h2
  have h2 : ∀ c ∈ replaceAll crRegex "\n".toList (replaceAll crlfRegex "\n".toList t),
      isSpace c = true := by
    intro c hc
    rcases mem_replaceAll _ _ _ _ hc with h3 | h3
    · have : c = '\n' := by simpa using h3
      subst this; decide
    · exact h1 c h3
  have h3 : ∀ c ∈ replaceAll newlinesRegex "\n\n".toList
      (replaceAll crRegex "\n".toList (replaceAll crlfRegex "\n".toList t)),
      isSpace c = true := by
    intro c hc
    rcases mem_replaceAll _ _ _ _ hc with h4 | h4
    · have : c = '\n' := by
        have e : "\n\n".toList = ['\n', '\n'] := rfl
        rw [e] at h4
        simpa using h4
      subst this; decide
    · exact h2 c h4
  unfold normalize trim
  rw [List.dropWhile_eq_nil_iff.mpr h3]
  rfl

/-- C17: a text that is empty after normalisation (the empty text, and every text that
holds only whitespace) gives, without error, the record in which `rawText`, name, e-mail,
phone, location, LinkedIn handle, summary, experience, education and skills are all the
empty string and `sections` is the empty list. -/
theorem empty_text_empty_record (t : Str) :
    ((∀ c ∈ t, isSpace c = true) → normalize t = []) ∧
    (normalize t = [] →
      extractResumeData t = .ok
        { rawText := []
          personalInfo := { name := [], email := [], phone := [], location := [],
                            linkedin := [] }
          experience := []
          education := []
          skills := []
          sections := []
          summary := []
          metadata := { format := none, pageCount := none, fileSize := none } }) ∧
    normalize [] = [] := by
  refine ⟨normalize_of_blank t, ?_, by decide⟩
  intro h
  simp only [extractResumeData, h]
  rfl

/-- Witness for C17: a text of blanks, a tab and line ends. -/
theorem empty_text_empty_record_witness :
    extractResumeData " \t\r\n  \n".toList = .ok
      { rawText := []
        personalInfo := { name := [], email := [], phone := [], location := [],
                          linkedin := [] }
        experience := []
        education := []
        skills := []
        sections := []
        summary := []
        metadata := { format := none, pageCount := none, fileSize := none } } :=
  (empty_text_empty_record " \t\r\n  \n".toList).2.1
    ((empty_text_empty_record " \t\r\n  \n".toList).1 (by decide))

/-- C18: field extraction never fails: `extractResumeData` returns a record for every
input; inside `extractSection`, whenever a start line is found, the start index is below
the number of lines and below the end index, so the slice of section lines is not empty,
reading its first line is defined, and a body is returned: for the four keyword lists of
the parser, and for every list of keywords of letters, digits and spaces (a keyword with a
pattern metacharacter can make `new RegExp` raise in the source, and the parser passes
none). -/
theorem extraction_never_raises (t : Str) :
    (∃ r, extractResumeData t = .ok r) ∧
    (∀ (keywords : List Str) (a : Nat),
      findSectionStart keywords (split '\n' t) = some a →
        a < (split '\n' t).length ∧
        (∀ e, findSectionEnd keywords (split '\n' t) a = some e → a < e) ∧
        sectionLinesOf keywords (split '\n' t) a ≠ [] ∧
        (∃ first rest, sectionLinesOf keywords (split '\n' t) a = first :: rest)) ∧
    (∀ keywords : List Str, (∀ k ∈ keywords, literalKeyword k = true) →
      ∃ body, extractSection t keywords = .ok body) ∧
    (∀ keywords ∈ [experienceKeywords, educationKeywords, skillsKeywords, summaryKeywords],
      (∀ k ∈ keywords, literalKeyword k = true) ∧
      ∃ body, extractSection t keywords = .ok body) := by
  obtain ⟨r, h, _⟩ := extractResumeData_ok t
  refine ⟨⟨r, h⟩, ?_, fun keywords _ => extractSection_ok t keywords,
    fun keywords hk => ⟨?_, extractSection_ok t keywords⟩⟩
  rotate_left
  · simp only [List.mem_cons, List.mem_singleton, List.not_mem_nil, or_false] at hk
    rcases hk with e | e | e | e <;> subst e <;> decide
  intro keywords a hs
  have ha := findLine_some _ _ _ _ hs
  have hlen : a < (split '\n' t).length := by omega
  have hne := sectionLinesOf_ne_nil keywords (split '\n' t) a hlen
  refine ⟨hlen, ?_, hne, ?_⟩
  · intro e he
    have := findLine_some _ _ _ _ he
    omega
  · cases hl : sectionLinesOf keywords (split '\n' t) a with
    | nil => exact absurd hl hne
    | cons first rest => exact ⟨first, rest, rfl⟩

/-- Witness for C18: a text whose first line starts the skills section. -/
theorem extraction_never_raises_witness :
    0 < (split '\n' "Skills\nLean".toList).length ∧
    (∀ e, findSectionEnd skillsKeywords (split '\n' "Skills\nLean".toList) 0 = some e → 0 < e) ∧
    sectionLinesOf skillsKeywords (split '\n' "Skills\nLean".toList) 0 ≠ [] ∧
    (∃ first rest,
      sectionLinesOf skillsKeywords (split '\n' "Skills\nLean".toList) 0 = first :: rest) :=
  (extraction_never_raises "Skills\nLean".toList).2.1 skillsKeywords 0 (by decide)

/-! ## Years of experience (claims C19 and C20) -/

/-- C19 (failing input): with 2026 as the current year, the text `2019 - present` has no
explicit years phrase and one date range, the whole text, and the result is 0, not
`min(50, max(0, 2026 - 2019)) = 7`: the pattern that reads the years of a date match only
finds the start year, so a range that ends in `present` or `current` adds nothing. -/
theorem years_of_open_range_is_zero :
    matchAll yearRegex "2019 - present".toList = [] ∧
    matchAll dateRegex "2019 - present".toList = ["2019 - present".toList] ∧
    matchAll fourDigitsRegex "2019 - present".toList = ["2019".toList] ∧
    extractYearsOfExperience 2026 "2019 - present".toList = .ok (.fin 0) ∧
    extractYearsOfExperience 2026 "2019 - current".toList = .ok (.fin 0) ∧
    min 50 (max 0 (2026 - 2019)) = 7 :=
  ⟨by decide, by decide, by decide, rfl, rfl, by decide⟩

/-! ## The date patterns as deterministic readers -/

theorem run_seq_cls {σ : Type} (p : Char → Bool) (r : Re) (prev : Option Char) (s : Str)
    (k : Option Char → Str → Option σ) :
    Re.run (Re.seq (Re.cls p) r) prev s k
      = match s with
        | c :: cs => if p c = true then Re.run r (some c) cs k else none
        | [] => none := by
  cases s with
  | nil => rfl
  | cons c cs => by_cases h : p c = true <;> simp [Re.run, h]

theorem starRun_skip {σ : Type} (p : Char → Bool) (k : Option Char → Str → Option σ)
    (hk : ∀ q c cs, p c = true → k q (c :: cs) = none) :
    ∀ (s : Str) (prev : Option Char),
      Re.starRun p k prev s = k (lastOr prev (s.takeWhile p)) (s.dropWhile p) := by
  intro s
  induction s with
  | nil => intro prev; rfl
  | cons c cs ih =>
    intro prev
    by_cases hp : p c = true
    · simp only [Re.starRun, hp, if_true, List.takeWhile_cons, List.dropWhile_cons, lastOr_cons]
      rw [ih (some c), hk prev c cs hp]
      cases k (lastOr (some c) (List.takeWhile p cs)) (List.dropWhile p cs) <;> rfl
    · simp only [Re.starRun, hp, List.takeWhile_cons, List.dropWhile_cons]
      rfl

theorem run_seq_star_skip {σ : Type} (p : Char → Bool) (r : Re)
    (k : Option Char → Str → Option σ)
    (hk : ∀ q c cs, p c = true → Re.run r q (c :: cs) k = none) (prev : Option Char)
    (s : Str) :
    Re.run (Re.seq (Re.star p) r) prev s k
      = Re.run r (lastOr prev (s.takeWhile p)) (s.dropWhile p) k := by
  simp only [Re.run]
  exact starRun_skip p _ hk s prev

theorem run_litI {σ : Type} (w : Str) (k : Option Char → Str → Option σ) :
    ∀ (s : Str) (prev : Option Char),
      Re.run (Re.litI w) prev s k
        = if (s.take w.length).map Char.toLower = w.map Char.toLower then
            k (lastOr prev (s.take w.length)) (s.drop w.length)
          else none := by
  induction w with
  | nil => intro s prev; simp [Re.litI, Re.run, lastOr_nil]
  | cons c w ih =>
    intro s prev
    rw [litI_cons, run_seq_cls]
    cases s with
    | nil => simp
    | cons x xs =>
      by_cases hx : x.toLower = c.toLower
      · simp only [hx, beq_self_eq_true, if_true, ih, List.length_cons, List.take_succ_cons,
          List.map_cons, List.drop_succ_cons, lastOr_cons, List.cons.injEq, true_and]
      · have hx2 : (x.toLower == c.toLower) = false := by simpa using hx
        simp only [hx2, List.length_cons, List.take_succ_cons, List.map_cons,
          List.cons.injEq, hx, false_and, if_false]
        rfl

theorem starRun_plain {σ : Type} (p : Char → Bool) (k : Option Char → Str → Option σ)
    (hk : ∀ q q1 s, k q s = k q1 s) :
    ∀ (s : Str) (prev prev1 : Option Char), Re.starRun p k prev s = Re.starRun p k prev1 s := by
  intro s
  induction s with
  | nil => intro prev prev1; exact hk _ _ _
  | cons c cs ih =>
    intro prev prev1
    by_cases hp : p c = true
    · simp only [Re.starRun, hp, if_true, hk prev prev1]
    · simp only [Re.starRun, hp, hk prev prev1]

/-- A pattern without assertions reads the same whatever stands before the position. -/
theorem run_plain {σ : Type} (r : Re) (hr : r.plain = true) :
    ∀ (k : Option Char → Str → Option σ), (∀ q q1 s, k q s = k q1 s) →
      ∀ (prev prev1 : Option Char) (s : Str), Re.run r prev s k = Re.run r prev1 s k := by
  induction r with
  | eps => intro k hk prev prev1 s; exact hk _ _ _
  | cls p => intro k hk prev prev1 s; rfl
  | seq a b iha ihb =>
    intro k hk prev prev1 s
    simp only [Re.plain, Bool.and_eq_true] at hr
    simp only [Re.run]
    exact iha hr.1 _ (fun q q1 s1 => ihb hr.2 k hk q q1 s1) prev prev1 s
  | alt a b iha ihb =>
    intro k hk prev prev1 s
    simp only [Re.plain, Bool.and_eq_true] at hr
    simp only [Re.run]
    rw [iha hr.1 k hk prev prev1 s, ihb hr.2 k hk prev prev1 s]
  | star p => intro k hk prev prev1 s; exact starRun_plain p k hk s prev prev1
  | wordB => simp [Re.plain] at hr
  | bos => simp [Re.plain] at hr
  | eos =>
    intro k hk prev prev1 s
    simp only [Re.run]
    rw [hk prev prev1]

theorem matchAt_plain (r : Re) (hr : r.plain = true) (prev : Option Char) (s : Str) :
    Re.matchAt r prev s = Re.matchAt r none s :=
  run_plain r hr (fun _ rest => some rest) (fun _ _ _ => rfl) prev none s

theorem digit_ofNat_props :
    ∀ n : Nat, 48 ≤ n → n ≤ 57 →
      isSpace (Char.ofNat n) = false ∧ isUpper (Char.ofNat n) = false ∧
      isDash (Char.ofNat n) = false ∧ isLetter (Char.ofNat n) = false := by
  intro n h1 h2
  interval_cases n <;> decide

theorem digit_props (c : Char) (h : isDigit c = true) :
    isSpace c = false ∧ isUpper c = false ∧ isDash c = false ∧ isLetter c = false := by
  have h1 : 48 ≤ c.toNat ∧ c.toNat ≤ 57 := by
    simpa [isDigit] using h
  have := digit_ofNat_props c.toNat h1.1 h1.2
  rwa [Char.ofNat_toNat] at this

theorem dash_not_space (c : Char) (h : isDash c = true) : isSpace c = false := by
  simp only [isDash, Bool.or_eq_true, beq_iff_eq] at h
  rcases h with (h | h) | h
  · subst h; decide
  · have : c = Char.ofNat 0x2013 := by rw [← h, Char.ofNat_toNat]
    subst this; decide
  · have : c = Char.ofNat 0x2014 := by rw [← h, Char.ofNat_toNat]
    subst this; decide

theorem dash_not_digit (c : Char) (h : isDash c = true) : isDigit c = false := by
  by_contra hd
  have hd : isDigit c = true := by simpa using hd
  rw [(digit_props c hd).2.2.1] at h
  exact absurd h (by simp)

theorem space_not_digit (c : Char) (h : isSpace c = true) : isDigit c = false := by
  by_contra hd
  have hd : isDigit c = true := by simpa using hd
  rw [(digit_props c hd).1] at h
  exact absurd h (by simp)

theorem space_not_dash (c : Char) (h : isSpace c = true) : isDash c = false := by
  by_contra hd
  have hd : isDash c = true := by simpa using hd
  rw [dash_not_space c hd] at h
  exact absurd h (by simp)

/-- Four digits followed by a pattern without assertions. -/
theorem run_four_digits {σ : Type} (r : Re) (hr : r.plain = true)
    (k : Option Char → Str → Option σ) (hk : ∀ q q1 s, k q s = k q1 s) (prev : Option Char)
    (s : Str) :
    Re.run (Re.seq (Re.cls isDigit) (Re.seq (Re.cls isDigit) (Re.seq (Re.cls isDigit)
        (Re.seq (Re.cls isDigit) r)))) prev s k
      = match fourDigitsAt s with
        | some rest => Re.run r none rest k
        | none => none := by
  match s with
  | [] => rfl
  | [c1] => by_cases h1 : isDigit c1 = true <;> simp [run_seq_cls, fourDigitsAt, h1]
  | [c1, c2] =>
    by_cases h1 : isDigit c1 = true <;> by_cases h2 : isDigit c2 = true <;>
      simp [run_seq_cls, fourDigitsAt, h1, h2]
  | [c1, c2, c3] =>
    by_cases h1 : isDigit c1 = true <;> by_cases h2 : isDigit c2 = true <;>
      by_cases h3 : isDigit c3 = true <;> simp [run_seq_cls, fourDigitsAt, h1, h2, h3]
  | c1 :: c2 :: c3 :: c4 :: rest =>
    by_cases h1 : isDigit c1 = true <;> by_cases h2 : isDigit c2 = true <;>
      by_cases h3 : isDigit c3 = true <;> by_cases h4 : isDigit c4 = true <;>
      simp [run_seq_cls, fourDigitsAt, h1, h2, h3, h4]
    exact run_plain r hr k hk _ _ _

theorem run_dash {σ : Type} (r : Re) (hr : r.plain = true)
    (k : Option Char → Str → Option σ) (hk : ∀ q q1 s, k q s = k q1 s)
    (hk2 : ∀ q c cs, isSpace c = true → Re.run r q (c :: cs) k = none) (prev : Option Char)
    (s : Str) :
    Re.run (Re.seq (Re.star isSpace) (Re.seq (Re.cls isDash) (Re.seq (Re.star isSpace) r)))
        prev s k
      = match dashAt s with
        | some t => Re.run r none t k
        | none => none := by
  rw [run_seq_star_skip isSpace _ k
    (fun q c cs hc => by rw [run_seq_cls]; simp [space_not_dash c hc])]
  rw [run_seq_cls]
  unfold dashAt
  cases List.dropWhile isSpace s with
  | nil => rfl
  | cons d rest =>
    by_cases hd : isDash d = true
    · simp only [hd, if_true]
      rw [run_seq_star_skip isSpace r k hk2]
      exact run_plain r hr k hk _ _ _
    · simp only [hd]
      rfl

theorem run_fourDigits_top (q : Option Char) (t : Str) :
    Re.run fourDigitsRegex q t (fun _ rest => some rest) = fourDigitsAt t := by
  have := run_four_digits Re.eps rfl (fun _ rest => some rest) (fun _ _ _ => rfl) q t
  rw [show fourDigitsRegex = Re.seq (Re.cls isDigit) (Re.seq (Re.cls isDigit)
    (Re.seq (Re.cls isDigit) (Re.seq (Re.cls isDigit) Re.eps))) from rfl, this]
  cases fourDigitsAt t <;> rfl

theorem run_word_top (w : Str) (q : Option Char) (t : Str) :
    Re.run (Re.litI w) q t (fun _ rest => some rest) = wordAt w t := by
  rw [run_litI]
  rfl

theorem matchAt_fourDigits (prev : Option Char) (s : Str) :
    Re.matchAt fourDigitsRegex prev s = fourDigitsAt s :=
  run_fourDigits_top prev s

theorem fourDigitsAt_of_not_digit (c : Char) (cs : Str) (h : isDigit c = false) :
    fourDigitsAt (c :: cs) = none := by
  match cs with
  | [] => rfl
  | [_] => rfl
  | [_, _] => rfl
  | c2 :: c3 :: c4 :: rest => simp [fourDigitsAt, h]

theorem wordAt_of_head (w : Str) (x : Char) (c : Char) (cs : Str)
    (h : c.toLower ≠ x.toLower) : wordAt (x :: w) (c :: cs) = none := by
  simp [wordAt, h]

theorem space_toLower_ne (c x : Char) (hc : isSpace c = true) (hx : isSpace x.toLower = false) :
    c.toLower ≠ x.toLower := by
  intro e
  have := (toLower_props c).2
  rw [e, hx, hc] at this
  exact absurd this (by simp)

theorem dateTailAt_of_space (c : Char) (cs : Str) (h : isSpace c = true) :
    dateTailAt (c :: cs) = none := by
  unfold dateTailAt
  rw [fourDigitsAt_of_not_digit c cs (space_not_digit c h)]
  have e1 : "present".toList = 'p' :: "resent".toList := rfl
  have e2 : "current".toList = 'c' :: "urrent".toList := rfl
  rw [e1, e2, wordAt_of_head _ 'p' c cs (space_toLower_ne c 'p' h (by decide)),
    wordAt_of_head _ 'c' c cs (space_toLower_ne c 'c' h (by decide))]
  rfl

theorem run_dateTail_top (q : Option Char) (t : Str) :
    Re.run (Re.seq (Re.alt fourDigitsRegex
        (Re.alt (Re.litI "present".toList) (Re.litI "current".toList))) Re.eps) q t
      (fun _ rest => some rest) = dateTailAt t := by
  have e1 : ∀ (r : Re) (k : Option Char → Str → Option Str),
      Re.run (Re.seq r Re.eps) q t k = Re.run r q t k := fun _ _ => rfl
  have e2 : ∀ (a b : Re) (k : Option Char → Str → Option Str),
      Re.run (Re.alt a b) q t k = (Re.run a q t k).orElse (fun _ => Re.run b q t k) :=
    fun _ _ _ => rfl
  rw [e1, e2, e2, run_fourDigits_top, run_word_top, run_word_top]
  rfl

/-- The pattern `YYYY-YYYY` as a deterministic reader. -/
theorem matchAt_numericRange (prev : Option Char) (s : Str) :
    Re.matchAt numericRangeRegex prev s
      = (fourDigitsAt s).bind (fun s4 => (dashAt s4).bind fourDigitsAt) := by
  unfold Re.matchAt
  rw [show numericRangeRegex = Re.seq (Re.cls isDigit) (Re.seq (Re.cls isDigit)
    (Re.seq (Re.cls isDigit) (Re.seq (Re.cls isDigit)
      (Re.seq (Re.star isSpace) (Re.seq (Re.cls isDash) (Re.seq (Re.star isSpace)
        fourDigitsRegex)))))) from rfl]
  rw [run_four_digits
    (Re.seq (Re.star isSpace) (Re.seq (Re.cls isDash) (Re.seq (Re.star isSpace)
      fourDigitsRegex))) rfl (fun _ rest => some rest) (fun _ _ _ => rfl)]
  cases h4 : fourDigitsAt s with
  | none => rfl
  | some s4 =>
    simp only [Option.bind]
    rw [run_dash fourDigitsRegex rfl (fun _ rest => some rest) (fun _ _ _ => rfl)
      (fun q c cs hc => by
        rw [run_fourDigits_top, fourDigitsAt_of_not_digit c cs (space_not_digit c hc)])]
    cases hd : dashAt s4 with
    | none => rfl
    | some t => exact run_fourDigits_top none t

/-- The date pattern of the source as a deterministic reader. -/
theorem matchAt_date (prev : Option Char) (s : Str) :
    Re.matchAt dateRegex prev s
      = (fourDigitsAt s).bind (fun s4 => (dashAt s4).bind dateTailAt) := by
  unfold Re.matchAt
  rw [show dateRegex = Re.seq (Re.cls isDigit) (Re.seq (Re.cls isDigit)
    (Re.seq (Re.cls isDigit) (Re.seq (Re.cls isDigit)
      (Re.seq (Re.star isSpace) (Re.seq (Re.cls isDash) (Re.seq (Re.star isSpace)
        (Re.seq (Re.alt fourDigitsRegex
          (Re.alt (Re.litI "present".toList) (Re.litI "current".toList))) Re.eps))))))) from rfl]
  rw [run_four_digits
    (Re.seq (Re.star isSpace) (Re.seq (Re.cls isDash) (Re.seq (Re.star isSpace)
      (Re.seq (Re.alt fourDigitsRegex
        (Re.alt (Re.litI "present".toList) (Re.litI "current".toList))) Re.eps))))
    (by decide) (fun _ rest => some rest) (fun _ _ _ => rfl)]
  cases h4 : fourDigitsAt s with
  | none => rfl
  | some s4 =>
    simp only [Option.bind]
    rw [run_dash
      (Re.seq (Re.alt fourDigitsRegex
        (Re.alt (Re.litI "present".toList) (Re.litI "current".toList))) Re.eps)
      (by decide) (fun _ rest => some rest) (fun _ _ _ => rfl)
      (fun q c cs hc => by rw [run_dateTail_top, dateTailAt_of_space c cs hc])]
    cases hd : dashAt s4 with
    | none => rfl
    | some t => exact run_dateTail_top none t

/-! ## Scanning with a pattern without assertions -/

theorem matchAllAux_plain (r : Re) (hr : r.plain = true) :
    ∀ (s : Str) (n : Nat) (prev : Option Char),
      matchAllAux r n prev s = matchAllAux r n none s := by
  intro s
  induction s with
  | nil =>
    intro n prev
    cases n with
    | zero => simp only [matchAllAux, matchAt_plain r hr prev]
    | succ n => rfl
  | cons c cs ih =>
    intro n prev
    cases n with
    | zero =>
      simp only [matchAllAux, matchAt_plain r hr prev]
    | succ n => simp only [matchAllAux]

theorem matchAll_nil (r : Re) (h : Re.matchAt r none [] = none) : matchAll r [] = [] := by
  simp [matchAll, matchAllAux, h]

theorem matchAll_step (r : Re) (hr : r.plain = true) (c : Char) (cs : Str)
    (h : Re.matchAt r none (c :: cs) = none) : matchAll r (c :: cs) = matchAll r cs := by
  unfold matchAll
  simp only [matchAllAux, h]
  exact matchAllAux_plain r hr cs 0 (some c)

theorem matchAll_hit (r : Re) (hr : r.plain = true) (m rest : Str) (hm : m ≠ [])
    (h : Re.matchAt r none (m ++ rest) = some rest) :
    matchAll r (m ++ rest) = m :: matchAll r rest := by
  cases m with
  | nil => exact absurd rfl hm
  | cons c m =>
    have hlen : (c :: (m ++ rest)).length - rest.length = m.length + 1 := by
      simp only [List.length_cons, List.length_append]; omega
    unfold matchAll
    rw [List.cons_append] at h ⊢
    simp only [matchAllAux, h, hlen, Nat.add_sub_cancel]
    rw [matchAllAux_skip r m.length (m ++ rest) (some c) (by simp)]
    simp only [List.take_left', List.drop_left', List.take_succ_cons]
    rw [matchAllAux_plain r hr rest 0 _]

/-- Scanning steps over a block in which the pattern matches nowhere. -/
theorem matchAll_skip_block (r : Re) (hr : r.plain = true) (g rest : Str)
    (h : ∀ u v, g = u ++ v → v ≠ [] → Re.matchAt r none (v ++ rest) = none) :
    matchAll r (g ++ rest) = matchAll r rest := by
  induction g with
  | nil => rfl
  | cons c g ih =>
    rw [List.cons_append, matchAll_step r hr c (g ++ rest) (h [] (c :: g) rfl (by simp))]
    exact ih (fun u v e hv => h (c :: u) v (by rw [e, List.cons_append]) hv)

/-! ## The shape of what the readers consume -/

theorem fourDigitsAt_some (s r : Str) (h : fourDigitsAt s = some r) :
    ∃ c1 c2 c3 c4, s = c1 :: c2 :: c3 :: c4 :: r ∧ isDigit c1 = true ∧ isDigit c2 = true ∧
      isDigit c3 = true ∧ isDigit c4 = true := by
  match s, h with
  | [], h => simp [fourDigitsAt] at h
  | [_], h => simp [fourDigitsAt] at h
  | [_, _], h => simp [fourDigitsAt] at h
  | [_, _, _], h => simp [fourDigitsAt] at h
  | c1 :: c2 :: c3 :: c4 :: rest, h =>
    simp only [fourDigitsAt] at h
    split at h
    · rename_i hc
      simp only [Bool.and_eq_true] at hc
      cases h
      exact ⟨c1, c2, c3, c4, rfl, hc.1.1.1, hc.1.1.2, hc.1.2, hc.2⟩
    · cases h

theorem fourDigitsAt_digits (c1 c2 c3 c4 : Char) (r : Str) (h1 : isDigit c1 = true)
    (h2 : isDigit c2 = true) (h3 : isDigit c3 = true) (h4 : isDigit c4 = true) :
    fourDigitsAt (c1 :: c2 :: c3 :: c4 :: r) = some r := by
  simp [fourDigitsAt, h1, h2, h3, h4]

theorem dashAt_some (s t : Str) (h : dashAt s = some t) :
    ∃ g, s = g ++ t ∧ g ≠ [] ∧ ∀ c ∈ g, isDigit c = false := by
  unfold dashAt at h
  cases hd : s.dropWhile isSpace with
  | nil => rw [hd] at h; cases h
  | cons d rest =>
    rw [hd] at h
    simp only at h
    by_cases hdash : isDash d = true
    · simp only [hdash, if_true, Option.some.injEq] at h
      refine ⟨s.takeWhile isSpace ++ d :: rest.takeWhile isSpace, ?_, by simp, ?_⟩
      · have e1 := List.takeWhile_append_dropWhile isSpace s
        have e2 := List.takeWhile_append_dropWhile isSpace rest
        rw [hd] at e1
        rw [← h]
        conv_lhs => rw [← e1, ← e2]
        simp
      · intro c hc
        rcases List.mem_append.mp hc with hc | hc
        · exact space_not_digit c (List.mem_takeWhile_imp hc)
        · rcases List.mem_cons.mp hc with hc | hc
          · rw [hc]; exact dash_not_digit d hdash
          · exact space_not_digit c (List.mem_takeWhile_imp hc)
    · simp only [hdash] at h
      cases h

theorem wordAt_some (w t r : Str) (h : wordAt w t = some r) :
    ∃ u, t = u ++ r ∧ u.map Char.toLower = w.map Char.toLower := by
  unfold wordAt at h
  split at h
  · rename_i hc
    cases h
    exact ⟨t.take w.length, (List.take_append_drop _ _).symm, hc⟩
  · cases h

theorem word_no_digit (w u : Str) (hw : ∀ c ∈ w, isLower c = true)
    (h : u.map Char.toLower = w.map Char.toLower) : ∀ c ∈ u, isDigit c = false := by
  intro c hc
  by_contra hd
  have hd : isDigit c = true := by simpa using hd
  have hcl : c.toLower = c := toLower_of_not_upper c (digit_props c hd).2.1
  have h1 : c.toLower ∈ u.map Char.toLower := List.mem_map.mpr ⟨c, hc, rfl⟩
  rw [h, hcl] at h1
  obtain ⟨x, hx, hxc⟩ := List.mem_map.mp h1
  have hxl := hw x hx
  have hxu : isUpper x = false := by
    simp only [isLower, isUpper, Bool.and_eq_true, decide_eq_true_eq] at hxl ⊢
    by_contra hh
    simp at hh
    omega
  rw [toLower_of_not_upper x hxu] at hxc
  have hl := (digit_props c hd).2.2.2
  rw [← hxc] at hl
  simp only [isLetter, hxl, Bool.or_true] at hl
  exact absurd hl (by simp)

theorem fourDigitsAt_none_of (s : Str) (i : Nat) (x : Char) (hi : i < 4)
    (hx : s[i]? = some x) (hd : isDigit x = false) : fourDigitsAt s = none := by
  cases h : fourDigitsAt s with
  | none => rfl
  | some r =>
    exfalso
    obtain ⟨c1, c2, c3, c4, e, h1, h2, h3, h4⟩ := fourDigitsAt_some s r h
    subst e
    interval_cases i <;> simp at hx <;> subst hx <;> simp_all

theorem matchAll_fourDigits_skip (g s : Str) (hg : ∀ c ∈ g, isDigit c = false) :
    matchAll fourDigitsRegex (g ++ s) = matchAll fourDigitsRegex s := by
  apply matchAll_skip_block fourDigitsRegex rfl
  intro u v e hv
  cases v with
  | nil => exact absurd rfl hv
  | cons y v =>
    rw [matchAt_fourDigits, List.cons_append]
    exact fourDigitsAt_of_not_digit y _ (hg y (by rw [e]; simp))

theorem matchAll_fourDigits_hit (c1 c2 c3 c4 : Char) (s : Str) (h1 : isDigit c1 = true)
    (h2 : isDigit c2 = true) (h3 : isDigit c3 = true) (h4 : isDigit c4 = true) :
    matchAll fourDigitsRegex (c1 :: c2 :: c3 :: c4 :: s)
      = [c1, c2, c3, c4] :: matchAll fourDigitsRegex s := by
  have := matchAll_hit fourDigitsRegex rfl [c1, c2, c3, c4] s (by simp)
    (by rw [matchAt_fourDigits]; exact fourDigitsAt_digits c1 c2 c3 c4 s h1 h2 h3 h4)
  exact this

theorem matchAll_fourDigits_nil : matchAll fourDigitsRegex [] = [] := by decide

/-- A date match that ends in a word adds nothing to the total. -/
theorem rangeYears_word (cy : Nat) (c1 c2 c3 c4 : Char) (nd : Str) (h1 : isDigit c1 = true)
    (h2 : isDigit c2 = true) (h3 : isDigit c3 = true) (h4 : isDigit c4 = true)
    (hnd : ∀ c ∈ nd, isDigit c = false) :
    rangeYears cy (c1 :: c2 :: c3 :: c4 :: nd) = 0 := by
  unfold rangeYears
  rw [matchAll_fourDigits_hit c1 c2 c3 c4 nd h1 h2 h3 h4]
  have := matchAll_fourDigits_skip nd [] hnd
  rw [List.append_nil] at this
  rw [this, matchAll_fourDigits_nil]

/-- A date match with two years adds the end year minus the start year. -/
theorem rangeYears_numeric (cy : Nat) (c1 c2 c3 c4 e1 e2 e3 e4 : Char) (g : Str)
    (h1 : isDigit c1 = true) (h2 : isDigit c2 = true) (h3 : isDigit c3 = true)
    (h4 : isDigit c4 = true) (k1 : isDigit e1 = true) (k2 : isDigit e2 = true)
    (k3 : isDigit e3 = true) (k4 : isDigit e4 = true) (hg : ∀ c ∈ g, isDigit c = false) :
    rangeYears cy (c1 :: c2 :: c3 :: c4 :: (g ++ [e1, e2, e3, e4]))
      = rangeSpan (c1 :: c2 :: c3 :: c4 :: (g ++ [e1, e2, e3, e4])) := by
  unfold rangeYears rangeSpan
  rw [matchAll_fourDigits_hit c1 c2 c3 c4 _ h1 h2 h3 h4, matchAll_fourDigits_skip g _ hg,
    matchAll_fourDigits_hit e1 e2 e3 e4 [] k1 k2 k3 k4, matchAll_fourDigits_nil]
  have hinc : includes (toLowerCase [e1, e2, e3, e4]) "present".toList = false := by
    by_contra h
    have h : includes (toLowerCase [e1, e2, e3, e4]) "present".toList = true := by simpa using h
    have := ((includes_iff _ _).mp h).length_le
    rw [toLowerCase_ascii _ (by
      intro c hc
      simp only [List.mem_cons, List.mem_singleton, List.not_mem_nil, or_false] at hc
      simp only [isDigit, Bool.and_eq_true, decide_eq_true_eq] at k1 k2 k3 k4
      rcases hc with e | e | e | e <;> subst e <;> omega)] at this
    simp at this
  have hdrop : (c1 :: c2 :: c3 :: c4 :: (g ++ [e1, e2, e3, e4])).drop
      ((c1 :: c2 :: c3 :: c4 :: (g ++ [e1, e2, e3, e4])).length - 4) = [e1, e2, e3, e4] := by
    have e : c1 :: c2 :: c3 :: c4 :: (g ++ [e1, e2, e3, e4])
        = (c1 :: c2 :: c3 :: c4 :: g) ++ [e1, e2, e3, e4] := by simp
    rw [e]
    have hl : ((c1 :: c2 :: c3 :: c4 :: g) ++ [e1, e2, e3, e4]).length - 4
        = (c1 :: c2 :: c3 :: c4 :: g).length := by simp
    rw [hl, List.drop_left']
    rfl
  simp only [hinc, hdrop]
  rfl

theorem matchAt_numericRange_of_not_digit (y : Char) (s : Str) (h : isDigit y = false) :
    Re.matchAt numericRangeRegex none (y :: s) = none := by
  rw [matchAt_numericRange, fourDigitsAt_of_not_digit y s h]
  rfl

/-- The scan for `YYYY-YYYY` ranges steps over a date match that ends in a word. -/
theorem matchAll_numericRange_skip_word (c1 c2 c3 c4 x : Char) (nd r : Str)
    (hx : isDigit x = false) (hnd : ∀ c ∈ nd, isDigit c = false)
    (h0 : Re.matchAt numericRangeRegex none (c1 :: c2 :: c3 :: c4 :: (x :: nd ++ r)) = none) :
    matchAll numericRangeRegex (c1 :: c2 :: c3 :: c4 :: (x :: nd ++ r))
      = matchAll numericRangeRegex r := by
  have hN : numericRangeRegex.plain = true := rfl
  have s1 : Re.matchAt numericRangeRegex none (c2 :: c3 :: c4 :: (x :: nd ++ r)) = none := by
    rw [matchAt_numericRange, fourDigitsAt_none_of _ 3 x (by omega) (by simp) hx]; rfl
  have s2 : Re.matchAt numericRangeRegex none (c3 :: c4 :: (x :: nd ++ r)) = none := by
    rw [matchAt_numericRange, fourDigitsAt_none_of _ 2 x (by omega) (by simp) hx]; rfl
  have s3 : Re.matchAt numericRangeRegex none (c4 :: (x :: nd ++ r)) = none := by
    rw [matchAt_numericRange, fourDigitsAt_none_of _ 1 x (by omega) (by simp) hx]; rfl
  rw [matchAll_step _ hN _ _ h0, matchAll_step _ hN _ _ s1, matchAll_step _ hN _ _ s2,
    matchAll_step _ hN _ _ s3]
  apply matchAll_skip_block numericRangeRegex hN
  intro u v e hv
  cases v with
  | nil => exact absurd rfl hv
  | cons y v =>
    rw [List.cons_append]
    apply matchAt_numericRange_of_not_digit
    have hy : y ∈ x :: nd := by rw [e]; simp
    rcases List.mem_cons.mp hy with hy | hy
    · rw [hy]; exact hx
    · exact hnd y hy

/-- What the date matches of the source add up to is the sum of the spans of the
`YYYY-YYYY` ranges found in the text. -/
theorem date_scan_sum (cy : Nat) :
    ∀ (n : Nat) (s : Str), s.length ≤ n →
      ((matchAll dateRegex s).map (rangeYears cy)).sum
        = ((matchAll numericRangeRegex s).map rangeSpan).sum := by
  have hD : dateRegex.plain = true := by decide
  have hN : numericRangeRegex.plain = true := rfl
  intro n
  induction n with
  | zero =>
    intro s hs
    have : s = [] := List.length_eq_zero.mp (Nat.le_zero.mp hs)
    subst this
    rw [matchAll_nil dateRegex (by rw [matchAt_date]; rfl),
      matchAll_nil numericRangeRegex (by rw [matchAt_numericRange]; rfl)]
    rfl
  | succ n ih =>
    intro s hs
    cases s with
    | nil =>
      rw [matchAll_nil dateRegex (by rw [matchAt_date]; rfl),
        matchAll_nil numericRangeRegex (by rw [matchAt_numericRange]; rfl)]
      rfl
    | cons c cs =>
      cases h4 : fourDigitsAt (c :: cs) with
      | none =>
        have e1 : Re.matchAt dateRegex none (c :: cs) = none := by
          rw [matchAt_date, h4]; rfl
        have e2 : Re.matchAt numericRangeRegex none (c :: cs) = none := by
          rw [matchAt_numericRange, h4]; rfl
        rw [matchAll_step _ hD _ _ e1, matchAll_step _ hN _ _ e2]
        exact ih cs (by simpa using hs)
      | some s4 =>
        cases hd : dashAt s4 with
        | none =>
          have e1 : Re.matchAt dateRegex none (c :: cs) = none := by
            rw [matchAt_date, h4]; simp only [Option.bind, hd]
          have e2 : Re.matchAt numericRangeRegex none (c :: cs) = none := by
            rw [matchAt_numericRange, h4]; simp only [Option.bind, hd]
          rw [matchAll_step _ hD _ _ e1, matchAll_step _ hN _ _ e2]
          exact ih cs (by simpa using hs)
        | some t =>
          have eD : Re.matchAt dateRegex none (c :: cs) = dateTailAt t := by
            rw [matchAt_date, h4]; simp only [Option.bind, hd]
          have eN : Re.matchAt numericRangeRegex none (c :: cs) = fourDigitsAt t := by
            rw [matchAt_numericRange, h4]; simp only [Option.bind, hd]
          obtain ⟨c1, c2, c3, c4, es, d1, d2, d3, d4⟩ := fourDigitsAt_some _ _ h4
          obtain ⟨g, eg, hgne, hg⟩ := dashAt_some _ _ hd
          cases ht : fourDigitsAt t with
          | some r =>
            obtain ⟨e1, e2, e3, e4, et, k1, k2, k3, k4⟩ := fourDigitsAt_some _ _ ht
            have hshape : c :: cs = (c1 :: c2 :: c3 :: c4 :: (g ++ [e1, e2, e3, e4])) ++ r := by
              rw [es, eg, et]; simp
            have mD : Re.matchAt dateRegex none
                ((c1 :: c2 :: c3 :: c4 :: (g ++ [e1, e2, e3, e4])) ++ r) = some r := by
              rw [← hshape, eD]; unfold dateTailAt; rw [ht]; rfl
            have mN : Re.matchAt numericRangeRegex none
                ((c1 :: c2 :: c3 :: c4 :: (g ++ [e1, e2, e3, e4])) ++ r) = some r := by
              rw [← hshape, eN, ht]
            rw [hshape, matchAll_hit _ hD _ _ (by simp) mD, matchAll_hit _ hN _ _ (by simp) mN]
            simp only [List.map_cons, List.sum_cons]
            rw [rangeYears_numeric cy c1 c2 c3 c4 e1 e2 e3 e4 g d1 d2 d3 d4 k1 k2 k3 k4 hg]
            congr 1
            apply ih r
            have := congrArg List.length hshape
            simp only [List.length_cons, List.length_append] at this hs
            omega
          | none =>
            rw [ht] at eN
            cases hw : dateTailAt t with
            | none =>
              rw [hw] at eD
              rw [matchAll_step _ hD _ _ eD, matchAll_step _ hN _ _ eN]
              exact ih cs (by simpa using hs)
            | some r =>
              have hword : ∃ u, t = u ++ r ∧ ∀ x ∈ u, isDigit x = false := by
                unfold dateTailAt at hw
                rw [ht] at hw
                simp only [Option.orElse] at hw
                cases hp : wordAt "present".toList t with
                | some r1 =>
                  rw [hp] at hw
                  simp only at hw
                  cases hw
                  obtain ⟨u, hu1, hu2⟩ := wordAt_some _ _ _ hp
                  exact ⟨u, hu1, word_no_digit _ u (by decide) hu2⟩
                | none =>
                  rw [hp] at hw
                  simp only at hw
                  obtain ⟨u, hu1, hu2⟩ := wordAt_some _ _ _ hw
                  exact ⟨u, hu1, word_no_digit _ u (by decide) hu2⟩
              obtain ⟨u, hu1, hu2⟩ := hword
              cases g with
              | nil => exact absurd rfl hgne
              | cons x g =>
                have hx : isDigit x = false := hg x (by simp)
                have hnd : ∀ y ∈ g ++ u, isDigit y = false := by
                  intro y hy
                  rcases List.mem_append.mp hy with hy | hy
                  · exact hg y (by simp [hy])
                  · exact hu2 y hy
                have hshape : c :: cs = (c1 :: c2 :: c3 :: c4 :: (x :: (g ++ u))) ++ r := by
                  rw [es, eg, hu1]; simp
                have hshape2 : c :: cs = c1 :: c2 :: c3 :: c4 :: (x :: (g ++ u) ++ r) := by
                  rw [hshape]; simp
                have mD : Re.matchAt dateRegex none
                    ((c1 :: c2 :: c3 :: c4 :: (x :: (g ++ u))) ++ r) = some r := by
                  rw [← hshape, eD, hw]
                have e0 : Re.matchAt numericRangeRegex none
                    (c1 :: c2 :: c3 :: c4 :: (x :: (g ++ u) ++ r)) = none := by
                  rw [← hshape2]; exact eN
                have hskip := matchAll_numericRange_skip_word c1 c2 c3 c4 x (g ++ u) r hx hnd e0
                rw [← hshape2] at hskip
                rw [hskip, hshape, matchAll_hit _ hD _ _ (by simp) mD]
                simp only [List.map_cons, List.sum_cons]
                rw [rangeYears_word cy c1 c2 c3 c4 (x :: (g ++ u)) d1 d2 d3 d4
                  (by
                    intro y hy
                    rcases List.mem_cons.mp hy with hy | hy
                    · rw [hy]; exact hx
                    · exact hnd y hy), Nat.zero_add]
                apply ih r
                have := congrArg List.length hshape
                simp only [List.length_cons, List.length_append] at this hs
                omega

theorem takeWhile_idem (p : Char → Bool) (l : Str) :
    (l.takeWhile p).takeWhile p = l.takeWhile p := by
  induction l with
  | nil => rfl
  | cons c l ih =>
    by_cases h : p c = true
    · simp [List.takeWhile_cons, h, ih]
    · simp [List.takeWhile_cons, h]

theorem digitsValue_takeWhile (s : Str) : digitsValue (s.takeWhile isDigit) = digitsValue s := by
  unfold digitsValue
  rw [takeWhile_idem]

theorem foldl_add_eq_sum (f : Str → Nat) (l : List Str) :
    ∀ init : Nat, l.foldl (fun total d => total + f d) init = init + (l.map f).sum := by
  induction l with
  | nil => intro init; simp
  | cons a l ih =>
    intro init
    simp only [List.foldl_cons, List.map_cons, List.sum_cons, ih]
    omega

/-- The leftmost years phrase starts with a digit. -/
theorem year_phrase_head (text phrase : Str) (rest : List Str)
    (h : matchAll yearRegex text = phrase :: rest) :
    ∃ c cs, phrase = c :: cs ∧ isDigit c = true := by
  unfold matchAll at h
  rcases matchAllAux_first yearRegex text none with ⟨h1, _⟩ | ⟨pre, suf, r, _, h2, _, h4⟩
  · rw [h1] at h; cases h
  · rw [h] at h4
    simp only [List.head?_cons, Option.some.injEq] at h4
    obtain ⟨p1, hsem⟩ := Re.matchAt_sound _ _ _ _ h2
    obtain ⟨m, hm, _⟩ := hsem.suffix
    have hpm : phrase = m := by rw [h4, hm]; simp
    simp only [yearRegex, Re.cat, List.foldr] at hsem
    obtain ⟨p2, s2, hdig, hrest⟩ := Re.Sem.seq_inv hsem
    obtain ⟨dg, hdg0, hdg1, hdgall, _⟩ := Re.Sem.plus_inv hdig
    obtain ⟨m2, hm2, _⟩ := hrest.suffix
    have e : m ++ r = (dg ++ m2) ++ r := by rw [← hm, hdg1, hm2, List.append_assoc]
    have hm' : m = dg ++ m2 := List.append_cancel_right e
    cases dg with
    | nil => exact absurd rfl hdg0
    | cons c dg => exact ⟨c, dg ++ m2, by rw [hpm, hm']; rfl, hdgall c (by simp)⟩

/-- The leftmost years phrase starts with its number: reading the first digit run of the
phrase never fails and gives that number. -/
theorem year_phrase_digits (text phrase : Str) (rest : List Str)
    (h : matchAll yearRegex text = phrase :: rest) :
    ∃ more, matchAll digitsRegex phrase = phrase.takeWhile isDigit :: more := by
  obtain ⟨c, cs, hp, hc⟩ := year_phrase_head text phrase rest h
  have hne : phrase.takeWhile isDigit ≠ [] := by
    rw [hp]; simp [List.takeWhile_cons, hc]
  have hmatch : Re.matchAt digitsRegex none
      (phrase.takeWhile isDigit ++ phrase.dropWhile isDigit)
      = some (phrase.dropWhile isDigit) := by
    rw [List.takeWhile_append_dropWhile, show digitsRegex = Re.many 1 isDigit from rfl,
      Re.matchAt_many, if_pos]
    rw [hp]; simp [List.takeWhile_cons, hc]
  have := matchAll_hit digitsRegex rfl _ _ hne hmatch
  rw [List.takeWhile_append_dropWhile] at this
  exact ⟨_, this⟩

theorem doubleLimit_eq : doubleLimit = 2 ^ 1024 := by norm_num [doubleLimit]

/-- Below 2^53 every natural number is a double. -/
theorem toDouble_small (n : Nat) (h : n < 2 ^ 53) : toDouble n = .fin n := by
  simp only [toDouble, h, if_true]

theorem scale_spec : ∀ (fuel n : Nat), n ≤ fuel → 2 ^ 53 ≤ n →
    2 ≤ scale fuel n ∧ 2 ^ 52 ≤ n / scale fuel n := by
  intro fuel
  induction fuel with
  | zero => intro n h1 h2; omega
  | succ fuel ih =>
    intro n h1 h2
    have hn : ¬ n < 2 ^ 53 := by omega
    simp only [scale, hn, if_false]
    by_cases h3 : n / 2 < 2 ^ 53
    · have hs : scale fuel (n / 2) = 1 := by
        cases fuel with
        | zero => rfl
        | succ f => simp only [scale, h3, if_true]
      rw [hs]
      constructor
      · omega
      · show 2 ^ 52 ≤ n / (2 * 1)
        omega
    · obtain ⟨p1, p2⟩ := ih (n / 2) (by omega) (by omega)
      constructor
      · omega
      · rw [← Nat.div_div_eq_div_mul]
        exact p2

/-- From 2^53 on the nearest double is at least 2^53, or `Infinity`. -/
theorem toDouble_large (n : Nat) (h : 2 ^ 53 ≤ n) :
    toDouble n = .inf ∨ ∃ a, 2 ^ 53 ≤ a ∧ toDouble n = .fin a := by
  have hn : ¬ n < 2 ^ 53 := by omega
  obtain ⟨p1, p2⟩ := scale_spec n n (le_refl _) h
  simp only [toDouble, hn, if_false]
  split
  · right
    refine ⟨_, ?_, rfl⟩
    have h1 : n / scale n n ≤ significand n (scale n n) := by
      unfold significand
      split <;> omega
    calc 2 ^ 53 = 2 ^ 52 * 2 := by norm_num
      _ ≤ significand n (scale n n) * scale n n :=
        Nat.mul_le_mul (le_trans p2 h1) p1
  · left; rfl

theorem scale_pow : ∀ (fuel n : Nat), n ≤ fuel →
    n / scale fuel n < 2 ^ 53 ∧ ∃ e, scale fuel n = 2 ^ e := by
  intro fuel
  induction fuel with
  | zero =>
    intro n h
    have : n = 0 := by omega
    subst this
    exact ⟨by simp [scale], 0, rfl⟩
  | succ fuel ih =>
    intro n h
    by_cases hn : n < 2 ^ 53
    · simp only [scale, hn, if_true]
      exact ⟨by simpa using hn, 0, rfl⟩
    · simp only [scale, hn, if_false]
      obtain ⟨p1, e, p2⟩ := ih (n / 2) (by omega)
      refine ⟨?_, e + 1, by rw [p2, pow_succ, Nat.mul_comm]⟩
      rw [← Nat.div_div_eq_div_mul]
      exact p1

/-- The finite value of `toDouble` is a double, a significand of at most 53 bits times a
power of two, and lies within half a unit of the last place of the number. -/
theorem toDouble_nearest (n a : Nat) (h : toDouble n = .fin a) :
    ∃ q e, a = q * 2 ^ e ∧ q ≤ 2 ^ 53 ∧ 2 * a ≤ 2 * n + 2 ^ e ∧ 2 * n ≤ 2 * a + 2 ^ e := by
  by_cases hn : n < 2 ^ 53
  · rw [toDouble_small n hn] at h
    cases h
    exact ⟨n, 0, by simp, by omega, by omega, by omega⟩
  · obtain ⟨p1, e, p2⟩ := scale_pow n n (le_refl _)
    simp only [toDouble, hn, if_false] at h
    split at h
    · cases h
      refine ⟨significand n (scale n n), e, by rw [p2], ?_, ?_, ?_⟩
      · unfold significand
        split <;> omega
      · have hd := Nat.div_add_mod n (scale n n)
        have hpos : 0 < scale n n := by rw [p2]; positivity
        have hr := Nat.mod_lt n hpos
        rw [← p2]
        unfold significand
        split
        · rename_i hc
          rw [Nat.add_mul, Nat.one_mul]
          have e1 : n / scale n n * scale n n = scale n n * (n / scale n n) := Nat.mul_comm _ _
          rcases hc with hc | ⟨hc, _⟩ <;> omega
        · have e1 : n / scale n n * scale n n = scale n n * (n / scale n n) := Nat.mul_comm _ _
          omega
      · have hd := Nat.div_add_mod n (scale n n)
        have hpos : 0 < scale n n := by rw [p2]; positivity
        have hr := Nat.mod_lt n hpos
        rw [← p2]
        unfold significand
        split
        · rw [Nat.add_mul, Nat.one_mul]
          have e1 : n / scale n n * scale n n = scale n n * (n / scale n n) := Nat.mul_comm _ _
          omega
        · rename_i hc
          have e1 : n / scale n n * scale n n = scale n n * (n / scale n n) := Nat.mul_comm _ _
          simp only [not_or, not_lt, not_and] at hc
          omega
    · cases h

/-- What the pattern of four digits finds in a text are runs of four digits. -/
theorem matchAll_fourDigits_mem :
    ∀ (n : Nat) (s : Str), s.length ≤ n → ∀ y ∈ matchAll fourDigitsRegex s,
      ∃ c1 c2 c3 c4, y = [c1, c2, c3, c4] ∧ isDigit c1 = true ∧ isDigit c2 = true ∧
        isDigit c3 = true ∧ isDigit c4 = true := by
  intro n
  induction n with
  | zero =>
    intro s hs y hy
    have : s = [] := List.length_eq_zero.mp (Nat.le_zero.mp hs)
    subst this
    rw [matchAll_fourDigits_nil] at hy
    simp at hy
  | succ n ih =>
    intro s hs y hy
    cases s with
    | nil => rw [matchAll_fourDigits_nil] at hy; simp at hy
    | cons c cs =>
      cases h4 : fourDigitsAt (c :: cs) with
      | none =>
        rw [matchAll_step fourDigitsRegex rfl c cs (by rw [matchAt_fourDigits, h4])] at hy
        exact ih cs (by simpa using hs) y hy
      | some r =>
        obtain ⟨c1, c2, c3, c4, es, d1, d2, d3, d4⟩ := fourDigitsAt_some _ _ h4
        rw [es, matchAll_fourDigits_hit c1 c2 c3 c4 r d1 d2 d3 d4] at hy
        rcases List.mem_cons.mp hy with e | hy
        · exact ⟨c1, c2, c3, c4, e, d1, d2, d3, d4⟩
        · apply ih r _ y hy
          have := congrArg List.length es
          simp only [List.length_cons] at this hs
          omega

/-- A run of four digits is read exactly and is not the word `present`. -/
theorem four_digits_value (c1 c2 c3 c4 : Char) (h1 : isDigit c1 = true) (h2 : isDigit c2 = true)
    (h3 : isDigit c3 = true) (h4 : isDigit c4 = true) :
    parseInt [c1, c2, c3, c4] = .fin (digitsValue [c1, c2, c3, c4]) ∧
    digitsValue [c1, c2, c3, c4] < 10000 ∧
    includes (toLowerCase [c1, c2, c3, c4]) "present".toList = false := by
  have hv : digitsValue [c1, c2, c3, c4] < 10000 := by
    simp only [digitsValue, List.takeWhile_cons, h1, h2, h3, h4, if_true, List.takeWhile_nil,
      List.foldl_cons, List.foldl_nil]
    simp only [isDigit, Bool.and_eq_true, decide_eq_true_eq] at h1 h2 h3 h4
    omega
  refine ⟨?_, hv, ?_⟩
  · have ht : [c1, c2, c3, c4].takeWhile isDigit = [c1, c2, c3, c4] := by
      simp [List.takeWhile_cons, h1, h2, h3, h4]
    simp only [parseInt, ht]
    exact toDouble_small _ (by omega)
  · by_contra h
    have h : includes (toLowerCase [c1, c2, c3, c4]) "present".toList = true := by simpa using h
    have := ((includes_iff _ _).mp h).length_le
    rw [toLowerCase_ascii _ (by
      intro c hc
      simp only [List.mem_cons, List.mem_singleton, List.not_mem_nil, or_false] at hc
      simp only [isDigit, Bool.and_eq_true, decide_eq_true_eq] at h1 h2 h3 h4
      rcases hc with e | e | e | e <;> subst e <;> omega)] at this
    simp at this

theorem totalIs_add (exact x : Nat) (total : Num) (h : TotalIs exact total) :
    TotalIs (exact + x) (total.add (.fin x)) := by
  rcases h with ⟨h1, h2⟩ | ⟨h1, h2 | ⟨a, ha, h2⟩⟩
  · subst h2
    simp only [Num.add]
    by_cases hs : exact + x < 2 ^ 53
    · left; exact ⟨hs, toDouble_small _ hs⟩
    · right; exact ⟨by omega, toDouble_large _ (by omega)⟩
  · subst h2
    right; exact ⟨by omega, Or.inl rfl⟩
  · subst h2
    right
    simp only [Num.add]
    exact ⟨by omega, toDouble_large _ (by omega)⟩

theorem totalIs_addRange (cy : Nat) (d : Str) (exact : Nat) (total : Num)
    (h : TotalIs exact total) :
    TotalIs (exact + rangeYears cy d) (addRange cy total d) := by
  have hmem := matchAll_fourDigits_mem d.length d (le_refl _)
  unfold rangeYears addRange
  cases hm : matchAll fourDigitsRegex d with
  | nil => simpa using h
  | cons y0 l =>
    cases l with
    | nil => simpa using h
    | cons y1 l =>
      rw [hm] at hmem
      obtain ⟨a1, a2, a3, a4, e0, p1, p2, p3, p4⟩ := hmem y0 (by simp)
      obtain ⟨b1, b2, b3, b4, e1, q1, q2, q3, q4⟩ := hmem y1 (by simp)
      obtain ⟨v0, w0, _⟩ := four_digits_value a1 a2 a3 a4 p1 p2 p3 p4
      obtain ⟨v1, w1, i1⟩ := four_digits_value b1 b2 b3 b4 q1 q2 q3 q4
      subst e0 e1
      simp only [i1, Bool.false_eq_true, if_false, v0, v1, Num.spanFrom]
      rw [toDouble_small _ (by omega)]
      exact totalIs_add _ _ _ h

theorem totalIs_foldl (cy : Nat) (ds : List Str) :
    ∀ (exact : Nat) (total : Num), TotalIs exact total →
      TotalIs (exact + (ds.map (rangeYears cy)).sum) (ds.foldl (addRange cy) total) := by
  induction ds with
  | nil => intro exact total h; simpa using h
  | cons d ds ih =>
    intro exact total h
    have := ih _ _ (totalIs_addRange cy d exact total h)
    simpa [Nat.add_assoc] using this

theorem totalIs_min50 (exact : Nat) (total : Num) (h : TotalIs exact total) :
    total.min50 = .fin (min 50 exact) := by
  rcases h with ⟨_, h2⟩ | ⟨h1, h2 | ⟨a, ha, h2⟩⟩
  · subst h2; simp only [Num.min50, Nat.min_comm]
  · subst h2
    simp only [Num.min50]
    congr 1
    omega
  · subst h2
    simp only [Num.min50]
    congr 1
    omega

/-- Reading the number of a years phrase: the double nearest to the number it writes. -/
theorem parseInt_phrase (phrase : Str) (c : Char) (cs : Str) (hp : phrase = c :: cs)
    (hc : isDigit c = true) :
    parseInt (phrase.takeWhile isDigit) = toDouble (digitsValue phrase) := by
  subst hp
  unfold parseInt
  rw [takeWhile_idem]
  simp only [List.takeWhile_cons, hc, if_true]
  congr 1
  have := digitsValue_takeWhile (c :: cs)
  simp only [List.takeWhile_cons, hc, if_true] at this
  exact this

theorem years_phrase_path (currentYear : Nat) (text phrase : Str) (rest : List Str)
    (h : matchAll yearRegex text = phrase :: rest) :
    extractYearsOfExperience currentYear text = .ok (toDouble (digitsValue phrase)) := by
  obtain ⟨more, hd⟩ := year_phrase_digits text phrase rest h
  obtain ⟨c, cs, hp, hc⟩ := year_phrase_head text phrase rest h
  simp only [extractYearsOfExperience, h, hd, parseInt_phrase phrase c cs hp hc]

theorem years_dates_path (currentYear : Nat) (text : Str) (h : matchAll yearRegex text = []) :
    extractYearsOfExperience currentYear text
      = .ok (.fin (min 50 ((matchAll numericRangeRegex text).map rangeSpan).sum)) := by
  have hsum := date_scan_sum currentYear text.length text (le_refl _)
  cases hd : matchAll dateRegex text with
  | nil =>
    rw [hd] at hsum
    simp only [extractYearsOfExperience, h, hd]
    rw [← hsum]
    rfl
  | cons m ms =>
    rw [hd] at hsum
    simp only [extractYearsOfExperience, h, hd]
    have hinv := totalIs_foldl currentYear (m :: ms) 0 (.fin 0) (Or.inl ⟨by norm_num, rfl⟩)
    rw [Nat.zero_add, hsum] at hinv
    rw [totalIs_min50 _ _ hinv]

/-- C20 (counterexample): the phrase `9007199254740993 years of experience` names the
integer 2^53 + 1, which no double holds: `parseInt` returns the nearest double, and the
result is 9007199254740992, not the integer of the phrase. A digit run of 310 digits is read
as `Infinity`. -/
theorem years_phrase_beyond_double :
    extractYearsOfExperience 2026 "9007199254740993 years of experience".toList
      = .ok (.fin 9007199254740992) ∧
    yearsOfExperienceReference "9007199254740993 years of experience".toList
      = 9007199254740993 ∧
    parseInt "9007199254740993".toList = .fin 9007199254740992 ∧
    parseInt "9007199254740995".toList = .fin 9007199254740996 ∧
    parseInt ('1' :: List.replicate 309 '0') = .inf :=
  ⟨rfl, by decide, by decide, by decide, by
    set_option maxRecDepth 100000 in decide⟩

/-- C20 (amended): for every text and every current year, `extractYearsOfExperience` returns
the value of the amended reference definition. When the text contains an explicit
`N years/yrs (of) experience/exp` phrase the result is the double nearest to the integer `N`
of the leftmost such phrase, whatever date ranges the text contains: `N` itself when
`N < 2^53`. Otherwise it is the sum over the `YYYY-YYYY` ranges found in the text of the end
year minus the start year (0 when negative), clipped to 50, and 0 when the text has
neither. Whenever the value of the original reference definition is below 2^53 the result
is that value; a finite result is a significand of at most 53 bits times a power of two
within half a unit of the last place of `N`. -/
theorem years_of_experience_rounded (currentYear : Nat) (text : Str) :
    extractYearsOfExperience currentYear text = .ok (yearsOfExperienceRounded text) ∧
    (∀ phrase rest, matchAll yearRegex text = phrase :: rest →
      extractYearsOfExperience currentYear text = .ok (toDouble (digitsValue phrase)) ∧
      (digitsValue phrase < 2 ^ 53 →
        extractYearsOfExperience currentYear text = .ok (.fin (digitsValue phrase)))) ∧
    (matchAll yearRegex text = [] →
      extractYearsOfExperience currentYear text
        = .ok (.fin (min 50 ((matchAll numericRangeRegex text).map rangeSpan).sum))) ∧
    (matchAll yearRegex text = [] → matchAll numericRangeRegex text = [] →
      extractYearsOfExperience currentYear text = .ok (.fin 0)) ∧
    (yearsOfExperienceReference text < 2 ^ 53 →
      extractYearsOfExperience currentYear text = .ok (.fin (yearsOfExperienceReference text))) ∧
    (∀ n : Nat, n < 2 ^ 53 → toDouble n = .fin n) ∧
    (∀ n a : Nat, toDouble n = .fin a →
      ∃ q e, a = q * 2 ^ e ∧ q ≤ 2 ^ 53 ∧ 2 * a ≤ 2 * n + 2 ^ e ∧ 2 * n ≤ 2 * a + 2 ^ e) := by
  have hphrase := years_phrase_path currentYear text
  have hdates := years_dates_path currentYear text
  refine ⟨?_, ?_, hdates, ?_, ?_, toDouble_small, toDouble_nearest⟩
  · cases h : matchAll yearRegex text with
    | nil =>
      rw [hdates h]
      simp only [yearsOfExperienceRounded, h]
    | cons phrase rest =>
      rw [hphrase phrase rest h]
      simp only [yearsOfExperienceRounded, h]
  · intro phrase rest h
    refine ⟨hphrase phrase rest h, fun hlt => ?_⟩
    rw [hphrase phrase rest h, toDouble_small _ hlt]
  · intro h1 h2
    rw [hdates h1, h2]
    rfl
  · intro hlt
    cases h : matchAll yearRegex text with
    | nil =>
      rw [hdates h]
      simp only [yearsOfExperienceReference, h]
    | cons phrase rest =>
      simp only [yearsOfExperienceReference, h] at hlt
      rw [hphrase phrase rest h, toDouble_small _ hlt]
      simp only [yearsOfExperienceReference, h]

/-- Witness for C20: a text with a years phrase and a date range. -/
theorem years_of_experience_rounded_witness :
    extractYearsOfExperience 2026 "12 Years of experience, 2010-2020".toList
      = .ok (.fin (digitsValue "12 Years of experience".toList)) :=
  ((years_of_experience_rounded 2026
    "12 Years of experience, 2010-2020".toList).2.1
    "12 Years of experience".toList [] (by decide)).2 (by decide)

theorem yearsOfExperienceReference_sample :
    yearsOfExperienceReference
      "2010-2015, 2016 — 2020 and 1990–2026, 2021 - present".toList = 45 ∧
    yearsOfExperienceReference "7yrs exp since 2001-2024".toList = 7 := by
  decide

/-! ## Presence without a body (claim C21) -/

theorem mem_identifySections_names (text : Str) (e : Str × List Str) (he : e ∈ sectionKeywords)
    (hfound : sectionFound text e = true) :
    e.1 ∈ (identifySections text).map (fun r => r.name) := by
  have hnames := names_filterMap text sectionKeywords
  rw [← identifySections_eq] at hnames
  rw [hnames]
  exact List.mem_map.mpr ⟨e, List.mem_filter.mpr ⟨he, hfound⟩, rfl⟩

theorem identifySections_present (text : Str) :
    ∀ r ∈ identifySections text, r.present = true := by
  intro r hr
  rw [identifySections_eq, List.mem_filterMap] at hr
  obtain ⟨e, _, he⟩ := hr
  split at he
  · cases he; rfl
  · cases he

/-- C21: presence and body extraction may disagree. For every text of one line whose
lower-cased form contains one of the keywords `experience`, `work`, `employment`, `career`
(the single line `Experience` is one), `identifySections` lists Experience with
`present = true` while `extractExperience` returns the empty string. -/
theorem presence_without_body (text : Str) (hline : '\n' ∉ text)
    (hkey : ∃ k ∈ ["experience".toList, "work".toList, "employment".toList, "career".toList],
      includes (toLowerCase text) k = true) :
    (∃ r ∈ identifySections text, r.name = "Experience".toList ∧ r.present = true) ∧
    extractExperience text = .ok [] := by
  obtain ⟨k, hk, hin⟩ := hkey
  have hsplit : split '\n' text = [text] := split_of_not_mem '\n' text hline
  have he : ("Experience".toList,
      ["experience".toList, "work".toList, "employment".toList, "career".toList])
      ∈ sectionKeywords := by decide
  constructor
  · have hfound := (sectionFound_iff text _ he).mpr
      ⟨text, by rw [hsplit]; simp, k, hk, hin⟩
    have hmem := mem_identifySections_names text _ he hfound
    obtain ⟨r, hr, hname⟩ := List.mem_map.mp hmem
    exact ⟨r, hr, hname, identifySections_present text r hr⟩
  · have hk2 : k ∈ experienceKeywords := by
      revert hk
      simp only [List.mem_cons, List.mem_singleton, List.not_mem_nil, or_false]
      rintro (h | h | h | h) <;> subst h <;> decide
    have hlow := fixed_keywords_noUpper experienceKeywords (by simp)
    have hsolid : k ≠ [] ∧ trim k = k := by
      revert hk
      simp only [List.mem_cons, List.mem_singleton, List.not_mem_nil, or_false]
      rintro (h | h | h | h) <;> subst h <;> decide
    have hmatch : keywordMatch experienceKeywords (trim (toLowerCase text)) = true := by
      rw [keywordMatch_eq_any_includes _ hlow _ (noUpper_trim_toLowerCase text),
        List.any_eq_true]
      exact ⟨k, hk2, by
        rw [includes_trim _ k hsolid.1 (trimmed_of_trim_eq k hsolid.2)]; exact hin⟩
    have hstart : findSectionStart experienceKeywords (split '\n' text) = some 0 := by
      rw [hsplit]
      simp only [findSectionStart, findLine, hmatch, if_true]
    have hbody := extractSection_of_start text experienceKeywords hlow 0 hstart
    have hend : findSectionEnd experienceKeywords (split '\n' text) 0 = none := by
      rw [hsplit]
      rfl
    rw [hend, hsplit] at hbody
    exact hbody

/-- Witness for C21: the single line `Experience`. -/
theorem presence_without_body_witness :
    (∃ r ∈ identifySections "Experience".toList,
      r.name = "Experience".toList ∧ r.present = true) ∧
    extractExperience "Experience".toList = .ok [] :=
  presence_without_body "Experience".toList (by decide)
    ⟨"experience".toList, by decide, by decide⟩

/-! ## The shape of the word-processor text (claim C22) -/

theorem cleanWordText_chars (decoded : Str) :
    ∀ c ∈ cleanWordText decoded, 0x20 ≤ c.toNat ∧ c.toNat ≤ 0x7E := by
  intro c hc
  have h1 := (trim_part _).subset hc
  by_cases hs : isSpace c = true
  · have := replaceAll_spaces_space _ _ h1 hs
    subst this
    decide
  · rcases mem_replaceAll _ _ _ _ h1 with h2 | h2
    · have : c = ' ' := by simpa using h2
      subst this
      decide
    · by_cases hp : (!((0x20 ≤ c.toNat && c.toNat ≤ 0x7E) || c == '\n' || c == '\r'
          || c == '\t')) = true
      · have := replaceAll_cls_class _ _ _ c h2 hp
        have : c = ' ' := by simpa using this
        subst this
        decide
      · simp only [Bool.not_eq_true', Bool.not_eq_false, Bool.or_eq_true, Bool.and_eq_true,
          decide_eq_true_eq, beq_iff_eq] at hp
        rcases hp with ((h | h) | h) | h
        · exact h
        · subst h; exact absurd (by decide) hs
        · subst h; exact absurd (by decide) hs
        · subst h; exact absurd (by decide) hs

theorem cleanWordText_no_double_space (decoded : Str) :
    ¬ ([' ', ' '] <:+: cleanWordText decoded) := by
  intro h
  have hchain := List.Chain'.infix (replaceAll_spaces_chain
    (replaceAll nonPrintableRegex " ".toList decoded)) (h.trans (trim_part _))
  rw [List.chain'_cons] at hchain
  exact hchain.1 ⟨by decide, by decide⟩

set_option maxRecDepth 8000 in
theorem wordPlaceholder_shape :
    (∀ c ∈ wordPlaceholder, 0x20 ≤ c.toNat ∧ c.toNat ≤ 0x7E) ∧
    includes wordPlaceholder [' ', ' '] = false ∧
    trim wordPlaceholder = wordPlaceholder ∧
    wordPlaceholder.length = 144 :=
  ⟨by decide, by decide, by decide, by decide⟩

/-- C22: for every decoded content, the text returned by `extractTextFromWordBuffer`
consists of printable ASCII characters only (codes 0x20 to 0x7E), so it holds no line feed,
carriage return or tab; it has no two consecutive spaces, no leading and no trailing
whitespace, and at least 50 characters; it is the cleaned text or the placeholder. -/
theorem word_text_shape (decoded : Str) :
    (∀ c ∈ extractTextFromWordBuffer decoded, 0x20 ≤ c.toNat ∧ c.toNat ≤ 0x7E) ∧
    (∀ c ∈ extractTextFromWordBuffer decoded, c ≠ '\n' ∧ c ≠ '\r' ∧ c ≠ '\t') ∧
    ¬ ([' ', ' '] <:+: extractTextFromWordBuffer decoded) ∧
    Trimmed (extractTextFromWordBuffer decoded) ∧
    (extractTextFromWordBuffer decoded).head? ≠ some ' ' ∧
    (extractTextFromWordBuffer decoded).getLast? ≠ some ' ' ∧
    50 ≤ (extractTextFromWordBuffer decoded).length ∧
    (extractTextFromWordBuffer decoded = cleanWordText decoded ∨
      extractTextFromWordBuffer decoded = wordPlaceholder) := by
  have hchars : ∀ c ∈ extractTextFromWordBuffer decoded, 0x20 ≤ c.toNat ∧ c.toNat ≤ 0x7E := by
    unfold extractTextFromWordBuffer
    split
    · exact wordPlaceholder_shape.1
    · exact cleanWordText_chars decoded
  have htrim : Trimmed (extractTextFromWordBuffer decoded) := by
    unfold extractTextFromWordBuffer
    split
    · exact trimmed_of_trim_eq _ wordPlaceholder_shape.2.2.1
    · exact trimmed_trim _
  refine ⟨hchars, ?_, ?_, htrim, ?_, ?_, ?_, ?_⟩
  · intro c hc
    have h := hchars c hc
    refine ⟨?_, ?_, ?_⟩ <;> intro e <;> subst e <;> revert h <;> decide
  · unfold extractTextFromWordBuffer
    split
    · rw [← includes_iff]
      simp [wordPlaceholder_shape.2.1]
    · exact cleanWordText_no_double_space decoded
  · intro e
    have := htrim.1 ' ' e
    revert this; decide
  · intro e
    have := htrim.2 ' ' e
    revert this; decide
  · unfold extractTextFromWordBuffer
    split
    · rw [wordPlaceholder_shape.2.2.2]; omega
    · omega
  · unfold extractTextFromWordBuffer
    split
    · right; rfl
    · left; rfl

/-! ## The phone number (claim C23) -/

/-- C23 (failing input): for the text `(555) 123-4567` the phone is `555) 123-4567`, without
the opening parenthesis. The pattern of the source starts with a word boundary, which does
not hold between the start of the text and `(`, so the match starts at the first digit; the
closing parenthesis is kept. The pattern without the word boundaries matches the whole text.
Likewise the `+` of a country code at the start of a text is dropped. -/
theorem phone_drops_opening_parenthesis :
    (extractPersonalInfo "(555) 123-4567".toList).phone = "555) 123-4567".toList ∧
    Re.matchAt phoneRegex none "(555) 123-4567".toList = none ∧
    Re.matchAt phoneRegex (some '(') "555) 123-4567".toList = some [] ∧
    firstMatch phonePatternOfSpec "(555) 123-4567".toList = "(555) 123-4567".toList ∧
    (extractPersonalInfo "Call (555) 123-4567 now".toList).phone = "555) 123-4567".toList ∧
    (extractPersonalInfo "+1 555 123 4567".toList).phone = "1 555 123 4567".toList ∧
    (extractPersonalInfo "555-123-4567".toList).phone = "555-123-4567".toList := by
  decide

/-! ## The header line of a section (claim C28) -/

/-- C28 (counterexample): with the keyword list `["Skills"]` the line `skills` is the start
line, found by the word-boundary test under the `i` flag, but its lower-cased form does
not include the keyword, so the header-removal condition fails and the start line stays
in the body. -/
theorem header_kept_for_uppercase_keyword :
    findSectionStart ["Skills".toList] (split '\n' "skills\nPython".toList) = some 0 ∧
    includes (toLowerCase (trim "skills".toList)) "Skills".toList = false ∧
    extractSection "skills\nPython".toList ["Skills".toList] = .ok "skills\nPython".toList ∧
    trim (join '\n' (slice (split '\n' "skills\nPython".toList) (0 + 1) 2)) = "Python".toList :=
  ⟨by decide, by decide, rfl, by decide⟩

theorem noUpper_of_plainKeyword (k : Str) (h : plainKeyword k = true) : noUpper k = true := by
  rw [noUpper_iff]
  intro c hc
  have := List.all_eq_true.mp h c hc
  simp only [Bool.or_eq_true, beq_iff_eq] at this
  rcases this with (h1 | h1) | h1
  · simp only [isLower, Bool.and_eq_true, decide_eq_true_eq] at h1
    simp only [isUpper, Bool.and_eq_false_iff, decide_eq_false_iff_not]
    omega
  · simp only [isDigit, Bool.and_eq_true, decide_eq_true_eq] at h1
    simp only [isUpper, Bool.and_eq_false_iff, decide_eq_false_iff_not]
    omega
  · subst h1; decide

/-- C28 (amended): for every text and every list of keywords made of lower-case letters,
digits and spaces (the four fixed lists are such lists), when a start line was found its
lower-cased trimmed form contains a keyword, so the header-removal condition holds and the
result is the trimmed join of the lines strictly after the start line and before the end
line (the end of the text when no end line was found). The one-line text
`Skills: Python, Java` yields an empty skills body. -/
theorem header_removed_for_lowercase_keywords (text : Str) (keywords : List Str)
    (hplain : ∀ k ∈ keywords, plainKeyword k = true) (a : Nat)
    (hstart : findSectionStart keywords (split '\n' text) = some a) :
    (∃ l, (split '\n' text)[a]? = some l ∧
      keywords.any (fun k => includes (toLowerCase (trim l)) k) = true) ∧
    extractSection text keywords = .ok (trim (join '\n' (slice (split '\n' text) (a + 1)
      (match findSectionEnd keywords (split '\n' text) a with
       | none => (split '\n' text).length
       | some e => e)))) ∧
    (∀ k ∈ experienceKeywords ++ educationKeywords ++ skillsKeywords ++ summaryKeywords,
      plainKeyword k = true) ∧
    extractSkills "Skills: Python, Java".toList = .ok [] := by
  have hlow : ∀ k ∈ keywords, noUpper k = true :=
    fun k hk => noUpper_of_plainKeyword k (hplain k hk)
  refine ⟨?_, extractSection_of_start text keywords hlow a hstart, by decide, rfl⟩
  have hs := hstart
  unfold findSectionStart at hs
  rw [findLine_eq_some_iff] at hs
  obtain ⟨_, ⟨l, hl, hmatch⟩, _⟩ := hs
  simp only [Nat.sub_zero] at hl
  rw [keywordMatch_eq_any_includes keywords hlow _ (noUpper_trim_toLowerCase l),
    trim_toLowerCase] at hmatch
  exact ⟨l, hl, hmatch⟩

/-- Witness for C28: the skills list on a header line that carries its content. -/
theorem header_removed_for_lowercase_keywords_witness :
    extractSection "Name\nSkills: Python, Java\nLean".toList skillsKeywords
      = .ok (trim (join '\n' (slice (split '\n' "Name\nSkills: Python, Java\nLean".toList) (1 + 1)
          (match findSectionEnd skillsKeywords
              (split '\n' "Name\nSkills: Python, Java\nLean".toList) 1 with
           | none => (split '\n' "Name\nSkills: Python, Java\nLean".toList).length
           | some e => e)))) :=
  (header_removed_for_lowercase_keywords "Name\nSkills: Python, Java\nLean".toList skillsKeywords
    (by decide) 1 (by decide)).2.1

/-! ## Presence of a section whose body was found (claim C30) -/

theorem listed_of_start (text : Str) (kw extras : List Str) (e : Str × List Str)
    (he : e ∈ sectionKeywords) (hlow : ∀ k ∈ kw, noUpper k = true)
    (htable : kw.all (fun k => e.2.any (fun k2 => includes k k2) || extras.contains k) = true)
    (a : Nat) (hstart : findSectionStart kw (split '\n' text) = some a) :
    e.1 ∈ (identifySections text).map (fun r => r.name) ∨
    ∃ l, (split '\n' text)[a]? = some l ∧ ∃ k ∈ extras, includes (toLowerCase l) k = true := by
  have hs := hstart
  unfold findSectionStart at hs
  rw [findLine_eq_some_iff] at hs
  obtain ⟨_, ⟨l, hl, hmatch⟩, _⟩ := hs
  simp only [Nat.sub_zero] at hl
  rw [keywordMatch_eq_any_includes kw hlow _ (noUpper_trim_toLowerCase l),
    List.any_eq_true] at hmatch
  obtain ⟨k, hk, hin⟩ := hmatch
  have hin2 : includes (toLowerCase l) k = true :=
    (includes_iff _ _).mpr (((includes_iff _ _).mp hin).trans (trim_part _))
  have hrow := List.all_eq_true.mp htable k hk
  rw [Bool.or_eq_true] at hrow
  rcases hrow with hrow | hrow
  · left
    obtain ⟨k2, hk2, hin3⟩ := List.any_eq_true.mp hrow
    have hin4 : includes (toLowerCase l) k2 = true :=
      (includes_iff _ _).mpr (((includes_iff _ _).mp hin3).trans ((includes_iff _ _).mp hin2))
    exact mem_identifySections_names text e he
      ((sectionFound_iff text e he).mpr
        ⟨l, List.mem_iff_getElem?.mpr ⟨a, hl⟩, k2, hk2, hin4⟩)
  · right
    refine ⟨l, hl, k, ?_, hin2⟩
    simpa using hrow

/-- C30 (counterexample): for the text `School` / `MIT` the education extractor finds the
start line `School` and returns the body `MIT`, but `identifySections` lists no section:
`school` is a keyword of `extractEducation` only. The same happens for Experience with
`professional background` and for Skills with `expertise`. -/
theorem body_without_presence :
    findSectionStart educationKeywords (split '\n' "School\nMIT".toList) = some 0 ∧
    extractEducation "School\nMIT".toList = .ok "MIT".toList ∧
    (identifySections "School\nMIT".toList).map (fun r => r.name) = [] ∧
    extractExperience "Professional Background\nBuilt things".toList
      = .ok "Built things".toList ∧
    (identifySections "Professional Background\nBuilt things".toList).map (fun r => r.name)
      = [] ∧
    extractSkills "Expertise\nLean".toList = .ok "Lean".toList ∧
    (identifySections "Expertise\nLean".toList).map (fun r => r.name) = [] :=
  ⟨by decide, rfl, by decide, rfl, by decide, rfl, by decide⟩

/-- C30 (amended): for every text and each of Summary, Experience, Education and Skills,
when the body extractor finds a start line, `identifySections` lists the section of the
same name, unless the start line (lower-cased) contains one of the extractor keywords that
the table of `identifySections` does not cover: `professional background` for Experience,
`school` or `qualifications` for Education, `expertise` or `skill set` for Skills. For
Summary there is no such keyword, so Summary is always listed. -/
theorem presence_follows_start (text : Str) (e : Str × List Str × List Str)
    (he : e ∈ extractorTable) (a : Nat)
    (hstart : findSectionStart e.2.1 (split '\n' text) = some a) :
    (e.1 ∈ (identifySections text).map (fun r => r.name) ∨
      ∃ l, (split '\n' text)[a]? = some l ∧
        ∃ k ∈ e.2.2, includes (toLowerCase l) k = true) ∧
    (e.1 = "Summary".toList → e.1 ∈ (identifySections text).map (fun r => r.name)) ∧
    (∀ r ∈ identifySections text, r.present = true) := by
  have key : e.1 ∈ (identifySections text).map (fun r => r.name) ∨
      ∃ l, (split '\n' text)[a]? = some l ∧
        ∃ k ∈ e.2.2, includes (toLowerCase l) k = true := by
    simp only [extractorTable, List.mem_cons, List.mem_singleton, List.not_mem_nil,
      or_false] at he
    rcases he with h | h | h | h <;> subst h
    · exact listed_of_start text summaryKeywords []
        ("Summary".toList, ["summary".toList, "objective".toList, "profile".toList,
          "overview".toList]) (by decide) (fixed_keywords_noUpper _ (by simp)) (by decide)
        a hstart
    · exact listed_of_start text experienceKeywords ["professional background".toList]
        ("Experience".toList, ["experience".toList, "work".toList, "employment".toList,
          "career".toList]) (by decide) (fixed_keywords_noUpper _ (by simp)) (by decide)
        a hstart
    · exact listed_of_start text educationKeywords ["school".toList, "qualifications".toList]
        ("Education".toList, ["education".toList, "academic".toList, "university".toList,
          "college".toList]) (by decide) (fixed_keywords_noUpper _ (by simp)) (by decide)
        a hstart
    · exact listed_of_start text skillsKeywords ["expertise".toList, "skill set".toList]
        ("Skills".toList, ["skills".toList, "technical".toList, "competencies".toList,
          "abilities".toList]) (by decide) (fixed_keywords_noUpper _ (by simp)) (by decide)
        a hstart
  refine ⟨key, ?_, identifySections_present text⟩
  intro hname
  rcases key with h | ⟨l, _, k, hk, _⟩
  · exact h
  · exfalso
    simp only [extractorTable, List.mem_cons, List.mem_singleton, List.not_mem_nil,
      or_false] at he
    rcases he with h | h | h | h <;> subst h
    · simp at hk
    · revert hname; decide
    · revert hname; decide
    · revert hname; decide

/-- Witness for C30: a skills header that the table of `identifySections` covers. -/
theorem presence_follows_start_witness :
    "Skills".toList ∈ (identifySections "Jane Doe\nTechnical Skills\nLean".toList).map
        (fun r => r.name) ∨
      ∃ l, (split '\n' "Jane Doe\nTechnical Skills\nLean".toList)[1]? = some l ∧
        ∃ k ∈ ["expertise".toList, "skill set".toList], includes (toLowerCase l) k = true :=
  (presence_follows_start "Jane Doe\nTechnical Skills\nLean".toList
    ("Skills".toList, skillsKeywords, ["expertise".toList, "skill set".toList])
    (by decide) 1 (by decide)).1

/-! ## Lines with characters outside ASCII -/

set_option maxRecDepth 100000 in
/-- The embedding on lines with the Kelvin sign (U+212A), which `toLowerCase` maps to `k`:
such a line starts and ends sections and marks them present like its ASCII spelling. -/
theorem kelvin_sign_samples :
    extractExperience "WOR\u212A\nBuilt things".toList = .ok "Built things".toList ∧
    (identifySections "WOR\u212A\nBuilt things".toList).map (fun r => r.name)
      = ["Experience".toList] ∧
    extractSkills "Skills\nLean\nWOR\u212A\nAcme".toList = .ok "Lean".toList ∧
    extractExperience "PROFESSIONAL BAC\u212AGROUND\nBuilt things".toList
      = .ok "Built things".toList ∧
    includes (toLowerCase "PROFESSIONAL BAC\u212AGROUND".toList)
      "professional background".toList = true ∧
    (identifySections "PROFESSIONAL BAC\u212AGROUND\nBuilt things".toList).map
      (fun r => r.name) = [] :=
  ⟨rfl, by decide, rfl, rfl, by decide, by decide⟩

/-! ## The sanitizer (claims C24 and C25) -/

/-- C24 (failing input): `sanitizeInput` removes each occurrence of `javascript:` in one
pass and removes the event handlers afterwards, so an occurrence that only comes together
when something is removed stays: `javajavascript:script:alert(1)` and
`javaonload=script:alert(1)` both give `javascript:alert(1)`. -/
theorem sanitizeInput_leaves_javascript :
    sanitizeInput (some "javajavascript:script:alert(1)".toList)
      = "javascript:alert(1)".toList ∧
    sanitizeInput (some "javaonload=script:alert(1)".toList) = "javascript:alert(1)".toList ∧
    includes (toLowerCase (sanitizeInput (some "javajavascript:script:alert(1)".toList)))
      "javascript:".toList = true ∧
    sanitizeInput (some "JavaScript:alert(1)".toList) = "alert(1)".toList := by
  decide

theorem replaceAllAux_cls_eq (p : Char → Bool) (rep : Str) :
    ∀ (s : Str) (prev : Option Char),
      replaceAllAux (Re.cls p) rep 0 prev s
        = (s.map (fun c => if p c = true then rep else [c])).flatten := by
  intro s
  induction s with
  | nil => intro prev; simp [replaceAllAux, Re.matchAt, Re.run]
  | cons c cs ih =>
    intro prev
    by_cases hp : p c = true
    · simp [replaceAllAux, Re.matchAt_cls_cons, hp, ih]
    · simp [replaceAllAux, Re.matchAt_cls_cons, hp, ih]

/-- Replacing every character of a class rewrites the text character by character. -/
theorem replaceAll_cls_eq (p : Char → Bool) (rep : Str) (s : Str) :
    replaceAll (Re.cls p) rep s = (s.map (fun c => if p c = true then rep else [c])).flatten :=
  replaceAllAux_cls_eq p rep s none

theorem escape_steps (s : Str) :
    replaceAll aposRegex "&#x27;".toList
      (replaceAll quoteRegex "&quot;".toList (replaceAll ampRegex "&amp;".toList s))
      = (s.map escapeChar).flatten := by
  simp only [aposRegex, quoteRegex, ampRegex, Re.chr, replaceAll_cls_eq]
  induction s with
  | nil => rfl
  | cons c t ih =>
    simp only [List.map_cons, List.flatten_cons, List.map_append, List.flatten_append, ih]
    congr 1
    by_cases h1 : c = '&'
    · subst h1; decide
    · by_cases h2 : c = '"'
      · subst h2; decide
      · by_cases h3 : c.toNat = 0x27
        · simp [escapeChar, h1, h2, h3]
        · simp [escapeChar, h1, h2, h3]

theorem escapeChar_cases (c : Char) :
    (escapeChar c ∈ entities ∧ (c = '&' ∨ c = '"' ∨ c.toNat = 0x27)) ∨
    (escapeChar c = [c] ∧ c ≠ '&' ∧ c ≠ '"' ∧ c.toNat ≠ 0x27) := by
  by_cases h1 : c = '&'
  · subst h1; left; decide
  · by_cases h2 : c = '"'
    · subst h2; left; decide
    · by_cases h3 : c.toNat = 0x27
      · left; simp [escapeChar, h1, h2, h3, entities]
      · right; simp [escapeChar, h1, h2, h3]

theorem entitiesOk_escape (s : Str) : entitiesOk ((s.map escapeChar).flatten) = true := by
  induction s with
  | nil => rfl
  | cons c t ih =>
    simp only [List.map_cons, List.flatten_cons]
    by_cases h1 : c = '&'
    · subst h1
      simp [escapeChar, entitiesOk, entities, ih]
    · by_cases h2 : c = '"'
      · subst h2
        simp [escapeChar, entitiesOk, entities, ih]
      · by_cases h3 : c.toNat = 0x27
        · simp [escapeChar, h1, h2, h3, entitiesOk, entities, ih]
        · simp [escapeChar, h1, h2, h3, entitiesOk, ih]

theorem entitiesOnly_of_ok : ∀ s : Str, entitiesOk s = true → EntitiesOnly s := by
  intro s
  induction s with
  | nil => intro _ pre post h; simp at h
  | cons c t ih =>
    intro hok pre post h
    simp only [entitiesOk, Bool.and_eq_true, Bool.or_eq_true] at hok
    cases pre with
    | nil =>
      simp only [List.nil_append, List.cons.injEq] at h
      obtain ⟨hc, ht⟩ := h
      subst hc; subst ht
      rcases hok.1 with h1 | h1
      · simp at h1
      · obtain ⟨e, he, hp⟩ := List.any_eq_true.mp h1
        exact ⟨e, he, List.isPrefixOf_iff_prefix.mp hp⟩
    | cons d pre =>
      simp only [List.cons_append, List.cons.injEq] at h
      exact ih hok.2 pre post h.2

theorem mem_escape (s : Str) (x : Char) (hx : x ∈ (s.map escapeChar).flatten) :
    (∃ e ∈ entities, x ∈ e) ∨ (x ∈ s ∧ x ≠ '&' ∧ x ≠ '"' ∧ x.toNat ≠ 0x27) := by
  rw [List.mem_flatten] at hx
  obtain ⟨l, hl, hxl⟩ := hx
  obtain ⟨c, hc, rfl⟩ := List.mem_map.mp hl
  rcases escapeChar_cases c with ⟨h, _⟩ | ⟨h, h1, h2, h3⟩
  · exact Or.inl ⟨_, h, hxl⟩
  · rw [h] at hxl
    have : x = c := by simpa using hxl
    subst this
    exact Or.inr ⟨hc, h1, h2, h3⟩

theorem entities_chars :
    ∀ e ∈ entities, ∀ x ∈ e, x ≠ '<' ∧ x ≠ '>' ∧ x ≠ '"' ∧ x.toNat ≠ 0x27 := by decide

theorem upper_toLower_isLower :
    ∀ n : Nat, 65 ≤ n → n ≤ 90 → isLower (Char.ofNat n).toLower = true := by
  intro n h1 h2
  interval_cases n <;> decide

/-- A character that the `i` flag identifies with a character that is not a letter is that
character. -/
theorem toLower_eq_of_not_letter (c x : Char) (hx : isLetter x = false) (h : c.toLower = x) :
    c = x := by
  by_cases hu : isUpper c = true
  · have h1 : 65 ≤ c.toNat ∧ c.toNat ≤ 90 := by simpa [isUpper] using hu
    have h2 := upper_toLower_isLower c.toNat h1.1 h1.2
    rw [Char.ofNat_toNat, h] at h2
    simp [isLetter, h2] at hx
  · rw [toLower_of_not_upper c (by simpa using hu)] at h
    exact h

/-- Where the text has no colon the pattern `javascript:` finds nothing to remove. -/
theorem replaceAll_javascript_of_no_colon (s : Str) (h : ':' ∉ s) :
    replaceAll javascriptRegex [] s = s := by
  apply replaceAllAux_of_no_match
  intro pre suf hs
  rw [Re.matchAt_eq_none_iff]
  intro p1 s1 hsem
  obtain ⟨m, hm1, hm2⟩ := litI_sem _ _ _ _ _ hsem
  have hc : ':' ∈ m.map Char.toLower := by rw [hm2]; decide
  obtain ⟨c, hcm, hcl⟩ := List.mem_map.mp hc
  have := toLower_eq_of_not_letter c ':' (by decide) hcl
  subst this
  exact h (by rw [hs, hm1]; simp [hcm])

/-- Where the text has no equals sign the handler pattern finds nothing to remove. -/
theorem replaceAll_handler_of_no_equals (s : Str) (h : '=' ∉ s) :
    replaceAll handlerRegex [] s = s := by
  apply replaceAllAux_of_no_match
  intro pre suf hs
  rw [Re.matchAt_eq_none_iff]
  intro p1 s1 hsem
  simp only [handlerRegex, Re.cat, List.foldr] at hsem
  obtain ⟨p2, s2, hon, hrest⟩ := Re.Sem.seq_inv hsem
  obtain ⟨m, hm1, _⟩ := hon.suffix
  obtain ⟨p3, s3, hw, hrest⟩ := Re.Sem.seq_inv hrest
  obtain ⟨m2, hm2, _⟩ := hw.suffix
  obtain ⟨p4, s4, heq, _⟩ := Re.Sem.seq_inv hrest
  obtain ⟨c, hc, hpc, _⟩ := Re.Sem.cls_inv heq
  have : c = '=' := by simpa using hpc
  subst this
  exact h (by rw [hs, hm1, hm2, hc]; simp)

/-- C25: for a string input, `sanitizeInput` trims the input, removes the characters `<`
and `>`, the matches of `javascript:` and of the handler pattern, and then rewrites the text
character by character: `&` becomes `&amp;`, the double quote `&quot;`, the apostrophe
`&#x27;`, and every other character stays. So the output contains none of the characters
`<`, `>`, double quote and apostrophe, and every `&` in it is the start of one of these
three entities; an input without `<`, `>`, `:` and `=` loses nothing but the whitespace
around it. For an input that is not a string the output is the empty string. -/
theorem sanitizeInput_escapes (input : Str) :
    (∀ x ∈ sanitizeInput (some input),
      x ≠ '<' ∧ x ≠ '>' ∧ x ≠ '"' ∧ x.toNat ≠ 0x27) ∧
    EntitiesOnly (sanitizeInput (some input)) ∧
    entities = ["&amp;".toList, "&quot;".toList, "&#x27;".toList] ∧
    sanitizeInput none = [] ∧
    sanitizeInput (some input)
      = ((replaceAll handlerRegex [] (replaceAll javascriptRegex []
          (replaceAll angleRegex [] (trim input)))).map escapeChar).flatten ∧
    (escapeChar '&' = "&amp;".toList ∧ escapeChar '"' = "&quot;".toList ∧
      escapeChar (Char.ofNat 0x27) = "&#x27;".toList ∧
      ∀ c : Char, c ≠ '&' → c ≠ '"' → c.toNat ≠ 0x27 → escapeChar c = [c]) ∧
    ('<' ∉ input → '>' ∉ input → ':' ∉ input → '=' ∉ input →
      sanitizeInput (some input) = ((trim input).map escapeChar).flatten) ∧
    sanitizeInput (some " Tom & \"Jerry\" said: it\x27s <b>x</b> ".toList)
      = "Tom &amp; &quot;Jerry&quot; said: it&#x27;s bx/b".toList := by
  have hout : sanitizeInput (some input)
      = ((replaceAll handlerRegex [] (replaceAll javascriptRegex []
          (replaceAll angleRegex [] (trim input)))).map escapeChar).flatten := by
    simp only [sanitizeInput, escape_steps]
  refine ⟨?_, ?_, rfl, rfl, hout, ⟨by decide, by decide, by decide, ?_⟩, ?_, by decide⟩
  · intro x hx
    rw [hout] at hx
    rcases mem_escape _ x hx with ⟨e, he, hxe⟩ | ⟨hxs, h1, h2, h3⟩
    · exact entities_chars e he x hxe
    · have hx1 : x ∈ replaceAll angleRegex [] (trim input) := by
        rcases mem_replaceAll _ _ _ _ hxs with h | h
        · simp at h
        · rcases mem_replaceAll _ _ _ _ h with h | h
          · simp at h
          · exact h
      refine ⟨?_, ?_, h2, h3⟩
      · intro e
        subst e
        have := replaceAll_cls_class _ _ _ _ hx1 (by decide)
        simp at this
      · intro e
        subst e
        have := replaceAll_cls_class _ _ _ _ hx1 (by decide)
        simp at this
  · rw [hout]
    exact entitiesOnly_of_ok _ (entitiesOk_escape _)
  · intro c h1 h2 h3
    rcases escapeChar_cases c with ⟨_, h | h | h⟩ | ⟨h, _⟩
    · exact absurd h h1
    · exact absurd h h2
    · exact absurd h h3
    · exact h
  · intro h1 h2 h3 h4
    have hsub : ∀ x : Char, x ∉ input → x ∉ trim input :=
      fun x hx hxt => hx ((trim_part input).subset hxt)
    rw [hout, show angleRegex = Re.cls (fun c => c == '<' || c == '>') from rfl,
      replaceAll_cls_of_not_mem _ _ _ (by
        intro x hx
        have e1 : x ≠ '<' := fun e => hsub _ h1 (e ▸ hx)
        have e2 : x ≠ '>' := fun e => hsub _ h2 (e ▸ hx)
        simp [e1, e2]),
      replaceAll_javascript_of_no_colon _ (hsub _ h3),
      replaceAll_handler_of_no_equals _ (hsub _ h4)]

/-! ## The password (claim C26) -/

theorem matchAllAux_cls_isEmpty (p : Char → Bool) :
    ∀ (s : Str) (prev : Option Char),
      (matchAllAux (Re.cls p) 0 prev s).isEmpty = !s.any p := by
  intro s
  induction s with
  | nil => intro prev; simp [matchAllAux, Re.matchAt, Re.run]
  | cons c cs ih =>
    intro prev
    by_cases hp : p c = true
    · simp [matchAllAux, Re.matchAt_cls_cons, hp]
    · simp [matchAllAux, Re.matchAt_cls_cons, hp, ih]

/-- A one-character pattern is found in a text when a character of the class occurs. -/
theorem test_cls (p : Char → Bool) (s : Str) : test (Re.cls p) s = s.any p := by
  simp [test, matchAll, matchAllAux_cls_isEmpty]

theorem strengthOf_eq (password : Str) : strengthOf password = classCount password := by
  simp only [strengthOf, classCount, test_cls]

theorem classCount_le (password : Str) : classCount password ≤ 4 := by
  unfold classCount
  exact le_trans (List.length_filter_le _ _) (by simp)

/-- The passwords that `validatePassword` accepts. -/
theorem validatePassword_valid_iff (p : Str) :
    (validatePassword (some p)).valid = true ↔
      p ≠ [] ∧ 8 ≤ utf16Length p ∧ utf16Length p ≤ 128 ∧ 3 ≤ classCount p := by
  unfold validatePassword
  simp only [strengthOf_eq]
  by_cases h0 : p = []
  · subst h0; simp
  · have h0' : p.isEmpty = false := by cases p <;> simp_all
    simp only [h0', Bool.false_eq_true, if_false]
    by_cases h1 : utf16Length p < 8
    · simp [h1]
    · by_cases h2 : utf16Length p > 128
      · simp [h1, h2]
      · by_cases h3 : classCount p < 3
        · simp [h1, h2, h3]
        · simp only [h1, h2, h3, if_false]
          simp only [ne_eq, h0, not_false_eq_true, true_and, true_iff]
          omega

set_option maxRecDepth 20000 in
/-- C26 (failing input): a password of exactly 128 characters (`Aa1` and 125 times `a`) is
accepted with strength 3, although the message of the length test reads `Password must be
less than 128 characters`: the test is `length > 128`. Otherwise the accepted passwords are
the non-empty strings of 8 to 128 characters with at least 3 of the 4 classes, and the
strength returned is the number of classes present, 3 or 4. -/
theorem validatePassword_accepts_128 :
    utf16Length ("Aa1".toList ++ List.replicate 125 'a') = 128 ∧
    validatePassword (some ("Aa1".toList ++ List.replicate 125 'a'))
      = { valid := true, error := none, strength := some 3 } ∧
    validatePassword (some ("Aa1".toList ++ List.replicate 126 'a'))
      = { valid := false, error := some "Password must be less than 128 characters".toList,
          strength := none } ∧
    (validatePassword (some "Abcdefg1".toList)).valid = true ∧
    (validatePassword (some "abcdefg1".toList)).valid = false ∧
    (validatePassword (some "Abcdef1".toList)).valid = false ∧
    (validatePassword (some [])).valid = false ∧
    (validatePassword none).valid = false ∧
    (∀ p : Str, (validatePassword (some p)).valid = true ↔
      p ≠ [] ∧ 8 ≤ utf16Length p ∧ utf16Length p ≤ 128 ∧ 3 ≤ classCount p) ∧
    (∀ p : Str, (validatePassword (some p)).valid = true ↔
      (validatePassword (some p)).strength = some (classCount p) ∧
        (classCount p = 3 ∨ classCount p = 4)) := by
  refine ⟨by decide, by decide, by decide, by decide, by decide, by decide, by decide,
    by decide, validatePassword_valid_iff, ?_⟩
  intro p
  constructor
  · intro h
    have h2 := (validatePassword_valid_iff p).mp h
    have h3 := classCount_le p
    refine ⟨?_, by omega⟩
    unfold validatePassword at h ⊢
    simp only [strengthOf_eq] at h ⊢
    split_ifs at h ⊢
    simp_all
  · rintro ⟨h, _⟩
    unfold validatePassword at h ⊢
    simp only at h ⊢
    split_ifs at h ⊢
    simp_all

/-! ## The stored analyses (claim C27) -/

theorem sliceLast_append_one {α : Type} (n : Nat) (L : List α) (r : α) :
    sliceLast (n + 1) (L ++ [r]) = sliceLast n L ++ [r] := by
  unfold sliceLast
  have e : (L ++ [r]).length - (n + 1) = L.length - n := by simp
  rw [e, List.drop_append_of_le_length (Nat.sub_le _ _)]

theorem sliceLast_length {α : Type} (n : Nat) (L : List α) :
    (sliceLast n L).length = min n L.length := by
  unfold sliceLast
  rw [List.length_drop]
  omega

/-- C27: `saveAnalysis` keeps only the last 10 analyses. When the store answers, after
`saveAnalysis` on a stored list `L` the stored list is the last 10 elements of the list
made of `L` followed by the new record, that is the last 9 elements of `L`, in their order,
and then the new record: it has `min 10 (L.length + 1)` entries, so never more than 10,
its last entry is the new record, which is also the value returned, and the older entries
kept are a suffix of `L`. -/
theorem saveAnalysis_keeps_last_ten (kv : KvStore) (L : List AnalysisRecord) (now : Nat)
    (timestamp analysisData resumeName : Str)
    (hget : kv.getOk = true) (hset : kv.setOk = true) (hL : kv.userAnalyses = some L) :
    ∃ r kv1, saveAnalysis kv now timestamp analysisData resumeName = .ok (r, kv1) ∧
      r = { id := now, resumeName := resumeName, analysis := analysisData,
            timestamp := timestamp } ∧
      kv1.userAnalyses = some (sliceLast 10 (L ++ [r])) ∧
      sliceLast 10 (L ++ [r]) = (L ++ [r]).drop ((L ++ [r]).length - 10) ∧
      sliceLast 10 (L ++ [r]) = L.drop (L.length - 9) ++ [r] ∧
      (sliceLast 10 (L ++ [r])).length = min 10 (L.length + 1) ∧
      (sliceLast 10 (L ++ [r])).length ≤ 10 ∧
      (sliceLast 10 (L ++ [r])).getLast? = some r ∧
      L.drop (L.length - 9) <:+ L ∧
      kv1.getOk = kv.getOk ∧ kv1.setOk = kv.setOk := by
  refine ⟨{ id := now, resumeName := resumeName, analysis := analysisData,
            timestamp := timestamp }, { kv with userAnalyses := some (sliceLast 10
              (L ++ [{ id := now, resumeName := resumeName, analysis := analysisData,
                       timestamp := timestamp }])) }, ?_, rfl, rfl, rfl, ?_, ?_, ?_, ?_,
    List.drop_suffix _ _, rfl, rfl⟩
  · simp only [saveAnalysis, KvStore.get, KvStore.set, hget, hset, hL, if_true,
      Option.getD_some]
  · exact sliceLast_append_one 9 L _
  · rw [sliceLast_length]; simp
  · rw [sliceLast_length]; exact Nat.min_le_left _ _
  · rw [sliceLast_append_one 9 L]; simp

/-- Witness for C27: a store that holds ten analyses, numbered 0 to 9. -/
theorem saveAnalysis_keeps_last_ten_witness :
    ∃ r kv1, saveAnalysis
        { userAnalyses := some ((List.range 10).map (fun i =>
            { id := i, resumeName := "cv.pdf".toList, analysis := [], timestamp := [] })),
          getOk := true, setOk := true, setFailure := [] } 10 "2026".toList "ok".toList "new.pdf".toList
        = .ok (r, kv1) ∧
      kv1.userAnalyses = some (((List.range 10).map (fun i =>
            ({ id := i, resumeName := "cv.pdf".toList, analysis := [], timestamp := [] } :
              AnalysisRecord))).drop 1 ++ [r]) ∧
      (kv1.userAnalyses.getD []).length = 10 := by
  obtain ⟨r, kv1, h1, _, h3, _, h5, h6, _⟩ := saveAnalysis_keeps_last_ten
    { userAnalyses := some ((List.range 10).map (fun i =>
        { id := i, resumeName := "cv.pdf".toList, analysis := [], timestamp := [] })),
      getOk := true, setOk := true, setFailure := [] }
    ((List.range 10).map (fun i =>
        { id := i, resumeName := "cv.pdf".toList, analysis := [], timestamp := [] }))
    10 "2026".toList "ok".toList "new.pdf".toList rfl rfl rfl
  refine ⟨r, kv1, h1, ?_, ?_⟩
  · rw [h3, h5]; rfl
  · rw [h3, Option.getD_some, h6]; rfl

/-! ## The LinkedIn value of the parser and the validator (claim C29) -/

theorem lastOr_none_eq_none (pre : Str) (h : lastOr none pre = none) : pre = [] := by
  unfold lastOr at h
  cases hl : pre.getLast? with
  | none => exact List.getLast?_eq_none_iff.mp hl
  | some c => rw [hl] at h; cases h

/-- The rule `url` only accepts a text that starts with `h`. -/
theorem test_rulesUrl_false (c : Char) (rest : Str) (hc : c ≠ 'h') :
    test rulesUrl (c :: rest) = false := by
  by_contra hne
  have ht : test rulesUrl (c :: rest) = true := by simpa using hne
  obtain ⟨pre, suf, hs, hm⟩ := (test_eq_true_iff _ _).mp ht
  obtain ⟨p1, s1, hsem⟩ := (Re.matchAt_isSome_iff _ _ _).mp hm
  simp only [rulesUrl, Re.cat, List.foldr] at hsem
  obtain ⟨p2, s2, hb, hrest⟩ := Re.Sem.seq_inv hsem
  obtain ⟨hpre, _, e2⟩ := Re.Sem.bos_inv hb
  have hnil := lastOr_none_eq_none pre hpre
  subst hnil
  subst e2
  obtain ⟨p3, s3, hlit, _⟩ := Re.Sem.seq_inv hrest
  have hl : Re.lit "http".toList
      = Re.seq (Re.chr 'h') (Re.lit "ttp".toList) := rfl
  rw [hl] at hlit
  obtain ⟨p4, s4, hh, _⟩ := Re.Sem.seq_inv hlit
  obtain ⟨d, hd, hpd, _⟩ := Re.Sem.cls_inv hh
  simp only [List.nil_append] at hs
  rw [← hs] at hd
  have : c = d := (List.cons.inj hd).1
  subst this
  exact hc (by simpa using hpd)

/-- What the parser reports as LinkedIn starts with `linkedin.com/`, in some letter case. -/
theorem linkedin_shape (text : Str) (h : firstMatch linkedinRegex text ≠ []) :
    ∃ m rest, firstMatch linkedinRegex text = m ++ rest ∧
      m.map Char.toLower = "linkedin.com/".toList := by
  rcases firstMatch_leftmost linkedinRegex text with ⟨h1, _⟩ | ⟨pre, post, _, ⟨p1, hsem⟩, _⟩
  · exact absurd h1 h
  · simp only [linkedinRegex] at hsem
    obtain ⟨p2, s2, halt, hplus⟩ := Re.Sem.seq_inv hsem
    obtain ⟨u, _, hu, _, _⟩ := Re.Sem.plus_inv hplus
    rcases Re.Sem.alt_inv halt with hl | hl
    · obtain ⟨m, hm1, hm2⟩ := litI_sem _ _ _ _ _ hl
      rw [hu, ← List.append_assoc] at hm1
      have hfm : firstMatch linkedinRegex text = m ++ u := List.append_cancel_right hm1
      refine ⟨m.take 13, m.drop 13 ++ u, ?_, ?_⟩
      · rw [← List.append_assoc, List.take_append_drop, hfm]
      · rw [List.map_take, hm2]; rfl
    · obtain ⟨m, hm1, hm2⟩ := litI_sem _ _ _ _ _ hl
      rw [hu, ← List.append_assoc] at hm1
      have hfm : firstMatch linkedinRegex text = m ++ u := List.append_cancel_right hm1
      exact ⟨m, u, hfm, hm2⟩

theorem toLower_eq_l (c : Char) (h : c.toLower = 'l') : c ≠ 'h' := by
  intro e; subst e; revert h; decide

/-- The facts on the LinkedIn value of one personal-information record of the parser. -/
theorem linkedin_facts (text : Str) (h : (extractPersonalInfo text).linkedin ≠ []) :
    toLowerCase ((extractPersonalInfo text).linkedin.take 13) = "linkedin.com/".toList ∧
    (∃ c rest, (extractPersonalInfo text).linkedin = c :: rest ∧ c.toLower = 'l') ∧
    validateLinkedIn (extractPersonalInfo text).linkedin
      = { valid := false,
          error := some "Please enter a valid URL (e.g., https://example.com)".toList } ∧
    (validatePersonalInfo (extractPersonalInfo text)).valid = false ∧
    "LinkedIn: Please enter a valid URL (e.g., https://example.com)".toList
      ∈ (validatePersonalInfo (extractPersonalInfo text)).errors := by
  have hl : (extractPersonalInfo text).linkedin = firstMatch linkedinRegex text := rfl
  obtain ⟨m, rest, hm1, hm2⟩ := linkedin_shape text (by rw [← hl]; exact h)
  have hlen : m.length = 13 := by
    have := congrArg List.length hm2
    simpa using this
  have htake : (extractPersonalInfo text).linkedin.take 13 = m := by
    rw [hl, hm1, List.take_append_of_le_length (by omega), List.take_of_length_le (by omega)]
  have hhead : ∃ c rest, (extractPersonalInfo text).linkedin = c :: rest ∧ c.toLower = 'l' := by
    cases m with
    | nil => simp at hlen
    | cons c m1 =>
      refine ⟨c, m1 ++ rest, by rw [hl, hm1]; rfl, ?_⟩
      simp only [List.map_cons] at hm2
      exact (List.cons.inj hm2).1
  obtain ⟨c, rest1, hc1, hc2⟩ := hhead
  have hurl : test rulesUrl (extractPersonalInfo text).linkedin = false := by
    rw [hc1]; exact test_rulesUrl_false c rest1 (toLower_eq_l c hc2)
  have hne : (extractPersonalInfo text).linkedin.isEmpty = false := by
    rw [hc1]; rfl
  have hv : validateLinkedIn (extractPersonalInfo text).linkedin
      = { valid := false,
          error := some "Please enter a valid URL (e.g., https://example.com)".toList } := by
    simp [validateLinkedIn, validateURL, hne, hurl]
  have hascii : ∀ x ∈ m, x.toNat < 0x80 := by
    intro x hx
    have h1 : x.toLower ∈ m.map Char.toLower := List.mem_map.mpr ⟨x, hx, rfl⟩
    rw [hm2] at h1
    apply toLower_ascii
    revert h1
    generalize x.toLower = y
    revert y
    decide
  refine ⟨by rw [htake, toLowerCase_ascii m hascii]; exact hm2, ⟨c, rest1, hc1, hc2⟩, hv, ?_, ?_⟩
  · simp [validatePersonalInfo, pushError, hne, hv]
  · simp only [validatePersonalInfo]
    rw [hv]
    simp only [pushError, hne]
    simp

theorem validateResumeData_of_invalid_info (r : ResumeData)
    (hv : (validatePersonalInfo r.personalInfo).valid = false) (e : Str)
    (he : e ∈ (validatePersonalInfo r.personalInfo).errors) :
    (validateResumeData r).valid = false ∧ e ∈ (validateResumeData r).errors := by
  have hne : (validatePersonalInfo r.personalInfo).errors ≠ [] := by
    intro h; rw [h] at he; simp at he
  simp only [validateResumeData, hv, Bool.not_false, if_true]
  constructor
  · split <;> simp [hne]
  · split <;> simp [he]

/-- C29: for every text, a non-empty `linkedin` value of `extractPersonalInfo` starts with
`linkedin.com/` in some letter case, so not with `http://` or `https://`;
`validateLinkedIn` rejects it (with the error of `validateURL`), `validatePersonalInfo`
reports an error with the label `LinkedIn` and is not valid, and `validateResumeData` on the
record that `extractResumeData` builds returns `valid = false`. -/
theorem parser_linkedin_is_rejected (text : Str)
    (h : (extractPersonalInfo text).linkedin ≠ []) :
    toLowerCase ((extractPersonalInfo text).linkedin.take 13) = "linkedin.com/".toList ∧
    ¬ ("http://".toList <+: (extractPersonalInfo text).linkedin) ∧
    ¬ ("https://".toList <+: (extractPersonalInfo text).linkedin) ∧
    (validateLinkedIn (extractPersonalInfo text).linkedin).valid = false ∧
    validateLinkedIn (extractPersonalInfo text).linkedin
      = validateURL (extractPersonalInfo text).linkedin ∧
    (validatePersonalInfo (extractPersonalInfo text)).valid = false ∧
    "LinkedIn: Please enter a valid URL (e.g., https://example.com)".toList
      ∈ (validatePersonalInfo (extractPersonalInfo text)).errors ∧
    (∀ r, extractResumeData text = .ok r → r.personalInfo.linkedin ≠ [] →
      (validateResumeData r).valid = false ∧
      "LinkedIn: Please enter a valid URL (e.g., https://example.com)".toList
        ∈ (validateResumeData r).errors) := by
  obtain ⟨h1, ⟨c, rest, hc1, hc2⟩, h3, h4, h5⟩ := linkedin_facts text h
  have hnh : ∀ t : Str, ¬ (('h' :: t) <+: (extractPersonalInfo text).linkedin) := by
    intro t hp
    rw [hc1] at hp
    obtain ⟨u, hu⟩ := hp
    have : c = 'h' := ((List.cons.inj hu).1).symm
    exact toLower_eq_l c hc2 this
  refine ⟨h1, hnh _, hnh _, by rw [h3], ?_, h4, h5, ?_⟩
  · rw [h3]
    have hurl : test rulesUrl (extractPersonalInfo text).linkedin = false := by
      rw [hc1]; exact test_rulesUrl_false c rest (toLower_eq_l c hc2)
    have hne : (extractPersonalInfo text).linkedin.isEmpty = false := by rw [hc1]; rfl
    simp [validateURL, hne, hurl]
  · intro r hr hlr
    obtain ⟨_, hpi, _⟩ := extractResumeData_fields text r hr
    rw [hpi] at hlr
    obtain ⟨_, _, _, g4, g5⟩ := linkedin_facts r.rawText hlr
    rw [← hpi] at g4 g5
    exact validateResumeData_of_invalid_info r g4 _ g5

/-- Witness for C29: a contact line with a full LinkedIn address. -/
theorem parser_linkedin_is_rejected_witness :
    (extractPersonalInfo "Jane Doe\nhttps://www.linkedin.com/in/jane-doe".toList).linkedin
      = "linkedin.com/in/jane-doe".toList ∧
    (validateLinkedIn
      (extractPersonalInfo "Jane Doe\nhttps://www.linkedin.com/in/jane-doe".toList).linkedin).valid
      = false :=
  ⟨by decide,
    (parser_linkedin_is_rejected "Jane Doe\nhttps://www.linkedin.com/in/jane-doe".toList
      (by decide)).2.2.2.1⟩

end Nova
